import Mathlib

/-!
Verification development for the sajson single-allocation JSON parser
(src/cbits/sajson.hpp).  The parser is embedded shallowly:

* the input buffer is a `List Nat` of byte values (0..255); in-place
  mutation performed by the string decoder is modelled with `List.set`,
  which preserves the length of the buffer;
* machine words (`size_t`, 64-bit) are `Nat`; the tagged-element codec
  `make_element` / `get_element_tag` / `get_element_value` is exact for
  every value that fits in the 61-bit value field, which covers all
  offsets a real arena can produce;
* the two stacks of the single-allocation arena are modelled by their
  logical contents: `scratch` (low stack, index 0 = bottom) and `ast`
  (high stack, head = most recently reserved cell, i.e. lowest address);
  counts of words are the lengths of these lists;
* IEEE-754 doubles are modelled by `FP`: either an exact rational or one
  of the special values inf, neginf, nan.  Arithmetic on finite values is
  exact (rounding is abstracted); the special-value rules used by the
  parser (the `d != 0.0` guard, multiplication by infinity) are modelled
  faithfully.  The `pow10` table holds the exact powers of ten; the C
  table holds their nearest doubles.
* loops are written as fuelled or suffix-structural recursions; every
  call site passes enough fuel, and running out of fuel is a separate
  `stuck` outcome that is never conflated with a real result.

Definitions mirror the C++ source; several C labels/gotos become the
explicit `Phase` state machine with one step per label transition.
-/

namespace Sajson

/-- Error codes, mirroring `enum error` of the source. -/
inductive ParseError
  | NO_ERROR
  | OUT_OF_MEMORY
  | UNEXPECTED_END
  | MISSING_ROOT_ELEMENT
  | BAD_ROOT
  | EXPECTED_COMMA
  | MISSING_OBJECT_KEY
  | EXPECTED_COLON
  | EXPECTED_END_OF_INPUT
  | UNEXPECTED_COMMA
  | EXPECTED_VALUE
  | EXPECTED_NULL
  | EXPECTED_FALSE
  | EXPECTED_TRUE
  | INVALID_NUMBER
  | MISSING_EXPONENT
  | ILLEGAL_CODEPOINT
  | INVALID_UNICODE_ESCAPE
  | UNEXPECTED_END_OF_UTF16
  | EXPECTED_U
  | INVALID_UTF16_TRAIL_SURROGATE
  | UNKNOWN_ESCAPE
  | INVALID_UTF8
  | UNINITIALIZED
  deriving DecidableEq

/-- AST value tags, mirroring `enum class tag`. -/
inductive Tag
  | integer
  | double_
  | null
  | false_
  | true_
  | string
  | array
  | object
  deriving DecidableEq

/-- Numeric value of a tag (the low 3 bits of an AST word). -/
def Tag.toNat : Tag → Nat
  | .integer => 0
  | .double_ => 1
  | .null => 2
  | .false_ => 3
  | .true_ => 4
  | .string => 5
  | .array => 6
  | .object => 7

/-- Inverse of `Tag.toNat` on 0..7. -/
def tag_of_nat (n : Nat) : Tag :=
  match n with
  | 0 => .integer
  | 1 => .double_
  | 2 => .null
  | 3 => .false_
  | 4 => .true_
  | 5 => .string
  | 6 => .array
  | _ => .object

/-- TAG_BITS = 3; the value mask of a 64-bit word. -/
def VALUE_MASK : Nat := 2 ^ 61 - 1

/-- ROOT_MARKER: all bits set in the value field. -/
def ROOT_MARKER : Nat := VALUE_MASK

/-- make_element(tag, value) = (value << 3) | tag.  Exact (no truncation)
for value ≤ VALUE_MASK, which holds for every offset and for ROOT_MARKER. -/
def make_element (t : Tag) (v : Nat) : Nat := v * 8 + t.toNat

/-- get_element_tag(s) = s & 7. -/
def get_element_tag (s : Nat) : Tag := tag_of_nat (s % 8)

/-- get_element_value(s) = s >> 3. -/
def get_element_value (s : Nat) : Nat := s / 8

/-- Byte-class: plain ASCII string character (bit 0 of parse_flags):
0x20..0x7f except quote (0x22) and backslash (0x5c). -/
def is_plain_string_character (b : Nat) : Bool :=
  0x20 ≤ b && b ≤ 0x7f && b ≠ 0x22 && b ≠ 0x5c

/-- Byte-class: whitespace (bit 1 of parse_flags): tab, newline,
carriage return, space. -/
def is_whitespace (b : Nat) : Bool :=
  b = 9 || b = 10 || b = 13 || b = 32

/-- skip_whitespace helper: scans the suffix of the input starting at
absolute position `p`; returns the position of the first
non-whitespace byte, or `none` at end of input. -/
def skip_ws_aux : List Nat → Nat → Option Nat
  | [], _ => none
  | b :: rest, p => if is_whitespace b then skip_ws_aux rest (p + 1) else some p

/-- skip_whitespace(p): first non-whitespace position at or after `p`,
`none` if the rest of the input is whitespace (the C version returns
a null pointer). -/
def skip_whitespace (input : List Nat) (p : Nat) : Option Nat :=
  skip_ws_aux (input.drop p) p

/-!  The single-allocation arena.  `single_allocation::stack_head::push`
writes at the low stack top and bumps it; it reports success
unconditionally — the source performs no comparison against the high
stack top (`*stack_top++ = element; return true;`).  Likewise
`reserve` and the allocator's AST-side `reserve` always succeed.  The
model keeps the word counts and contents of both regions. -/

/-- State of the single-allocation arena: total size in words, the words
of the low (scratch) stack, and the number of words reserved from the
high end (the AST write offset). -/
structure ArenaState where
  size : Nat
  stack : List Nat
  write_offset : Nat
  deriving DecidableEq

/-- Low stack top as a word index (stack grows up from 0). -/
def ArenaState.stack_top (a : ArenaState) : Nat := a.stack.length

/-- High stack top (the AST write cursor) as a word index
(AST grows down from `size`). -/
def ArenaState.write_cursor (a : ArenaState) : Nat := a.size - a.write_offset

/-- stack_head::push: writes the element at the low stack top, bumps the
top, and returns true — unconditionally, exactly as in the source. -/
def stack_push (a : ArenaState) (element : Nat) : ArenaState × Bool :=
  ({ a with stack := a.stack ++ [element] }, true)

/-- stack_head::reserve: returns the current low top, bumps it by
`amount`, and sets success to true — unconditionally. -/
def stack_reserve (a : ArenaState) (amount : Nat) : ArenaState × Nat × Bool :=
  ({ a with stack := a.stack ++ List.replicate amount 0 }, a.stack.length, true)

/-- allocator::reserve for the AST side: bumps the write cursor down,
always succeeding. -/
def ast_reserve (a : ArenaState) (amount : Nat) : ArenaState × Bool :=
  ({ a with write_offset := a.write_offset + amount }, true)

/-!  Error position computation (`parser::make_error`).  The C code walks
from the start of the (possibly already mutated) input up to the
failure pointer, counting `\r`, `\n` and the two-byte `\r\n` as single
line breaks.  Only the prefix strictly before the pointer is
inspected (the lookahead for `\n` after `\r` is guarded by
`c + 1 < p`), so the walk is modelled as a recursion over that
prefix. -/

/-- The walk of `make_error`, transcribed over the byte prefix before the
failure pointer.  Accumulates (line, column); on a carriage return the
lookahead consumes a following line feed when it lies inside the
prefix. -/
def make_error_walk : List Nat → Nat → Nat → Nat × Nat
  | [], line, col => (line, col)
  | c :: rest, line, col =>
    if c = 13 then
      match rest with
      | c2 :: rest' =>
        if c2 = 10 then make_error_walk rest' (line + 1) 1
        else make_error_walk (c2 :: rest') (line + 1) 1
      | [] => (line + 1, 1)
    else if c = 10 then make_error_walk rest (line + 1) 1
    else make_error_walk rest line (col + 1)

/-- make_error's (line, column): one-based, computed from the prefix of
the input before position `p`. -/
def make_error_pos (input : List Nat) (p : Nat) : Nat × Nat :=
  make_error_walk (input.take p) 1 1

/-- Specification-side line count: the number of line breaks in a byte
sequence, where `\n`, `\r`, and the two-byte sequence `\r\n` each
count as exactly one break. -/
def line_breaks : List Nat → Nat
  | [] => 0
  | c :: rest =>
    if c = 13 then
      match rest with
      | c2 :: rest' =>
        if c2 = 10 then 1 + line_breaks rest' else 1 + line_breaks (c2 :: rest')
      | [] => 1
    else if c = 10 then 1 + line_breaks rest
    else line_breaks rest

/-- A byte that is neither carriage return nor line feed. -/
def not_break (b : Nat) : Bool := b ≠ 13 && b ≠ 10

/-- Specification-side column: the number of bytes since the last line
break, i.e. the longest suffix free of `\r` and `\n` bytes (the final
byte of any break form is `\r` or `\n`). -/
def bytes_since_break (l : List Nat) : Nat :=
  (l.reverse.takeWhile not_break).length

/-!  The double model. -/

/-- Model of an IEEE-754 double: an exact rational, or infinity,
negative infinity, or NaN.  Rounding of finite arithmetic is
abstracted (finite operations are exact). -/
inductive FP
  | finite (q : ℚ)
  | inf
  | neginf
  | nan
  deriving DecidableEq

/-- Negation of a double. -/
def fpNeg : FP → FP
  | .finite q => .finite (-q)
  | .inf => .neginf
  | .neginf => .inf
  | .nan => .nan

/-- Addition; the only special case the parser can reach is
finite + finite, but the IEEE rules are included. -/
def fpAdd : FP → FP → FP
  | .finite a, .finite b => .finite (a + b)
  | .nan, _ => .nan
  | _, .nan => .nan
  | .inf, .neginf => .nan
  | .neginf, .inf => .nan
  | .inf, _ => .inf
  | _, .inf => .inf
  | .neginf, _ => .neginf
  | _, .neginf => .neginf

/-- Multiplication with the IEEE special-value rules (0 × ∞ = NaN,
sign propagation for infinities).  The sign and zero tests of a
rational are phrased on its (reduced) numerator, which is equivalent
to testing the rational itself and keeps the definition
kernel-computable. -/
def fpMul : FP → FP → FP
  | .finite a, .finite b => .finite (a * b)
  | .nan, _ => .nan
  | _, .nan => .nan
  | .finite a, .inf => if a.num = 0 then .nan else if 0 < a.num then .inf else .neginf
  | .finite a, .neginf => if a.num = 0 then .nan else if 0 < a.num then .neginf else .inf
  | .inf, .finite b => if b.num = 0 then .nan else if 0 < b.num then .inf else .neginf
  | .neginf, .finite b => if b.num = 0 then .nan else if 0 < b.num then .neginf else .inf
  | .inf, .inf => .inf
  | .inf, .neginf => .neginf
  | .neginf, .inf => .neginf
  | .neginf, .neginf => .inf

/-- The `d != 0.0` test of the source (NaN compares unequal to zero,
and only finite zero compares equal; a rational is zero iff its
numerator is). -/
def fpIsZero : FP → Bool
  | .finite q => q.num = 0
  | _ => false

/-- INT_MAX for the 32-bit host `int`. -/
def INT_MAX : Int := 2147483647

/-- parser::pow10: +∞ above 308, 0.0 below −323, otherwise the table
entry for 10^e (the C table holds the nearest doubles to these exact
powers; the selection and clamping logic is modelled exactly, the
table entry is modelled as the exact power). -/
def pow10 (e : Int) : FP :=
  if 308 < e then .inf
  else if e < -323 then .finite 0
  else .finite ((10 : ℚ) ^ e)

/-!  Literal parsers (`parse_null`, `parse_false`, `parse_true`). -/

/-- parse_null: requires 4 remaining bytes and `ull` after the `n`. -/
def parse_null (input : List Nat) (p : Nat) : Except (ParseError × Nat) Nat :=
  if input.length - p < 4 then .error (.UNEXPECTED_END, p)
  else if input.getD (p + 1) 0 = 117 && input.getD (p + 2) 0 = 108
      && input.getD (p + 3) 0 = 108 then .ok (p + 4)
  else .error (.EXPECTED_NULL, p)

/-- parse_false: requires 5 remaining bytes and `alse` after the `f`. -/
def parse_false (input : List Nat) (p : Nat) : Except (ParseError × Nat) Nat :=
  if input.length - p < 5 then .error (.UNEXPECTED_END, p)
  else if input.getD (p + 1) 0 = 97 && input.getD (p + 2) 0 = 108
      && input.getD (p + 3) 0 = 115 && input.getD (p + 4) 0 = 101 then .ok (p + 5)
  else .error (.EXPECTED_FALSE, p)

/-- parse_true: requires 4 remaining bytes and `rue` after the `t`. -/
def parse_true (input : List Nat) (p : Nat) : Except (ParseError × Nat) Nat :=
  if input.length - p < 4 then .error (.UNEXPECTED_END, p)
  else if input.getD (p + 1) 0 = 114 && input.getD (p + 2) 0 = 117
      && input.getD (p + 3) 0 = 101 then .ok (p + 4)
  else .error (.EXPECTED_TRUE, p)

/-!  The number parser (`parser::parse_number`), split at the same
points as the C control flow: integer-digit loop, fraction loop,
exponent loop, final combination.  All loops are fuelled; the machine
passes `input.length + 1`, which strictly exceeds the number of
iterations (each iteration advances the read position and errors out
at end of input). -/

/-- Resulting stored number: a host `int` or a double. -/
inductive NumVal
  | asInt (i : Int)
  | asDbl (d : FP)
  deriving DecidableEq

/-- Result of `parse_number`: on success the position just past the
token and the stored value. -/
inductive NumRes
  | ok (pos : Nat) (val : NumVal)
  | err (code : ParseError) (pos : Nat)
  | stuck
  deriving DecidableEq

/-- Intermediate result of the integer-digit loop. -/
inductive IntLoopRes
  | ok (pos c : Nat) (i : Int) (d : FP) (tryDouble : Bool)
  | err (code : ParseError) (pos : Nat)
  | stuck

/-- The do-while loop over integer digits.  `c` is the byte at `p`
(already known to be a digit).  Promotion to double happens when
`i > INT_MAX / 10 - 9` before the digit is accumulated. -/
def int_digit_loop (input : List Nat) :
    Nat → Nat → Nat → Int → FP → Bool → IntLoopRes
  | 0, _, _, _, _, _ => .stuck
  | fuel + 1, p, c, i, d, tryDouble =>
    let p' := p + 1
    if p' = input.length then .err .UNEXPECTED_END p'
    else
      let digit : Int := (c : Int) - 48
      let promote := !tryDouble && decide (INT_MAX / 10 - 9 < i)
      let d0 := if promote then FP.finite (i : ℚ) else d
      let tryD : Bool := tryDouble || promote
      let i' := if tryD then i else 10 * i + digit
      let d' := if tryD then fpAdd (fpMul (.finite 10) d0) (.finite (digit : ℚ)) else d0
      let c' := input.getD p' 0
      if 48 ≤ c' && c' ≤ 57 then int_digit_loop input fuel p' c' i' d' tryD
      else .ok p' c' i' d' tryD

/-- Intermediate result of the fraction loop: position, next byte,
accumulated double, decremented exponent. -/
inductive FracLoopRes
  | ok (pos c : Nat) (d : FP) (exponent : Int)
  | err (code : ParseError) (pos : Nat)
  | stuck

/-- The do-while loop over fractional digits; each digit appends to `d`
and decrements the (int64) exponent. -/
def frac_digit_loop (input : List Nat) :
    Nat → Nat → Nat → FP → Int → FracLoopRes
  | 0, _, _, _, _ => .stuck
  | fuel + 1, p, c, d, exponent =>
    let p' := p + 1
    if p' = input.length then .err .UNEXPECTED_END p'
    else
      let d' := fpAdd (fpMul d (.finite 10)) (.finite (((c : Int) - 48 : Int) : ℚ))
      let exponent' := exponent - 1
      let c' := input.getD p' 0
      if 48 ≤ c' && c' ≤ 57 then frac_digit_loop input fuel p' c' d' exponent'
      else .ok p' c' d' exponent'

/-- Intermediate result of the exponent-digit loop. -/
inductive ExpLoopRes
  | ok (pos : Nat) (exp : Int)
  | err (code : ParseError) (pos : Nat)
  | stuck

/-- The loop over exponent digits; clamps to INT_MAX on overflow. -/
def exp_digit_loop (input : List Nat) :
    Nat → Nat → Nat → Int → ExpLoopRes
  | 0, _, _, _ => .stuck
  | fuel + 1, p, c, exp =>
    let digit : Int := (c : Int) - 48
    let exp' := if (INT_MAX - digit) / 10 < exp then INT_MAX else 10 * exp + digit
    let p' := p + 1
    if p' = input.length then .err .UNEXPECTED_END p'
    else
      let c' := input.getD p' 0
      if 48 ≤ c' && c' ≤ 57 then exp_digit_loop input fuel p' c' exp'
      else .ok p' exp'

/-- Final combination: multiply by pow10 unless the exponent is zero or
`d` is zero, then apply the sign, then choose int or double storage. -/
def parse_number_finish (p : Nat) (negative : Bool) (i : Int) (d : FP)
    (tryDouble : Bool) (exponent : Int) : NumRes :=
  let d := if exponent ≠ 0 then (if fpIsZero d then d else fpMul d (pow10 exponent)) else d
  let i := if negative && !tryDouble then -i else i
  let d := if negative && tryDouble then fpNeg d else d
  if tryDouble then .ok p (.asDbl d) else .ok p (.asInt i)

/-- Optional exponent part (`e`/`E`, optional sign, digit run). -/
def parse_number_exp (input : List Nat) (p : Nat) (negative : Bool)
    (i : Int) (d : FP) (tryDouble : Bool) (exponent : Int) : NumRes :=
  let n := input.length
  let e := input.getD p 0
  if e = 101 || e = 69 then
    let d := if tryDouble then d else FP.finite (i : ℚ)
    let tryDouble := true
    let p := p + 1
    if p = n then .err .UNEXPECTED_END p
    else
      let negativeExponent := input.getD p 0 = 45
      let p := if negativeExponent || input.getD p 0 = 43 then p + 1 else p
      if p = n then .err .UNEXPECTED_END p
      else
        let c := input.getD p 0
        if c < 48 || 57 < c then .err .MISSING_EXPONENT p
        else
          match exp_digit_loop input (n + 1) p c 0 with
          | .stuck => .stuck
          | .err code q => .err code q
          | .ok p exp =>
            parse_number_finish p negative i d tryDouble
              (exponent + (if negativeExponent then -exp else exp))
  else
    parse_number_finish p negative i d tryDouble exponent

/-- Optional fractional part (`.` and a digit run). -/
def parse_number_frac (input : List Nat) (p : Nat) (negative : Bool)
    (i : Int) (d : FP) (tryDouble : Bool) : NumRes :=
  let n := input.length
  if input.getD p 0 = 46 then
    let d := if tryDouble then d else FP.finite (i : ℚ)
    let tryDouble := true
    let p := p + 1
    if p = n then .err .UNEXPECTED_END p
    else
      let c := input.getD p 0
      if c < 48 || 57 < c then .err .INVALID_NUMBER p
      else
        match frac_digit_loop input (n + 1) p c d 0 with
        | .stuck => .stuck
        | .err code q => .err code q
        | .ok p _ d exponent =>
          parse_number_exp input p negative i d tryDouble exponent
  else
    parse_number_exp input p negative i d tryDouble 0

/-- parser::parse_number.  `p` points at the first byte of the token
(a digit or `-`).  Allocator interaction (reserve of the payload
slot) is performed by the caller in this model; it always succeeds. -/
def parse_number (input : List Nat) (p : Nat) : NumRes :=
  let n := input.length
  let negative := input.getD p 0 = 45
  let p := if negative then p + 1 else p
  if negative && p = n then .err .UNEXPECTED_END p
  else if input.getD p 0 = 48 then
    let p := p + 1
    if p = n then .err .UNEXPECTED_END p
    else parse_number_frac input p negative 0 (.finite 0) false
  else
    let c := input.getD p 0
    if c < 48 || 57 < c then .err .INVALID_NUMBER p
    else
      match int_digit_loop input (n + 1) p c 0 (.finite 0) false with
      | .stuck => .stuck
      | .err code q => .err code q
      | .ok p _ i d tryD => parse_number_frac input p negative i d tryD

/-!  The string decoder. -/

/-- Result of the string decoder: the mutated input, the recorded
`[start, end)` byte offsets, and the position just past the closing
quote; or an error (carrying the input as mutated so far, the
position, and the optional byte argument). -/
inductive StrRes
  | ok (input' : List Nat) (startOff endOff pNext : Nat)
  | err (input' : List Nat) (code : ParseError) (pos : Nat) (arg : Int)
  | stuck
  deriving DecidableEq

/-- One hex digit: 0-9, a-f, A-F. -/
def read_hex_digit (c : Nat) : Option Nat :=
  if 48 ≤ c && c ≤ 57 then some (c - 48)
  else if 97 ≤ c && c ≤ 102 then some (c - 97 + 10)
  else if 65 ≤ c && c ≤ 70 then some (c - 65 + 10)
  else none

/-- The loop of read_hex: `k` digits remaining, accumulator `v`.  On an
invalid character the error position is one past it (the C code
increments the pointer before the check fails). -/
def read_hex_aux (input : List Nat) : Nat → Nat → Nat → Except (ParseError × Nat) (Nat × Nat)
  | 0, p, v => .ok (v, p)
  | k + 1, p, v =>
    match read_hex_digit (input.getD p 0) with
    | none => .error (.INVALID_UNICODE_ESCAPE, p + 1)
    | some c => read_hex_aux input k (p + 1) (v * 16 + c)

/-- parser::read_hex: reads 4 hex digits at `p`, returning the value and
the position after them. -/
def read_hex (input : List Nat) (p : Nat) : Except (ParseError × Nat) (Nat × Nat) :=
  read_hex_aux input 4 p 0

/-- parser::write_utf8: the 1/2/3/4-byte UTF-8 forms. -/
def write_utf8 (codepoint : Nat) : List Nat :=
  if codepoint < 0x80 then [codepoint]
  else if codepoint < 0x800 then
    [0xC0 ||| (codepoint >>> 6), 0x80 ||| (codepoint &&& 0x3F)]
  else if codepoint < 0x10000 then
    [0xE0 ||| (codepoint >>> 12), 0x80 ||| ((codepoint >>> 6) &&& 0x3F),
     0x80 ||| (codepoint &&& 0x3F)]
  else
    [0xF0 ||| (codepoint >>> 18), 0x80 ||| ((codepoint >>> 12) &&& 0x3F),
     0x80 ||| ((codepoint >>> 6) &&& 0x3F), 0x80 ||| (codepoint &&& 0x3F)]

/-- Writes a run of bytes into the input buffer starting at `pos`
(the in-place compaction writes of the slow path). -/
def write_bytes (input : List Nat) (pos : Nat) : List Nat → List Nat
  | [] => input
  | b :: rest => write_bytes (input.set pos b) (pos + 1) rest

/-- parser::parse_string_slow.  `p` is the read cursor, `endPos` the
write cursor (`end ≤ p`), `start` the recorded start offset.  Each
iteration consumes at least one input byte, so fuel
`input.length - p + 1` suffices. -/
def parse_string_slow (input : List Nat) (fuel : Nat) (p endPos start : Nat) : StrRes :=
  match fuel with
  | 0 => .stuck
  | fuel + 1 =>
    let n := input.length
    if n ≤ p then .err input .UNEXPECTED_END p 0
    else
      let b := input.getD p 0
      if b < 0x20 then .err input .ILLEGAL_CODEPOINT p (b : Int)
      else if b = 34 then .ok (input.set endPos 0) start endPos (p + 1)
      else if b = 92 then
        if n ≤ p + 1 then .err input .UNEXPECTED_END (p + 1) 0
        else
          let c := input.getD (p + 1) 0
          if c = 34 || c = 92 || c = 47 then
            parse_string_slow (input.set endPos c) fuel (p + 2) (endPos + 1) start
          else if c = 98 then
            parse_string_slow (input.set endPos 8) fuel (p + 2) (endPos + 1) start
          else if c = 102 then
            parse_string_slow (input.set endPos 12) fuel (p + 2) (endPos + 1) start
          else if c = 110 then
            parse_string_slow (input.set endPos 10) fuel (p + 2) (endPos + 1) start
          else if c = 114 then
            parse_string_slow (input.set endPos 13) fuel (p + 2) (endPos + 1) start
          else if c = 116 then
            parse_string_slow (input.set endPos 9) fuel (p + 2) (endPos + 1) start
          else if c = 117 then
            let p2 := p + 2
            if n - p2 < 4 then .err input .UNEXPECTED_END p2 0
            else
              match read_hex input p2 with
              | .error (e, q) => .err input e q 0
              | .ok (u, p3) =>
                if 0xD800 ≤ u && u ≤ 0xDBFF then
                  if n - p3 < 6 then .err input .UNEXPECTED_END_OF_UTF16 p3 0
                  else if input.getD p3 0 ≠ 92 || input.getD (p3 + 1) 0 ≠ 117 then
                    .err input .EXPECTED_U p3 0
                  else
                    match read_hex input (p3 + 2) with
                    | .error (e, q) => .err input e q 0
                    | .ok (v, p4) =>
                      if v < 0xDC00 || 0xDFFF < v then
                        .err input .INVALID_UTF16_TRAIL_SURROGATE p4 0
                      else
                        let cp := 0x10000 + (((u - 0xD800) <<< 10) ||| (v - 0xDC00))
                        let ws := write_utf8 cp
                        parse_string_slow (write_bytes input endPos ws) fuel p4
                          (endPos + ws.length) start
                else
                  let ws := write_utf8 u
                  parse_string_slow (write_bytes input endPos ws) fuel p3
                    (endPos + ws.length) start
          else .err input .UNKNOWN_ESCAPE (p + 1) 0
      else if b < 128 then
        parse_string_slow (input.set endPos b) fuel (p + 1) (endPos + 1) start
      else if b < 224 then
        if n - p < 2 then .err input .UNEXPECTED_END p 0
        else
          let c1 := input.getD (p + 1) 0
          if c1 < 128 || 192 ≤ c1 then .err input .INVALID_UTF8 (p + 1) 0
          else
            parse_string_slow ((input.set endPos b).set (endPos + 1) c1) fuel
              (p + 2) (endPos + 2) start
      else if b < 240 then
        if n - p < 3 then .err input .UNEXPECTED_END p 0
        else
          let c1 := input.getD (p + 1) 0
          if c1 < 128 || 192 ≤ c1 then .err input .INVALID_UTF8 (p + 1) 0
          else
            let c2 := input.getD (p + 2) 0
            if c2 < 128 || 192 ≤ c2 then .err input .INVALID_UTF8 (p + 2) 0
            else
              parse_string_slow (((input.set endPos b).set (endPos + 1) c1).set
                (endPos + 2) c2) fuel (p + 3) (endPos + 3) start
      else if b < 248 then
        if n - p < 4 then .err input .UNEXPECTED_END p 0
        else
          let c1 := input.getD (p + 1) 0
          if c1 < 128 || 192 ≤ c1 then .err input .INVALID_UTF8 (p + 1) 0
          else
            let c2 := input.getD (p + 2) 0
            if c2 < 128 || 192 ≤ c2 then .err input .INVALID_UTF8 (p + 2) 0
            else
              let c3 := input.getD (p + 3) 0
              if c3 < 128 || 192 ≤ c3 then .err input .INVALID_UTF8 (p + 3) 0
              else
                parse_string_slow ((((input.set endPos b).set (endPos + 1) c1).set
                  (endPos + 2) c2).set (endPos + 3) c3) fuel (p + 4) (endPos + 4) start
      else .err input .INVALID_UTF8 p 0

/-- The fast-path scan: position of the first non-plain byte at or
after `p`, `none` at end of input.  (The C version additionally
unrolls this scan four bytes at a time; the unrolled form inspects
exactly the same bytes in the same order.) -/
def scan_plain : List Nat → Nat → Option Nat
  | [], _ => none
  | b :: rest, p => if is_plain_string_character b then scan_plain rest (p + 1) else some p

/-- parser::parse_string: fast path over plain bytes; on the first
non-plain byte either succeed (closing quote, NUL written over it),
fail (control byte), or enter the slow path. -/
def parse_string (input : List Nat) (p : Nat) : StrRes :=
  let start := p + 1
  match scan_plain (input.drop start) start with
  | none => .err input .UNEXPECTED_END input.length 0
  | some q =>
    let b := input.getD q 0
    if b = 34 then .ok (input.set q 0) start q (q + 1)
    else if b < 0x20 then .err input .ILLEGAL_CODEPOINT q (b : Int)
    else parse_string_slow input (input.length - q + 1) q q start

/-!  Object key records and lookup (`object_key_record`,
`object_key_comparator`, `value::find_object_key`,
`parser::install_object`).  A record holds byte offsets into the
input buffer; `data` is that buffer. -/

/-- The threshold test `should_binary_search` (default threshold 100). -/
def should_binary_search (length : Nat) : Bool := 100 < length

/-- An object key record: key bounds as byte offsets into the input,
and the element word of the value. -/
structure object_key_record where
  key_start : Nat
  key_end : Nat
  value : Nat
  deriving DecidableEq

/-- The key bytes of a record: the slice `[key_start, key_end)` of the
input buffer. -/
def key_bytes (data : List Nat) (r : object_key_record) : List Nat :=
  (data.drop r.key_start).take (r.key_end - r.key_start)

/-- memcmp(a, b, len) < 0 for equal-length byte runs: strict
lexicographic comparison on the byte lists. -/
def bytes_lt : List Nat → List Nat → Bool
  | [], [] => false
  | [], _ :: _ => true
  | _ :: _, [] => false
  | a :: as, b :: bs => if a < b then true else if b < a then false else bytes_lt as bs

/-- object_key_comparator on two records: length first, then memcmp. -/
def object_key_record_lt (data : List Nat) (a b : object_key_record) : Bool :=
  let la := a.key_end - a.key_start
  let lb := b.key_end - b.key_start
  if la < lb then true
  else if lb < la then false
  else bytes_lt (key_bytes data a) (key_bytes data b)

/-- object_key_comparator on a record and a sought key string. -/
def record_lt_key (data : List Nat) (r : object_key_record) (key : List Nat) : Bool :=
  let lr := r.key_end - r.key_start
  if lr < key.length then true
  else if key.length < lr then false
  else bytes_lt (key_bytes data r) key

/-- object_key_record::match: equal length and equal bytes. -/
def record_match (data : List Nat) (r : object_key_record) (key : List Nat) : Bool :=
  r.key_end - r.key_start = key.length && key_bytes data r == key

/-- The sort performed by install_object when binary search will be
used: sorted by the length-then-memcmp comparator.  std::sort is
unstable, so the order among comparator-equal records is
unspecified; mergeSort picks one such permutation. -/
def sort_records (data : List Nat) (rs : List object_key_record) : List object_key_record :=
  rs.mergeSort (fun a b => !object_key_record_lt data b a)

/-- The key records as arranged by install_object: sorted iff the object
is long enough for binary search. -/
def install_object_records (data : List Nat) (rs : List object_key_record) :
    List object_key_record :=
  if should_binary_search rs.length then sort_records data rs else rs

/-- The linear scan of find_object_key: index of the first matching
record, or the total length. -/
def find_linear_aux (data : List Nat) (key : List Nat) :
    List object_key_record → Nat → Nat
  | [], acc => acc
  | r :: rest, acc =>
    if record_match data r key then acc else find_linear_aux data key rest (acc + 1)

/-- std::lower_bound over the record array: `first` and `count` delimit
the remaining range.  Each iteration halves `count`, so fuel
`count + 1` suffices. -/
def lower_bound_aux (data : List Nat) (key : List Nat) (rs : List object_key_record) :
    Nat → Nat → Nat → Nat
  | 0, first, _ => first
  | fuel + 1, first, count =>
    if count = 0 then first
    else
      let half := count / 2
      let mid := rs.getD (first + half) ⟨0, 0, 0⟩
      if record_lt_key data mid key then
        lower_bound_aux data key rs fuel (first + half + 1) (count - half - 1)
      else lower_bound_aux data key rs fuel first half

/-- value::find_object_key: binary search over the sorted records when
the object is long, else linear scan; returns the length when no key
matches. -/
def find_object_key (data : List Nat) (rs : List object_key_record) (key : List Nat) : Nat :=
  let length := rs.length
  if should_binary_search length then
    let i := lower_bound_aux data key rs (length + 1) 0 length
    if i ≠ length && record_match data (rs.getD i ⟨0, 0, 0⟩) key then i else length
  else find_linear_aux data key rs 0

/-!  The parser state machine.  The parse() labels become the `Phase`
constructors; each step of `step` performs the work of one label
(including any token-level parsing done before the next goto). -/

/-- A cell of the AST (high) stack.  Words carry structure, offsets and
the stored `int` pattern; a stored double is carried as its `FP`
value (its IEEE bit pattern is abstracted).  Every cell is one
machine word, as on a 64-bit host. -/
inductive Cell
  | word (w : Nat)
  | dbl (d : FP)
  deriving DecidableEq

/-- integer_storage::store: the low 32 bits hold the two's-complement
pattern of the int (the memcpy leaves the upper bytes of the arena
word unspecified; they are modelled as zero and never read). -/
def int_store (i : Int) : Nat := (i % 4294967296).toNat

/-- The labels of the parse() state machine.  `pop_frame` carries the
sentinel word read at the start of pop_array / pop_object. -/
inductive Phase
  | array_close_or_element
  | object_close_or_element
  | structure_close_or_comma
  | object_key
  | next_element
  | pop_frame (pop_element : Nat)
  deriving DecidableEq

/-- The parser state: input buffer (mutated in place), read position,
the scratch (low) stack words, the AST (high) stack cells (head =
lowest address, i.e. most recently reserved), and the current
structure frame. -/
structure PState where
  input : List Nat
  pos : Nat
  scratch : List Nat
  ast : List Cell
  current_base : Nat
  current_tag : Tag
  phase : Phase
  deriving DecidableEq

/-- Result of one machine step (or of a whole run). -/
inductive StepRes
  | next (st : PState)
  | done (root_tag : Tag) (ast : List Cell) (input : List Nat)
  | fail (input : List Nat) (code : ParseError) (pos : Nat) (arg : Int)
  | stuck
  deriving DecidableEq

/-- parser::install_array: the new record cells in memory order
(`[length, e0, ..., e_{L-1}]`); each element's value becomes its
payload offset relative to the new record base. -/
def install_array_cells (frame : List Nat) (astLen : Nat) : List Cell :=
  let L := frame.length
  let astLen' := astLen + L + 1
  Cell.word L :: frame.map (fun e =>
    Cell.word (make_element (get_element_tag e) (astLen' - get_element_value e)))

/-- Groups a scratch frame of 3L words into its L key records. -/
def to_object_records : List Nat → List object_key_record
  | ks :: ke :: v :: rest => ⟨ks, ke, v⟩ :: to_object_records rest
  | _ => []

/-- parser::install_object: sorts the records when binary search will be
used, then emits `[length, k0.start, k0.end, e0, ...]` with relative
value offsets. -/
def install_object_cells (data : List Nat) (frame : List Nat) (astLen : Nat) : List Cell :=
  let rs := install_object_records data (to_object_records frame)
  let L := rs.length
  let astLen' := astLen + 3 * L + 1
  Cell.word L :: rs.flatMap (fun r =>
    [Cell.word r.key_start, Cell.word r.key_end,
     Cell.word (make_element (get_element_tag r.value) (astLen' - get_element_value r.value))])

/-- The pop_array label: consume the `]`, read the sentinel, install the
record (the reserve always succeeds; the OOM branch of the source is
dead code with this allocator), and continue at pop. -/
def pop_array (st : PState) (p : Nat) : StepRes :=
  let pe := st.scratch.getD st.current_base 0
  let frame := st.scratch.drop (st.current_base + 1)
  .next { st with pos := p + 1,
                  ast := install_array_cells frame st.ast.length ++ st.ast,
                  phase := .pop_frame pe }

/-- The pop_object label. -/
def pop_object (st : PState) (p : Nat) : StepRes :=
  let pe := st.scratch.getD st.current_base 0
  let frame := st.scratch.drop (st.current_base + 1)
  .next { st with pos := p + 1,
                  ast := install_object_cells st.input frame st.ast.length ++ st.ast,
                  phase := .pop_frame pe }

/-- The common tail of next_element: push the element word (tag plus the
current write offset) and continue at structure_close_or_comma. -/
def push_value (st : PState) (p : Nat) (t : Tag) : StepRes :=
  .next { st with pos := p,
                  scratch := st.scratch ++ [make_element t st.ast.length],
                  phase := .structure_close_or_comma }

/-- One step of the parse() state machine. -/
def step (st : PState) : StepRes :=
  let input := st.input
  let n := input.length
  match st.phase with
  | .array_close_or_element =>
    match skip_whitespace input st.pos with
    | none => .fail input .UNEXPECTED_END n 0
    | some p =>
      if input.getD p 0 = 93 then pop_array st p
      else .next { st with pos := p, phase := .next_element }
  | .object_close_or_element =>
    match skip_whitespace input st.pos with
    | none => .fail input .UNEXPECTED_END n 0
    | some p =>
      if input.getD p 0 = 125 then pop_object st p
      else .next { st with pos := p, phase := .object_key }
  | .structure_close_or_comma =>
    match skip_whitespace input st.pos with
    | none => .fail input .UNEXPECTED_END n 0
    | some p =>
      if st.current_tag = .array then
        if input.getD p 0 = 93 then pop_array st p
        else if input.getD p 0 = 44 then
          .next { st with pos := p + 1, phase := .next_element }
        else .fail input .EXPECTED_COMMA p 0
      else
        if input.getD p 0 = 125 then pop_object st p
        else if input.getD p 0 = 44 then
          .next { st with pos := p + 1, phase := .object_key }
        else .fail input .EXPECTED_COMMA p 0
  | .pop_frame pe =>
    let parent := get_element_value pe
    if parent = ROOT_MARKER then
      match skip_whitespace input st.pos with
      | some p => .fail input .EXPECTED_END_OF_INPUT p 0
      | none => .done st.current_tag st.ast input
    else
      .next { st with
        scratch := st.scratch.take st.current_base
          ++ [make_element st.current_tag st.ast.length],
        current_base := parent,
        current_tag := get_element_tag pe,
        phase := .structure_close_or_comma }
  | .object_key =>
    match skip_whitespace input st.pos with
    | none => .fail input .UNEXPECTED_END n 0
    | some p =>
      if input.getD p 0 ≠ 34 then .fail input .MISSING_OBJECT_KEY p 0
      else
        match parse_string input p with
        | .stuck => .stuck
        | .err inp e q a => .fail inp e q a
        | .ok inp ks ke p' =>
          match skip_whitespace inp p' with
          | none => .fail inp .EXPECTED_COLON inp.length 0
          | some q =>
            if inp.getD q 0 ≠ 58 then .fail inp .EXPECTED_COLON q 0
            else .next { st with input := inp, pos := q + 1,
                                 scratch := st.scratch ++ [ks, ke],
                                 phase := .next_element }
  | .next_element =>
    match skip_whitespace input st.pos with
    | none => .fail input .UNEXPECTED_END n 0
    | some p =>
      let b := input.getD p 0
      if b = 0 then .fail input .UNEXPECTED_END p 0
      else if b = 110 then
        match parse_null input p with
        | .error (e, q) => .fail input e q 0
        | .ok p' => push_value st p' .null
      else if b = 102 then
        match parse_false input p with
        | .error (e, q) => .fail input e q 0
        | .ok p' => push_value st p' .false_
      else if b = 116 then
        match parse_true input p with
        | .error (e, q) => .fail input e q 0
        | .ok p' => push_value st p' .true_
      else if (48 ≤ b && b ≤ 57) || b = 45 then
        match parse_number input p with
        | .stuck => .stuck
        | .err e q => .fail input e q 0
        | .ok p' (.asInt i) =>
          push_value { st with ast := Cell.word (int_store i) :: st.ast } p' .integer
        | .ok p' (.asDbl d) =>
          push_value { st with ast := Cell.dbl d :: st.ast } p' .double_
      else if b = 34 then
        match parse_string input p with
        | .stuck => .stuck
        | .err inp e q a => .fail inp e q a
        | .ok inp ks ke p' =>
          push_value { st with input := inp,
                               ast := Cell.word ks :: Cell.word ke :: st.ast } p' .string
      else if b = 91 then
        .next { st with pos := p + 1,
                        scratch := st.scratch ++ [make_element st.current_tag st.current_base],
                        current_base := st.scratch.length,
                        current_tag := .array, phase := .array_close_or_element }
      else if b = 123 then
        .next { st with pos := p + 1,
                        scratch := st.scratch ++ [make_element st.current_tag st.current_base],
                        current_base := st.scratch.length,
                        current_tag := .object, phase := .object_close_or_element }
      else if b = 44 then .fail input .UNEXPECTED_COMMA p 0
      else .fail input .EXPECTED_VALUE p 0

/-- The entry of parse(): skip whitespace, require `[` or `{`, push the
root sentinel. -/
def initial_state (input : List Nat) : StepRes :=
  match skip_whitespace input 0 with
  | none => .fail input .MISSING_ROOT_ELEMENT input.length 0
  | some p =>
    if input.getD p 0 = 91 then
      .next { input := input, pos := p + 1,
              scratch := [make_element .array ROOT_MARKER], ast := [],
              current_base := 0, current_tag := .array,
              phase := .array_close_or_element }
    else if input.getD p 0 = 123 then
      .next { input := input, pos := p + 1,
              scratch := [make_element .object ROOT_MARKER], ast := [],
              current_base := 0, current_tag := .object,
              phase := .object_close_or_element }
    else .fail input .BAD_ROOT p 0

/-- Iterates the machine until a terminal result or fuel exhaustion. -/
def run : Nat → StepRes → StepRes
  | 0, .next _ => .stuck
  | 0, r => r
  | fuel + 1, .next st => run fuel (step st)
  | _ + 1, r => r

/-- Runs a complete parse of the input. -/
def run_parse (fuel : Nat) (input : List Nat) : StepRes :=
  run fuel (initial_state input)

/-- The machine state after exactly `k` steps, when still running. -/
def trace : Nat → StepRes → Option PState
  | 0, .next st => some st
  | 0, _ => none
  | k + 1, .next st => trace k (step st)
  | _ + 1, _ => none

/-- The state reached `k` steps into parsing `input` (counting the
entry dispatch as step 0). -/
def trace_parse (k : Nat) (input : List Nat) : Option PState :=
  trace k (initial_state input)

/-!  The document. -/

/-- Model of `sajson::document`: the root tag and AST on success, or the
captured diagnostics on failure. -/
structure document where
  root_tag : Tag
  root : List Cell
  error_line : Nat
  error_column : Nat
  error_code : ParseError
  error_arg : Int
  deriving DecidableEq

/-- document::is_valid: true iff the root tag is array or object. -/
def document.is_valid (d : document) : Bool :=
  d.root_tag = .array || d.root_tag = .object

/-- The error-constructing document constructor: root tag null, one-based
line and column computed by make_error's walk over the (possibly
mutated) input. -/
def error_document (input : List Nat) (code : ParseError) (pos : Nat) (arg : Int) : document :=
  { root_tag := .null, root := [],
    error_line := (make_error_pos input pos).1,
    error_column := (make_error_pos input pos).2,
    error_code := code, error_arg := arg }

/-- The default-constructed document: ERROR_UNINITIALIZED, coordinates
zero, root tag null. -/
def default_document : document :=
  { root_tag := .null, root := [], error_line := 0, error_column := 0,
    error_code := .UNINITIALIZED, error_arg := 0 }

/-- parser::get_document: a success document on a successful parse, an
error document otherwise. -/
def get_document (fuel : Nat) (input : List Nat) : Option document :=
  match run_parse fuel input with
  | .next _ => none
  | .stuck => none
  | .done t a _ => some { root_tag := t, root := a, error_line := 0,
                          error_column := 0, error_code := .NO_ERROR, error_arg := 0 }
  | .fail inp code pos arg => some (error_document inp code pos arg)

/-!  Token-level helper definitions used to state the numeric and
string-escape claims. -/

/-- The numeric value of a run of decimal digit values. -/
def digits_val (ds : List Nat) : Nat :=
  ds.foldl (fun a d => 10 * a + d) 0

/-- The integer accumulation of parse_number over a digit run: the host
int `i` and whether promotion to double occurred (`i > INT_MAX/10 − 9`
checked before each digit is added). -/
def int_accum (ds : List Nat) : Int × Bool :=
  ds.foldl
    (fun s (d : Nat) =>
      if s.2 then s
      else if INT_MAX / 10 - 9 < s.1 then (s.1, true)
      else (10 * s.1 + (d : Int), false))
    (0, false)

/-- Whether accumulating this digit run promotes the number to double. -/
def promotes (ds : List Nat) : Bool := (int_accum ds).2

/-- Renders digit values as ASCII bytes. -/
def digit_bytes (ds : List Nat) : List Nat := ds.map (fun d => 48 + d)

/-- One step of the integer-digit loop, as a fold over digit values. -/
def int_fold_step (s : Int × FP × Bool) (dg : Nat) : Int × FP × Bool :=
  let digit : Int := (dg : Int)
  let promote := !s.2.2 && decide (INT_MAX / 10 - 9 < s.1)
  let d0 := if promote then FP.finite (s.1 : ℚ) else s.2.1
  let tryD := s.2.2 || promote
  (if tryD then s.1 else 10 * s.1 + digit,
   if tryD then fpAdd (fpMul (.finite 10) d0) (.finite (digit : ℚ)) else d0,
   tryD)

/-- One step of the fraction-digit loop, as a fold: the accumulating
double and the decremented exponent. -/
def frac_fold_step (s : FP × Int) (dg : Nat) : FP × Int :=
  (fpAdd (fpMul s.1 (.finite 10)) (.finite ((dg : Int) : ℚ)), s.2 - 1)

/-- One step of the exponent-digit loop, as a fold: clamped accumulation
into the host int. -/
def exp_fold_step (e : Int) (dg : Nat) : Int :=
  if (INT_MAX - (dg : Int)) / 10 < e then INT_MAX else 10 * e + dg

/-- The ASCII byte of one hex digit value (uppercase letters). -/
def hexChar (d : Nat) : Nat := if d < 10 then 48 + d else 55 + d

/-- The four uppercase hex bytes of a 16-bit value. -/
def hex4 (u : Nat) : List Nat :=
  [hexChar (u / 4096 % 16), hexChar (u / 256 % 16), hexChar (u / 16 % 16), hexChar (u % 16)]

/-- The byte sequence of a number token: optional minus sign, integer
digits, optional fractional part (dot and digits), optional exponent
part (`e`/`E`, optional sign byte, digits). -/
def number_token (neg : Bool) (ids : List Nat) (frac : Option (List Nat))
    (ex : Option (Nat × List Nat × List Nat)) : List Nat :=
  (if neg then [45] else []) ++ digit_bytes ids
    ++ (match frac with
        | none => []
        | some fs => 46 :: digit_bytes fs)
    ++ (match ex with
        | none => []
        | some (eb, sg, es) => eb :: (sg ++ digit_bytes es))

/-- The double produced from mantissa digits value `m` and binary-free
exponent `e`: multiply by pow10 e unless e is zero, skip the
multiplication when the mantissa is zero, and apply the sign last. -/
def scaled_signed (neg : Bool) (m : Nat) (e : Int) : FP :=
  let d := FP.finite ((m : Nat) : ℚ)
  let d := if e ≠ 0 then (if m = 0 then d else fpMul d (pow10 e)) else d
  if neg then fpNeg d else d

/-- The double value of a number token stored as a double: the mantissa
is the integer digits followed by the fractional digits, the exponent is
the (INT_MAX-clamped) written exponent minus the number of fractional
digits. -/
def number_double (neg : Bool) (ids : List Nat) (frac : Option (List Nat))
    (ex : Option (Nat × List Nat × List Nat)) : FP :=
  scaled_signed neg (digits_val (ids ++ frac.getD []))
    ((match ex with
      | none => 0
      | some (_, sg, es) =>
          if sg = [45] then -(min ((digits_val es : Nat) : Int) INT_MAX)
          else min ((digits_val es : Nat) : Int) INT_MAX)
      - ((frac.getD []).length : Int))

/-- The length-then-memcmp comparison scheme shared by the two
comparator overloads: compare lengths first, then the byte runs. -/
def lex_lt (la : Nat) (xa : List Nat) (lb : Nat) (xb : List Nat) : Bool :=
  if la < lb then true else if lb < la then false else bytes_lt xa xb


/-- The chain of structure frames on the scratch stack: each frame
sentinel sits below the stack top, carries an array or object tag,
and points to the enclosing frame (or carries ROOT_MARKER). -/
def frame_chain (scratch : List Nat) (base : Nat) : Bool :=
  decide (base < scratch.length) &&
  (decide (get_element_tag (scratch.getD base 0) = Tag.array) ||
   decide (get_element_tag (scratch.getD base 0) = Tag.object)) &&
  (decide (get_element_value (scratch.getD base 0) = ROOT_MARKER) ||
   (if h : get_element_value (scratch.getD base 0) < base then
      frame_chain scratch (get_element_value (scratch.getD base 0))
    else false))
termination_by base
decreasing_by simpa [List.getD] using h

/-- The machine-state invariant maintained by every step of the parse:
positions are in bounds, the scratch stack never outgrows the bytes
consumed, the current frame is well formed, and the combined word
usage of the two stacks is bounded by the read position plus at most
one transient word. -/
def Inv (st : PState) : Prop :=
  st.pos ≤ st.input.length ∧
  st.current_base + 1 ≤ st.scratch.length ∧
  st.scratch.length ≤ st.pos ∧
  (st.current_tag = Tag.array ∨ st.current_tag = Tag.object) ∧
  frame_chain st.scratch st.current_base = true ∧
  (match st.phase with
   | .pop_frame pe =>
       (get_element_tag pe = Tag.array ∨ get_element_tag pe = Tag.object) ∧
       (get_element_value pe = ROOT_MARKER ∨
         (get_element_value pe < st.current_base ∧
          frame_chain st.scratch (get_element_value pe) = true)) ∧
       st.ast.length + st.current_base + 1 ≤ st.pos + 1
   | .structure_close_or_comma => st.scratch.length + st.ast.length ≤ st.pos + 1
   | _ => st.scratch.length + st.ast.length ≤ st.pos)


/-- Whether the machine is in the one-step transient pop state, in which
the just-installed structure words and the not-yet-reset scratch frame
coexist. -/
def Phase.isPop : Phase → Bool
  | .pop_frame _ => true
  | _ => false

/-- The machine state entering the parse of the two-byte input "[]". -/
def c1State : PState :=
  { input := [91, 93], pos := 1, scratch := [make_element .array ROOT_MARKER],
    ast := [], current_base := 0, current_tag := .array,
    phase := .array_close_or_element }

/-- The document produced by a successful parse of the two-byte input
"[]". -/
def c5Doc : document :=
  { root_tag := .array, root := [Cell.word 0], error_line := 0,
    error_column := 0, error_code := .NO_ERROR, error_arg := 0 }


/-!  ###  Theorems  ### -/

/-!  Claim C6: the scratch push.  The source's push never fails and makes
no comparison with the high stack top. -/

/-- Claim C6 is false as stated: in an arena of 2 words whose low stack
top and high stack top are both at index 1 (the stacks about to
collide), a push still reports success and writes past the high
stack top, rather than failing with OUT_OF_MEMORY. -/
theorem C6_push_no_overlap_check :
    ArenaState.stack_top ⟨2, [5], 1⟩ = ArenaState.write_cursor ⟨2, [5], 1⟩ ∧
    (stack_push ⟨2, [5], 1⟩ 7).2 = true ∧
    (stack_push ⟨2, [5], 1⟩ 7).1.stack = [5, 7] := by decide

/-- Claim C6 (amended): a scratch-stack push writes the element at the
low stack top and bumps the top up by one, and always reports
success; neither push nor reserve compares against the high stack
top, so a scratch push can never make the parse return
OUT_OF_MEMORY. -/
theorem C6_push_writes_and_succeeds (a : ArenaState) (w : Nat) :
    (stack_push a w).1.stack = a.stack ++ [w] ∧
    (stack_push a w).2 = true ∧
    (stack_push a w).1.stack_top = a.stack_top + 1 ∧
    (stack_reserve a 2).2.2 = true := by
  refine ⟨rfl, rfl, ?_, rfl⟩
  simp [stack_push, ArenaState.stack_top]

/-- Witness for C6_push_writes_and_succeeds at a concrete arena state. -/
theorem C6_push_witness :
    (stack_push ⟨3, [1], 0⟩ 9).1.stack = [1, 9] ∧
    (stack_push ⟨3, [1], 0⟩ 9).2 = true ∧
    (stack_push ⟨3, [1], 0⟩ 9).1.stack_top = 2 ∧
    (stack_reserve ⟨3, [1], 0⟩ 2).2.2 = true := by
  have h := C6_push_writes_and_succeeds ⟨3, [1], 0⟩ 9
  refine ⟨h.1, h.2.1, ?_, h.2.2.2⟩
  rw [h.2.2.1]
  decide

/-!  Claim C7: pow10 clamping and the 1e400 consequence. -/

/-- Claim C7: pow10 returns the table entry (the power of ten) for every
exponent in [−323, 308], zero below, and +∞ above; consequently the
numeric literal 1e400 (followed by a space) parses successfully as a
double equal to +∞. -/
theorem C7_pow10_clamps :
    (∀ e : Int,
      (308 < e → pow10 e = .inf) ∧
      (e < -323 → pow10 e = .finite 0) ∧
      (-323 ≤ e → e ≤ 308 → pow10 e = .finite ((10 : ℚ) ^ e))) ∧
    parse_number [49, 101, 52, 48, 48, 32] 0 = .ok 5 (.asDbl .inf) := by
  constructor
  · intro e
    refine ⟨fun h => ?_, fun h => ?_, fun h1 h2 => ?_⟩
    · simp [pow10, h]
    · have h3 : ¬ 308 < e := by omega
      simp [pow10, h3, h]
    · have h3 : ¬ 308 < e := by omega
      have h4 : ¬ e < -323 := by omega
      simp [pow10, h3, h4]
  · decide

/-- Witness for C7_pow10_clamps: the clamping behavior at the concrete
exponents 400, −400 and 100. -/
theorem C7_pow10_witness :
    pow10 400 = .inf ∧ pow10 (-400) = .finite 0 ∧
    pow10 100 = .finite ((10 : ℚ) ^ (100 : Int)) := by
  refine ⟨(C7_pow10_clamps.1 400).1 (by decide),
          (C7_pow10_clamps.1 (-400)).2.1 (by decide),
          (C7_pow10_clamps.1 100).2.2 (by decide) (by decide)⟩

/-!  Claim C8: the error position computation. -/

/-- Length of the longest satisfying prefix of `r ++ [x]`. -/
theorem takeWhile_append_one (p : Nat → Bool) (r : List Nat) (x : Nat) :
    ((r ++ [x]).takeWhile p).length =
      if r.all p then r.length + (if p x then 1 else 0) else (r.takeWhile p).length := by
  induction r with
  | nil => by_cases hx : p x <;> simp [hx, List.takeWhile]
  | cons a t ih =>
    by_cases ha : p a
    · simp only [List.cons_append, List.takeWhile_cons, ha, List.all_cons, if_true,
        List.length_cons, ih]
      by_cases ht : t.all p
      · simp only [ht, Bool.true_and, if_true]
        omega
      · simp [ht]
    · simp [List.takeWhile_cons, ha, List.all_cons]

/-- Unfolding bytes_since_break over a leading byte. -/
theorem bytes_since_break_cons (a : Nat) (t : List Nat) :
    bytes_since_break (a :: t) =
      if t.all not_break then t.length + (if not_break a then 1 else 0)
      else bytes_since_break t := by
  have h := takeWhile_append_one not_break t.reverse a
  simp only [bytes_since_break, List.reverse_cons, h, List.all_reverse, List.length_reverse]

/-- A list all of whose elements satisfy the predicate is its own
longest satisfying prefix. -/
theorem takeWhile_of_all (p : Nat → Bool) (r : List Nat) (h : r.all p = true) :
    r.takeWhile p = r := by
  induction r with
  | nil => rfl
  | cons a t ih =>
    simp only [List.all_cons, Bool.and_eq_true] at h
    simp [List.takeWhile_cons, h.1, ih h.2]

/-- When a byte run contains no break byte, the whole run counts as
bytes since the last break. -/
theorem bytes_since_break_all (l : List Nat) (h : l.all not_break = true) :
    bytes_since_break l = l.length := by
  have h2 : l.reverse.all not_break = true := by simpa using h
  rw [bytes_since_break, takeWhile_of_all _ _ h2, List.length_reverse]

/-- The not_break test at the break bytes and elsewhere. -/
theorem not_break_cr : not_break 13 = false := by decide

theorem not_break_lf : not_break 10 = false := by decide

theorem not_break_of_ne (b : Nat) (h13 : ¬b = 13) (h10 : ¬b = 10) :
    not_break b = true := by
  simp [not_break, h13, h10]

/-- Bytes-since-break across a leading break byte. -/
theorem bsb_break_cons (a : Nat) (X : List Nat) (ha : not_break a = false) :
    bytes_since_break (a :: X) = if X.all not_break then X.length else bytes_since_break X := by
  rw [bytes_since_break_cons, ha]
  by_cases hx : X.all not_break <;> simp [hx]

/-- The make_error walk computes the break count and the
bytes-since-last-break count of the inspected prefix. -/
theorem make_error_walk_spec (l : List Nat) (line col : Nat) :
    make_error_walk l line col =
      (line + line_breaks l,
       if l.all not_break then col + l.length else 1 + bytes_since_break l) := by
  induction l, line, col using make_error_walk.induct with
  | case1 line col => simp [make_error_walk, line_breaks]
  | case2 line col rest' ih =>
    rw [show make_error_walk (13 :: 10 :: rest') line col
          = make_error_walk rest' (line + 1) 1 by rw [make_error_walk.eq_def]; simp]
    rw [ih]
    rw [show line_breaks (13 :: 10 :: rest') = 1 + line_breaks rest' by rw [line_breaks.eq_def]; simp]
    have hBR : ((13 : Nat) :: 10 :: rest').all not_break = false := by
      simp [List.all_cons, not_break_cr]
    rw [Prod.mk.injEq, hBR]
    refine ⟨by omega, ?_⟩
    simp only [Bool.false_eq_true, if_false]
    rw [bsb_break_cons 13 _ not_break_cr]
    have h10 : ((10 : Nat) :: rest').all not_break = false := by
      simp [List.all_cons, not_break_lf]
    rw [h10]
    simp only [Bool.false_eq_true, if_false]
    rw [bsb_break_cons 10 _ not_break_lf]
    by_cases hx : rest'.all not_break
    · simp [hx]
    · simp [hx]
  | case3 line col c2 rest' hc2 ih =>
    rw [show make_error_walk (13 :: c2 :: rest') line col
          = make_error_walk (c2 :: rest') (line + 1) 1 by rw [make_error_walk.eq_def]; simp [hc2]]
    rw [ih]
    rw [show line_breaks (13 :: c2 :: rest') = 1 + line_breaks (c2 :: rest') by
      rw [line_breaks.eq_def]; simp [hc2]]
    have hBR : ((13 : Nat) :: c2 :: rest').all not_break = false := by
      simp [List.all_cons, not_break_cr]
    rw [Prod.mk.injEq, hBR]
    refine ⟨by omega, ?_⟩
    simp only [Bool.false_eq_true, if_false]
    rw [bsb_break_cons 13 _ not_break_cr]
    by_cases hx : (c2 :: rest').all not_break
    · simp [hx]
    · simp [hx]
  | case4 line col =>
    have h1 : make_error_walk [13] line col = (line + 1, 1) := rfl
    have h2 : line_breaks [13] = 1 := rfl
    have h3 : ([13] : List Nat).all not_break = false := by decide
    have h4 : bytes_since_break [13] = 0 := rfl
    rw [h1, h2, h3, h4]
    simp
  | case5 rest line col h ih =>
    rw [show make_error_walk (10 :: rest) line col
          = make_error_walk rest (line + 1) 1 by rw [make_error_walk.eq_def]; simp]
    rw [ih]
    rw [show line_breaks (10 :: rest) = 1 + line_breaks rest by rw [line_breaks.eq_def]; simp]
    have hBR : ((10 : Nat) :: rest).all not_break = false := by
      simp [List.all_cons, not_break_lf]
    rw [Prod.mk.injEq, hBR]
    refine ⟨by omega, ?_⟩
    simp only [Bool.false_eq_true, if_false]
    rw [bsb_break_cons 10 _ not_break_lf]
    by_cases hx : rest.all not_break
    · simp [hx]
    · simp [hx]
  | case6 c rest line col hc13 hc10 ih =>
    rw [show make_error_walk (c :: rest) line col
          = make_error_walk rest line (col + 1) by rw [make_error_walk.eq_def]; simp [hc13, hc10]]
    rw [ih]
    rw [show line_breaks (c :: rest) = line_breaks rest by rw [line_breaks.eq_def]; simp [hc13, hc10]]
    have hnb := not_break_of_ne c hc13 hc10
    have hall : ((c :: rest).all not_break) = rest.all not_break := by
      simp [List.all_cons, hnb]
    rw [Prod.mk.injEq, hall, bytes_since_break_cons, hnb]
    refine ⟨rfl, ?_⟩
    by_cases hx : rest.all not_break
    · simp [hx]
      omega
    · simp [hx]

/-- Claim C8: the reported error position is one-based and computed by
walking the input prefix before the failure pointer: the line is 1
plus the number of line breaks (a lone line feed, a lone carriage
return, and the two-byte carriage-return line-feed sequence each
counting as exactly one break), and the column is 1 plus the number
of bytes (not codepoints) since the last break. -/
theorem C8_error_position (input : List Nat) (p : Nat) :
    make_error_pos input p =
      (1 + line_breaks (input.take p), 1 + bytes_since_break (input.take p)) := by
  rw [make_error_pos, make_error_walk_spec]
  by_cases hall : (input.take p).all not_break
  · rw [if_pos hall, bytes_since_break_all _ hall]
  · rw [if_neg hall]

/-!  Claim C10: a leading zero followed by another digit. -/

/-- Claim C10: on the input [01], the number parser consumes only the
single 0 and yields the integer 0; the parse then fails with
EXPECTED_COMMA at the second digit (position 2, line 1 column 3),
not with INVALID_NUMBER. -/
theorem C10_leading_zero :
    parse_number [91, 48, 49, 93] 1 = .ok 2 (.asInt 0) ∧
    run_parse 32 [91, 48, 49, 93] = .fail [91, 48, 49, 93] .EXPECTED_COMMA 2 0 ∧
    make_error_pos [91, 48, 49, 93] 2 = (1, 3) ∧
    get_document 32 [91, 48, 49, 93]
      = some (error_document [91, 48, 49, 93] .EXPECTED_COMMA 2 0) := by
  refine ⟨by decide, by decide, by decide, by decide⟩

/-!  Claims C3 and C9: the \uXXXX escapes of the slow string path. -/

/-- read_hex_digit decodes the rendered hex digit. -/
theorem read_hex_digit_hexChar (d : Nat) (h : d < 16) :
    read_hex_digit (hexChar d) = some d := by
  unfold hexChar read_hex_digit
  by_cases h10 : d < 10
  · rw [if_pos h10]
    have c1 : (decide (48 ≤ 48 + d) && decide (48 + d ≤ 57)) = true := by
      simp only [Bool.and_eq_true, decide_eq_true_eq]
      omega
    rw [if_pos c1]
    congr 1
    omega
  · rw [if_neg h10]
    have c1 : (decide (48 ≤ 55 + d) && decide (55 + d ≤ 57)) = false := by
      simp only [Bool.and_eq_false_iff, decide_eq_false_iff_not]
      right
      omega
    have c2 : (decide (97 ≤ 55 + d) && decide (55 + d ≤ 102)) = false := by
      simp only [Bool.and_eq_false_iff, decide_eq_false_iff_not]
      left
      omega
    have c3 : (decide (65 ≤ 55 + d) && decide (55 + d ≤ 70)) = true := by
      simp only [Bool.and_eq_true, decide_eq_true_eq]
      omega
    rw [if_neg (by rw [c1]; exact Bool.false_ne_true), if_neg (by rw [c2]; exact Bool.false_ne_true), if_pos c3]
    congr 1
    omega

/-- read_hex reads the four rendered nibbles of a 16-bit value. -/
theorem read_hex_at (input : List Nat) (p : Nat) (u : Nat) (hu : u < 65536)
    (h0 : input.getD p 0 = hexChar (u / 4096 % 16))
    (h1 : input.getD (p + 1) 0 = hexChar (u / 256 % 16))
    (h2 : input.getD (p + 2) 0 = hexChar (u / 16 % 16))
    (h3 : input.getD (p + 3) 0 = hexChar (u % 16)) :
    read_hex input p = .ok (u, p + 4) := by
  have e0 := read_hex_digit_hexChar (u / 4096 % 16) (by omega)
  have e1 := read_hex_digit_hexChar (u / 256 % 16) (by omega)
  have e2 := read_hex_digit_hexChar (u / 16 % 16) (by omega)
  have e3 := read_hex_digit_hexChar (u % 16) (by omega)
  simp only [read_hex, read_hex_aux, h0, e0, h1, e1, h2, e2, h3, e3]
  have hv : (((0 * 16 + u / 4096 % 16) * 16 + u / 256 % 16) * 16 + u / 16 % 16) * 16 + u % 16
      = u := by omega
  rw [hv]

/-- The three-byte UTF-8 form. -/
theorem write_utf8_three (u : Nat) (hlo : 0x800 ≤ u) (hhi : u < 0x10000) :
    write_utf8 u = [0xE0 ||| (u >>> 12), 0x80 ||| ((u >>> 6) &&& 0x3F),
                    0x80 ||| (u &&& 0x3F)] := by
  have n1 : ¬ u < 0x80 := by omega
  have n2 : ¬ u < 0x800 := by omega
  simp [write_utf8, n1, n2, hhi]

/-- The four-byte UTF-8 form. -/
theorem write_utf8_four (u : Nat) (hlo : 0x10000 ≤ u) :
    write_utf8 u = [0xF0 ||| (u >>> 18), 0x80 ||| ((u >>> 12) &&& 0x3F),
                    0x80 ||| ((u >>> 6) &&& 0x3F), 0x80 ||| (u &&& 0x3F)] := by
  have n1 : ¬ u < 0x80 := by omega
  have n2 : ¬ u < 0x800 := by omega
  have n3 : ¬ u < 0x10000 := by omega
  simp [write_utf8, n1, n2, n3]

/-- Claim C9: in the slow path, an escape \uXXXX whose value is a lone
low surrogate (0xDC00..0xDFFF, not preceded by a high surrogate) is
not rejected: the decoder emits its 3-byte UTF-8 encoding and the
parse continues; end-to-end, the input ["\uDC00"] parses
successfully with the bytes ED B0 80 stored in place. -/
theorem C9_lone_low_surrogate (V : Nat) (h1 : 0xDC00 ≤ V) (h2 : V ≤ 0xDFFF) :
    (∀ fuel : Nat, ∃ inp,
      parse_string_slow
        [92, 117, hexChar (V / 4096 % 16), hexChar (V / 256 % 16),
         hexChar (V / 16 % 16), hexChar (V % 16), 34] (fuel + 2) 0 0 0
      = .ok inp 0 3 7 ∧
      inp.take 3 = [0xE0 ||| (V >>> 12), 0x80 ||| ((V >>> 6) &&& 0x3F),
                    0x80 ||| (V &&& 0x3F)]) ∧
    run_parse 32 [91, 34, 92, 117, 68, 67, 48, 48, 34, 93]
      = .done .array [.word 1, .word 21, .word 2, .word 5]
          [91, 34, 237, 176, 128, 0, 48, 48, 34, 93] := by
  constructor
  · intro fuel

    set a0 := hexChar (V / 4096 % 16) with ha0
    set a1 := hexChar (V / 256 % 16) with ha1
    set a2 := hexChar (V / 16 % 16) with ha2
    set a3 := hexChar (V % 16) with ha3
    set l0 : List Nat := [92, 117, a0, a1, a2, a3, 34] with hl0
    have hrh : read_hex l0 2 = .ok (V, 6) := by
      apply read_hex_at l0 2 V (by omega) <;> rfl
    have hsur : (0xD800 ≤ V && V ≤ 0xDBFF) = false := by
      simp only [Bool.and_eq_false_iff, decide_eq_false_iff_not]
      right
      omega
    have hw3 := write_utf8_three V (by omega) (by omega)
    rw [parse_string_slow]
    norm_num [hl0]
    rw [hrh]
    norm_num [hw3, write_bytes, List.set]
    rw [parse_string_slow]
    norm_num [List.getD, List.set, List.take]
    rw [if_neg (show ¬ (55296 ≤ V ∧ V ≤ 56319) by omega)]
    exact ⟨_, rfl, rfl⟩
  · decide

/-- Witness for C9_lone_low_surrogate at the concrete value 0xDC00. -/
theorem C9_witness :
    (∃ inp,
      parse_string_slow
        [92, 117, hexChar (0xDC00 / 4096 % 16), hexChar (0xDC00 / 256 % 16),
         hexChar (0xDC00 / 16 % 16), hexChar (0xDC00 % 16), 34] 2 0 0 0
      = .ok inp 0 3 7 ∧
      inp.take 3 = [0xE0 ||| (0xDC00 >>> 12), 0x80 ||| ((0xDC00 >>> 6) &&& 0x3F),
                    0x80 ||| (0xDC00 &&& 0x3F)]) ∧
    run_parse 32 [91, 34, 92, 117, 68, 67, 48, 48, 34, 93]
      = .done .array [.word 1, .word 21, .word 2, .word 5]
          [91, 34, 237, 176, 128, 0, 48, 48, 34, 93] := by
  have h := C9_lone_low_surrogate 0xDC00 (by decide) (by decide)
  exact ⟨h.1 0, h.2⟩

/-- Claim C3: in the slow path, after a \uXXXX escape whose value U is a
high surrogate, the decoder requires an immediately following \u
escape with a value V in [0xDC00, 0xDFFF]: on success it emits the
UTF-8 encoding of 0x10000 + (((U − 0xD800) << 10) | (V − 0xDC00)),
and when the following escape's value is not a trail surrogate the
parse fails with INVALID_UTF16_TRAIL_SURROGATE; end-to-end, the
input ["\uD83D\uDE00"] parses to the bytes F0 9F 98 80. -/
theorem C3_surrogate_pair (U V : Nat) (hU1 : 0xD800 ≤ U) (hU2 : U ≤ 0xDBFF) :
    (0xDC00 ≤ V → V ≤ 0xDFFF → ∀ fuel : Nat, ∃ inp,
      parse_string_slow
        [92, 117, hexChar (U / 4096 % 16), hexChar (U / 256 % 16),
         hexChar (U / 16 % 16), hexChar (U % 16),
         92, 117, hexChar (V / 4096 % 16), hexChar (V / 256 % 16),
         hexChar (V / 16 % 16), hexChar (V % 16), 34] (fuel + 2) 0 0 0
      = .ok inp 0 4 13 ∧
      inp.take 4 = write_utf8 (0x10000 + (((U - 0xD800) <<< 10) ||| (V - 0xDC00)))) ∧
    (V < 65536 → V < 0xDC00 ∨ 0xDFFF < V → ∀ fuel : Nat,
      parse_string_slow
        [92, 117, hexChar (U / 4096 % 16), hexChar (U / 256 % 16),
         hexChar (U / 16 % 16), hexChar (U % 16),
         92, 117, hexChar (V / 4096 % 16), hexChar (V / 256 % 16),
         hexChar (V / 16 % 16), hexChar (V % 16), 34] (fuel + 1) 0 0 0
      = .err
          [92, 117, hexChar (U / 4096 % 16), hexChar (U / 256 % 16),
           hexChar (U / 16 % 16), hexChar (U % 16),
           92, 117, hexChar (V / 4096 % 16), hexChar (V / 256 % 16),
           hexChar (V / 16 % 16), hexChar (V % 16), 34]
          .INVALID_UTF16_TRAIL_SURROGATE 12 0) ∧
    run_parse 32 [91, 34, 92, 117, 68, 56, 51, 68, 92, 117, 68, 69, 48, 48, 34, 93]
      = .done .array [.word 1, .word 21, .word 2, .word 6]
          [91, 34, 240, 159, 152, 128, 0, 68, 92, 117, 68, 69, 48, 48, 34, 93] := by
  set a0 := hexChar (U / 4096 % 16) with ha0
  set a1 := hexChar (U / 256 % 16) with ha1
  set a2 := hexChar (U / 16 % 16) with ha2
  set a3 := hexChar (U % 16) with ha3
  set b0 := hexChar (V / 4096 % 16) with hb0
  set b1 := hexChar (V / 256 % 16) with hb1
  set b2 := hexChar (V / 16 % 16) with hb2
  set b3 := hexChar (V % 16) with hb3
  set l0 : List Nat := [92, 117, a0, a1, a2, a3, 92, 117, b0, b1, b2, b3, 34] with hl0
  have hrU : read_hex l0 2 = .ok (U, 6) := by
    apply read_hex_at l0 2 U (by omega) <;> rfl
  refine ⟨?_, ?_, by decide⟩
  · intro hV1 hV2 fuel
    have hrV : read_hex l0 8 = .ok (V, 12) := by
      apply read_hex_at l0 8 V (by omega) <;> rfl
    have hcp1 : 0x10000 ≤ 0x10000 + (((U - 0xD800) <<< 10) ||| (V - 0xDC00)) := by omega
    have hw4 := write_utf8_four _ hcp1
    rw [parse_string_slow]
    norm_num [hl0]
    rw [hrU]
    norm_num
    rw [if_pos (show 55296 ≤ U ∧ U ≤ 56319 by omega)]
    norm_num
    rw [hrV]
    norm_num [hw4, write_bytes, List.set]
    rw [if_neg (show ¬ (V < 56320 ∨ 57343 < V) by omega)]
    rw [parse_string_slow]
    norm_num [List.getD, List.set, List.take]
  · intro hV0 hVr fuel
    have hrV : read_hex l0 8 = .ok (V, 12) := by
      apply read_hex_at l0 8 V (by omega) <;> rfl
    rw [parse_string_slow]
    norm_num [hl0]
    rw [hrU]
    norm_num
    rw [if_pos (show 55296 ≤ U ∧ U ≤ 56319 by omega)]
    norm_num
    rw [hrV]
    norm_num
    intro hx1 hx2
    exact absurd hVr (by omega)

/-- Witness for C3_surrogate_pair at U = 0xD83D, with V = 0xDE00 for the
success branch and V = 0x0041 for the failure branch. -/
theorem C3_witness :
    (∃ inp,
      parse_string_slow
        [92, 117, hexChar (0xD83D / 4096 % 16), hexChar (0xD83D / 256 % 16),
         hexChar (0xD83D / 16 % 16), hexChar (0xD83D % 16),
         92, 117, hexChar (0xDE00 / 4096 % 16), hexChar (0xDE00 / 256 % 16),
         hexChar (0xDE00 / 16 % 16), hexChar (0xDE00 % 16), 34] 2 0 0 0
      = .ok inp 0 4 13 ∧
      inp.take 4
        = write_utf8 (0x10000 + (((0xD83D - 0xD800) <<< 10) ||| (0xDE00 - 0xDC00)))) ∧
    parse_string_slow
      [92, 117, hexChar (0xD83D / 4096 % 16), hexChar (0xD83D / 256 % 16),
       hexChar (0xD83D / 16 % 16), hexChar (0xD83D % 16),
       92, 117, hexChar (0x0041 / 4096 % 16), hexChar (0x0041 / 256 % 16),
       hexChar (0x0041 / 16 % 16), hexChar (0x0041 % 16), 34] 1 0 0 0
    = .err
        [92, 117, hexChar (0xD83D / 4096 % 16), hexChar (0xD83D / 256 % 16),
         hexChar (0xD83D / 16 % 16), hexChar (0xD83D % 16),
         92, 117, hexChar (0x0041 / 4096 % 16), hexChar (0x0041 / 256 % 16),
         hexChar (0x0041 / 16 % 16), hexChar (0x0041 % 16), 34]
        .INVALID_UTF16_TRAIL_SURROGATE 12 0 := by
  refine ⟨(C3_surrogate_pair 0xD83D 0xDE00 (by decide) (by decide)).1
      (by decide) (by decide) 0, ?_⟩
  exact (C3_surrogate_pair 0xD83D 0x0041 (by decide) (by decide)).2.1
    (by decide) (by decide) 0

theorem getD_drop (l : List Nat) (n : Nat) : l.getD n 0 = (l.drop n).headD 0 := by
  induction l generalizing n with
  | nil => cases n <;> rfl
  | cons a t ih => cases n with
    | zero => rfl
    | succ m => simpa using ih m

theorem ne_length_of_drop_ne_nil (l : List Nat) (n : Nat) (h : l.drop n ≠ []) :
    n ≠ l.length := by
  intro he
  exact h (by simp [he])

theorem int_digit_loop_run (input : List Nat) :
    ∀ (ds : List Nat) (fuel p d0 : Nat) (s : Int × FP × Bool) (l2 : List Nat),
      d0 ≤ 9 → (∀ x ∈ ds, x ≤ 9) →
      input.drop (p + 1) = digit_bytes ds ++ l2 →
      l2 ≠ [] →
      (l2.headD 0 < 48 ∨ 57 < l2.headD 0) →
      int_digit_loop input (fuel + ds.length + 1) p (48 + d0) s.1 s.2.1 s.2.2
        = .ok (p + 1 + ds.length) (l2.headD 0)
            (List.foldl int_fold_step s (d0 :: ds)).1
            (List.foldl int_fold_step s (d0 :: ds)).2.1
            (List.foldl int_fold_step s (d0 :: ds)).2.2 := by
  intro ds
  induction ds with
  | nil =>
    intro fuel p d0 s l2 hd0 _ hdrop hne hterm
    have hlen : ¬ (p + 1 = input.length) := by
      have := ne_length_of_drop_ne_nil input (p + 1)
        (by rw [hdrop]; simp only [digit_bytes, List.map_nil, List.nil_append]; exact hne)
      omega
    rw [int_digit_loop]
    simp only [hlen, if_false]
    have hc' : input.getD (p + 1) 0 = l2.headD 0 := by
      rw [getD_drop, hdrop]
      simp [digit_bytes]
    rw [hc']
    have hnd : ¬ (48 ≤ l2.headD 0 && l2.headD 0 ≤ 57) = true := by
      simp only [Bool.and_eq_true, decide_eq_true_eq, not_and]
      omega
    simp only [hnd, if_false]
    have hdig : ((48 + d0 : Nat) : Int) - 48 = (d0 : Int) := by push_cast; ring
    simp only [List.foldl_cons, List.foldl_nil, int_fold_step, hdig]
    rfl
  | cons d1 ds ih =>
    intro fuel p d0 s l2 hd0 hds hdrop hne hterm
    have hlen : ¬ (p + 1 = input.length) := by
      have := ne_length_of_drop_ne_nil input (p + 1)
        (by rw [hdrop]; simp [digit_bytes])
      omega
    rw [int_digit_loop]
    simp only [hlen, if_false]
    have hc' : input.getD (p + 1) 0 = 48 + d1 := by
      rw [getD_drop, hdrop]
      simp [digit_bytes]
    rw [hc']
    have hd1 : d1 ≤ 9 := hds d1 (by simp)
    have hnd : (48 ≤ 48 + d1 && 48 + d1 ≤ 57) = true := by
      simp only [Bool.and_eq_true, decide_eq_true_eq]
      omega
    simp only [hnd, if_true]
    have hdig : ((48 + d0 : Nat) : Int) - 48 = (d0 : Int) := by push_cast; ring
    have hdrop' : input.drop (p + 1 + 1) = digit_bytes ds ++ l2 := by
      have h2 : input.drop (p + 1 + 1) = (input.drop (p + 1)).drop 1 := by
        rw [List.drop_drop]
      rw [h2, hdrop]
      simp [digit_bytes]
    have hrec := ih fuel (p + 1) d1 (int_fold_step s d0) l2 hd1
      (fun x hx => hds x (by simp [hx])) hdrop' hne hterm
    rw [hdig]
    simp only [List.length_cons, List.foldl_cons]
    simp only [List.foldl_cons] at hrec
    rw [show p + 1 + (ds.length + 1) = p + 1 + 1 + ds.length by omega]
    simp only [int_fold_step] at hrec ⊢
    exact hrec

theorem frac_digit_loop_run (input : List Nat) :
    ∀ (ds : List Nat) (fuel p d0 : Nat) (s : FP × Int) (l2 : List Nat),
      d0 ≤ 9 → (∀ x ∈ ds, x ≤ 9) →
      input.drop (p + 1) = digit_bytes ds ++ l2 →
      l2 ≠ [] →
      (l2.headD 0 < 48 ∨ 57 < l2.headD 0) →
      frac_digit_loop input (fuel + ds.length + 1) p (48 + d0) s.1 s.2
        = .ok (p + 1 + ds.length) (l2.headD 0)
            (List.foldl frac_fold_step s (d0 :: ds)).1
            (List.foldl frac_fold_step s (d0 :: ds)).2 := by
  intro ds
  induction ds with
  | nil =>
    intro fuel p d0 s l2 hd0 _ hdrop hne hterm
    have hlen : ¬ (p + 1 = input.length) := by
      have := ne_length_of_drop_ne_nil input (p + 1)
        (by rw [hdrop]; simp only [digit_bytes, List.map_nil, List.nil_append]; exact hne)
      omega
    rw [frac_digit_loop]
    simp only [hlen, if_false]
    have hc' : input.getD (p + 1) 0 = l2.headD 0 := by
      rw [getD_drop, hdrop]
      simp [digit_bytes]
    rw [hc']
    have hnd : ¬ (48 ≤ l2.headD 0 && l2.headD 0 ≤ 57) = true := by
      simp only [Bool.and_eq_true, decide_eq_true_eq, not_and]
      omega
    simp only [hnd, if_false]
    have hdig : ((48 + d0 : Nat) : Int) - 48 = (d0 : Int) := by push_cast; ring
    simp only [List.foldl_cons, List.foldl_nil, frac_fold_step, hdig]
    simp
  | cons d1 ds ih =>
    intro fuel p d0 s l2 hd0 hds hdrop hne hterm
    have hlen : ¬ (p + 1 = input.length) := by
      have := ne_length_of_drop_ne_nil input (p + 1)
        (by rw [hdrop]; simp [digit_bytes])
      omega
    rw [frac_digit_loop]
    simp only [hlen, if_false]
    have hc' : input.getD (p + 1) 0 = 48 + d1 := by
      rw [getD_drop, hdrop]
      simp [digit_bytes]
    rw [hc']
    have hd1 : d1 ≤ 9 := hds d1 (by simp)
    have hnd : (48 ≤ 48 + d1 && 48 + d1 ≤ 57) = true := by
      simp only [Bool.and_eq_true, decide_eq_true_eq]
      omega
    simp only [hnd, if_true]
    have hdig : ((48 + d0 : Nat) : Int) - 48 = (d0 : Int) := by push_cast; ring
    have hdrop' : input.drop (p + 1 + 1) = digit_bytes ds ++ l2 := by
      have h2 : input.drop (p + 1 + 1) = (input.drop (p + 1)).drop 1 := by
        rw [List.drop_drop]
      rw [h2, hdrop]
      simp [digit_bytes]
    have hrec := ih fuel (p + 1) d1 (frac_fold_step s d0) l2 hd1
      (fun x hx => hds x (by simp [hx])) hdrop' hne hterm
    rw [hdig]
    simp only [List.length_cons, List.foldl_cons]
    simp only [List.foldl_cons] at hrec
    rw [show p + 1 + (ds.length + 1) = p + 1 + 1 + ds.length by omega]
    simp only [frac_fold_step] at hrec ⊢
    exact hrec

theorem exp_digit_loop_run (input : List Nat) :
    ∀ (ds : List Nat) (fuel p d0 : Nat) (e : Int) (l2 : List Nat),
      d0 ≤ 9 → (∀ x ∈ ds, x ≤ 9) →
      input.drop (p + 1) = digit_bytes ds ++ l2 →
      l2 ≠ [] →
      (l2.headD 0 < 48 ∨ 57 < l2.headD 0) →
      exp_digit_loop input (fuel + ds.length + 1) p (48 + d0) e
        = .ok (p + 1 + ds.length) (List.foldl exp_fold_step e (d0 :: ds)) := by
  intro ds
  induction ds with
  | nil =>
    intro fuel p d0 e l2 hd0 _ hdrop hne hterm
    have hlen : ¬ (p + 1 = input.length) := by
      have := ne_length_of_drop_ne_nil input (p + 1)
        (by rw [hdrop]; simp only [digit_bytes, List.map_nil, List.nil_append]; exact hne)
      omega
    rw [exp_digit_loop]
    simp only [hlen, if_false]
    have hc' : input.getD (p + 1) 0 = l2.headD 0 := by
      rw [getD_drop, hdrop]
      simp [digit_bytes]
    rw [hc']
    have hnd : ¬ (48 ≤ l2.headD 0 && l2.headD 0 ≤ 57) = true := by
      simp only [Bool.and_eq_true, decide_eq_true_eq, not_and]
      omega
    simp only [hnd, if_false]
    have hdig : ((48 + d0 : Nat) : Int) - 48 = (d0 : Int) := by push_cast; ring
    simp only [List.foldl_cons, List.foldl_nil, exp_fold_step, hdig]
    simp
  | cons d1 ds ih =>
    intro fuel p d0 e l2 hd0 hds hdrop hne hterm
    have hlen : ¬ (p + 1 = input.length) := by
      have := ne_length_of_drop_ne_nil input (p + 1)
        (by rw [hdrop]; simp [digit_bytes])
      omega
    rw [exp_digit_loop]
    simp only [hlen, if_false]
    have hc' : input.getD (p + 1) 0 = 48 + d1 := by
      rw [getD_drop, hdrop]
      simp [digit_bytes]
    rw [hc']
    have hd1 : d1 ≤ 9 := hds d1 (by simp)
    have hnd : (48 ≤ 48 + d1 && 48 + d1 ≤ 57) = true := by
      simp only [Bool.and_eq_true, decide_eq_true_eq]
      omega
    simp only [hnd, if_true]
    have hdig : ((48 + d0 : Nat) : Int) - 48 = (d0 : Int) := by push_cast; ring
    have hdrop' : input.drop (p + 1 + 1) = digit_bytes ds ++ l2 := by
      have h2 : input.drop (p + 1 + 1) = (input.drop (p + 1)).drop 1 := by
        rw [List.drop_drop]
      rw [h2, hdrop]
      simp [digit_bytes]
    have hrec := ih fuel (p + 1) d1 (exp_fold_step e d0) l2 hd1
      (fun x hx => hds x (by simp [hx])) hdrop' hne hterm
    rw [hdig]
    simp only [List.length_cons, List.foldl_cons]
    simp only [List.foldl_cons] at hrec
    rw [show p + 1 + (ds.length + 1) = p + 1 + 1 + ds.length by omega]
    simp only [exp_fold_step] at hrec ⊢
    exact hrec

theorem foldl_int_fold_accum (ds : List Nat) :
    ∀ (s : Int × FP × Bool),
      ((List.foldl int_fold_step s ds).1, (List.foldl int_fold_step s ds).2.2)
        = List.foldl
            (fun t d =>
              if t.2 then t
              else if INT_MAX / 10 - 9 < t.1 then (t.1, true)
              else (10 * t.1 + (d : Int), false))
            (s.1, s.2.2) ds := by
  induction ds with
  | nil => intro s; rfl
  | cons d ds ih =>
    intro s
    simp only [List.foldl_cons]
    rw [ih (int_fold_step s d)]
    by_cases ht : s.2.2
    · simp [int_fold_step, ht]
    · by_cases hc : INT_MAX / 10 - 9 < s.1
      · simp [int_fold_step, ht, hc]
      · simp [int_fold_step, ht, hc]

theorem foldl_int_fold_val (ds : List Nat) :
    ∀ (s : Int × FP × Bool) (v : Nat),
      (s.2.2 = false → s.1 = (v : Int) ∧ s.2.1 = FP.finite 0) →
      (s.2.2 = true → s.2.1 = FP.finite ((v : Nat) : ℚ)) →
      ((List.foldl int_fold_step s ds).2.2 = false →
          (List.foldl int_fold_step s ds).1
            = ((ds.foldl (fun a d => 10 * a + d) v : Nat) : Int)
          ∧ (List.foldl int_fold_step s ds).2.1 = FP.finite 0) ∧
      ((List.foldl int_fold_step s ds).2.2 = true →
          (List.foldl int_fold_step s ds).2.1
            = FP.finite ((ds.foldl (fun a d => 10 * a + d) v : Nat) : ℚ)) := by
  induction ds with
  | nil => intro s v h1 h2; exact ⟨h1, h2⟩
  | cons d ds ih =>
    intro s v h1 h2
    simp only [List.foldl_cons]
    apply ih (int_fold_step s d) (10 * v + d)
    · intro hf
      obtain ⟨si, sd, st⟩ := s
      cases st with
      | true => simp [int_fold_step] at hf
      | false =>
        obtain ⟨hi, hd⟩ := h1 rfl
        simp only at hi hd
        by_cases hc : INT_MAX / 10 - 9 < si
        · have hdec : decide (INT_MAX / 10 - 9 < si) = true := decide_eq_true hc
          simp [int_fold_step, hdec] at hf
        · have hdec : decide (INT_MAX / 10 - 9 < si) = false := decide_eq_false hc
          simp only [int_fold_step, hdec, Bool.not_false, Bool.true_and, Bool.or_false,
            Bool.false_or] at hf ⊢
          subst hi hd
          refine ⟨?_, by simp⟩
          simp only [Bool.false_eq_true, if_false]
          push_cast
          ring
    · intro htr
      obtain ⟨si, sd, st⟩ := s
      cases st with
      | true =>
        have hd := h2 rfl
        simp only at hd
        subst hd
        simp only [int_fold_step, Bool.not_true, Bool.false_and, Bool.or_false,
          Bool.true_or, if_true, fpMul, fpAdd]
        congr 1
        push_cast
        ring
      | false =>
        obtain ⟨hi, hd⟩ := h1 rfl
        simp only at hi hd
        subst hi hd
        by_cases hc : INT_MAX / 10 - 9 < (v : Int)
        · have hdec : decide (INT_MAX / 10 - 9 < (v : Int)) = true := decide_eq_true hc
          simp only [int_fold_step, hdec, Bool.not_false, Bool.true_and, Bool.false_or,
            if_true, fpMul, fpAdd]
          congr 1
          push_cast
          ring
        · have hdec : decide (INT_MAX / 10 - 9 < (v : Int)) = false := decide_eq_false hc
          simp [int_fold_step, hdec] at htr

theorem foldl_frac_fold_val (ds : List Nat) :
    ∀ (v : Nat) (e : Int),
      (List.foldl frac_fold_step (FP.finite ((v : Nat) : ℚ), e) ds).1
          = FP.finite ((ds.foldl (fun a d => 10 * a + d) v : Nat) : ℚ) ∧
      (List.foldl frac_fold_step (FP.finite ((v : Nat) : ℚ), e) ds).2
          = e - ds.length := by
  induction ds with
  | nil => intro v e; exact ⟨rfl, by simp⟩
  | cons d ds ih =>
    intro v e
    simp only [List.foldl_cons]
    have hq : ((v : Nat) : ℚ) * 10 + (((d : Nat) : Int) : ℚ) = (((10 * v + d : Nat)) : ℚ) := by
      push_cast
      ring
    have hstep : frac_fold_step (FP.finite ((v : Nat) : ℚ), e) d
        = (FP.finite (((10 * v + d : Nat)) : ℚ), e - 1) := by
      simp only [frac_fold_step, fpMul, fpAdd, hq]
    rw [hstep]
    obtain ⟨ha, hb⟩ := ih (10 * v + d) (e - 1)
    refine ⟨ha, ?_⟩
    rw [hb]
    simp only [List.length_cons]
    push_cast
    ring

theorem foldl_exp_clamp (ds : List Nat) :
    ∀ (v : Nat), (∀ x ∈ ds, x ≤ 9) →
      List.foldl exp_fold_step (min ((v : Nat) : Int) INT_MAX) ds
        = min ((ds.foldl (fun a d => 10 * a + d) v : Nat) : Int) INT_MAX := by
  induction ds with
  | nil => intro v _; rfl
  | cons d ds ih =>
    intro v hds
    simp only [List.foldl_cons]
    have hd9 : d ≤ 9 := hds d (by simp)
    have hstep : exp_fold_step (min ((v : Nat) : Int) INT_MAX) d
        = min (((10 * v + d : Nat) : Nat) : Int) INT_MAX := by
      simp only [exp_fold_step, INT_MAX]
      split
      · rename_i hcond
        push_cast at *
        omega
      · rename_i hcond
        push_cast at *
        omega
    rw [hstep]
    exact ih (10 * v + d) (fun x hx => hds x (by simp [hx]))

set_option maxHeartbeats 1000000

theorem C4_int_stage (input : List Nat) (p0 : Nat) (neg : Bool) (ids REST : List Nat)
    (hids9 : ∀ x ∈ ids, x ≤ 9)
    (hids : ids = [0] ∨ (ids ≠ [] ∧ ids.headD 0 ≠ 0))
    (hdropn : input.drop p0 = (if neg then [45] else []) ++ digit_bytes ids ++ REST)
    (hne : REST ≠ [])
    (hhd : ids ≠ [0] → REST.headD 0 < 48 ∨ 57 < REST.headD 0)
    (hp0 : input.length = p0 + (if neg then 1 else 0) + ids.length + REST.length) :
    parse_number input p0
      = parse_number_frac input (p0 + (if neg then 1 else 0) + ids.length) neg
          (List.foldl int_fold_step (0, FP.finite 0, false) ids).1
          (List.foldl int_fold_step (0, FP.finite 0, false) ids).2.1
          (List.foldl int_fold_step (0, FP.finite 0, false) ids).2.2 := by
  have hRl : 1 ≤ REST.length := by
    cases REST with
    | nil => exact absurd rfl hne
    | cons a t => simp
  obtain ⟨d0, ds, hids_eq⟩ : ∃ d0 ds, ids = d0 :: ds := by
    rcases hids with h | ⟨h, _⟩
    · exact ⟨0, [], h⟩
    · cases ids with
      | nil => exact absurd rfl h
      | cons a t => exact ⟨a, t, rfl⟩
  subst hids_eq
  have hd09 : d0 ≤ 9 := hids9 d0 (by simp)
  set negLen := (if neg then 1 else 0 : Nat) with hnegLen
  have hdrop1 : input.drop (p0 + negLen) = digit_bytes (d0 :: ds) ++ REST := by
    cases neg
    · simpa [hnegLen] using hdropn
    · have h2 : input.drop (p0 + 1) = (input.drop p0).drop 1 := by rw [List.drop_drop]
      rw [hnegLen]
      simp only [if_true]
      rw [h2, hdropn]
      simp
  have hgd1 : input.getD (p0 + negLen) 0 = 48 + d0 := by
    rw [getD_drop, hdrop1]
    simp [digit_bytes]
  have hdrop2 : input.drop (p0 + negLen + 1) = digit_bytes ds ++ REST := by
    have h2 : input.drop (p0 + negLen + 1) = (input.drop (p0 + negLen)).drop 1 := by
      rw [List.drop_drop]
    rw [h2, hdrop1]
    simp [digit_bytes]
  have hlen : input.length = p0 + negLen + (ds.length + 1) + REST.length := by
    simpa using hp0
  -- unfold parse_number and dispatch the sign
  rw [parse_number]
  cases neg with
  | false =>
    simp only [hnegLen, Bool.false_eq_true, if_false, Nat.add_zero] at hdrop1 hgd1 hdrop2 hlen ⊢
    have h45 : ¬ (input.getD p0 0 = 45) := by omega
    simp only [if_neg h45, decide_eq_false h45, Bool.false_and, Bool.false_eq_true, if_false]
    rcases hids with hzero | ⟨_, hnz⟩
    · have h1 : d0 = 0 := by injection hzero
      have h2 : ds = [] := by injection hzero with _ h2
      subst h1; subst h2
      have hg48 : input.getD p0 0 = 48 := by omega
      have hnn : ¬ (p0 + 1 = input.length) := by
        simp only [List.length_cons, List.length_nil] at hlen
        omega
      rw [if_pos hg48, if_neg hnn]
      have hfold : (List.foldl int_fold_step (0, FP.finite 0, false) [0])
          = ((0 : Int), FP.finite 0, false) := by
        simp [int_fold_step, INT_MAX]
      rw [hfold]
      simp
    · have hd0nz : d0 ≠ 0 := by simpa using hnz
      have hg48 : ¬ (input.getD p0 0 = 48) := by omega
      rw [if_neg hg48, hgd1]
      have hnd1 : decide (48 + d0 < 48) = false := decide_eq_false (by omega)
      have hnd2 : decide (57 < 48 + d0) = false := decide_eq_false (by omega)
      simp only [hnd1, hnd2, Bool.false_or, Bool.or_false, Bool.false_eq_true, if_false]
      have hterm : REST.headD 0 < 48 ∨ 57 < REST.headD 0 := by
        apply hhd
        intro hcon
        have : d0 = 0 := by
          have := congrArg (List.headD · 0) hcon
          simpa using this
        exact hd0nz this
      have hfuel : input.length + 1 = (input.length - ds.length) + ds.length + 1 := by
        omega
      have hrun : int_digit_loop input ((input.length - ds.length) + ds.length + 1) p0
            (48 + d0) 0 (FP.finite 0) false
          = .ok (p0 + 1 + ds.length) (REST.headD 0)
              (List.foldl int_fold_step ((0 : Int), FP.finite 0, false) (d0 :: ds)).1
              (List.foldl int_fold_step ((0 : Int), FP.finite 0, false) (d0 :: ds)).2.1
              (List.foldl int_fold_step ((0 : Int), FP.finite 0, false) (d0 :: ds)).2.2 :=
        int_digit_loop_run input ds (input.length - ds.length) p0 d0
          ((0 : Int), FP.finite 0, false) REST hd09
          (fun x hx => hids9 x (by simp [hx])) hdrop2 hne hterm
      rw [hfuel, hrun]
      have harith : p0 + 1 + ds.length = p0 + (d0 :: ds).length := by
        simp only [List.length_cons]
        omega
      rw [harith]
  | true =>
    simp only [hnegLen, if_true] at hdrop1 hgd1 hdrop2 hlen ⊢
    have h45 : input.getD p0 0 = 45 := by
      rw [getD_drop, hdropn]
      simp
    have hnn1 : ¬ (p0 + 1 = input.length) := by
      omega
    simp only [if_pos h45, decide_eq_true h45, Bool.true_and,
      decide_eq_false hnn1, Bool.false_eq_true, if_false]
    rcases hids with hzero | ⟨_, hnz⟩
    · have h1 : d0 = 0 := by injection hzero
      have h2 : ds = [] := by injection hzero with _ h2
      subst h1; subst h2
      have hg48 : input.getD (p0 + 1) 0 = 48 := by omega
      have hnn : ¬ (p0 + 1 + 1 = input.length) := by
        simp only [List.length_cons, List.length_nil] at hlen
        omega
      rw [if_pos hg48, if_neg hnn]
      have hfold : (List.foldl int_fold_step (0, FP.finite 0, false) [0])
          = ((0 : Int), FP.finite 0, false) := by
        simp [int_fold_step, INT_MAX]
      rw [hfold]
      simp
    · have hd0nz : d0 ≠ 0 := by simpa using hnz
      have hg48 : ¬ (input.getD (p0 + 1) 0 = 48) := by omega
      rw [if_neg hg48, hgd1]
      have hnd1 : decide (48 + d0 < 48) = false := decide_eq_false (by omega)
      have hnd2 : decide (57 < 48 + d0) = false := decide_eq_false (by omega)
      simp only [hnd1, hnd2, Bool.false_or, Bool.or_false, Bool.false_eq_true, if_false]
      have hterm : REST.headD 0 < 48 ∨ 57 < REST.headD 0 := by
        apply hhd
        intro hcon
        have : d0 = 0 := by
          have := congrArg (List.headD · 0) hcon
          simpa using this
        exact hd0nz this
      have hfuel : input.length + 1 = (input.length - ds.length) + ds.length + 1 := by
        omega
      have hrun : int_digit_loop input ((input.length - ds.length) + ds.length + 1) (p0 + 1)
            (48 + d0) 0 (FP.finite 0) false
          = .ok (p0 + 1 + 1 + ds.length) (REST.headD 0)
              (List.foldl int_fold_step ((0 : Int), FP.finite 0, false) (d0 :: ds)).1
              (List.foldl int_fold_step ((0 : Int), FP.finite 0, false) (d0 :: ds)).2.1
              (List.foldl int_fold_step ((0 : Int), FP.finite 0, false) (d0 :: ds)).2.2 :=
        int_digit_loop_run input ds (input.length - ds.length) (p0 + 1) d0
          ((0 : Int), FP.finite 0, false) REST hd09
          (fun x hx => hids9 x (by simp [hx])) hdrop2 hne hterm
      rw [hfuel, hrun]
      have harith : p0 + 1 + 1 + ds.length = p0 + 1 + (d0 :: ds).length := by
        simp only [List.length_cons]
        omega
      rw [harith]

theorem C4_frac_stage (input : List Nat) (p : Nat) (neg : Bool) (i : Int) (d : FP)
    (tryD : Bool) (f0 : Nat) (fs REST : List Nat)
    (hf0 : f0 ≤ 9) (hfs : ∀ x ∈ fs, x ≤ 9)
    (hdrop : input.drop p = 46 :: (digit_bytes (f0 :: fs) ++ REST))
    (hne : REST ≠ [])
    (hterm : REST.headD 0 < 48 ∨ 57 < REST.headD 0)
    (hlen : input.length = p + 1 + (fs.length + 1) + REST.length) :
    parse_number_frac input p neg i d tryD
      = parse_number_exp input (p + 1 + 1 + fs.length) neg i
          (List.foldl frac_fold_step ((if tryD then d else FP.finite (i : ℚ)), 0) (f0 :: fs)).1
          true
          (List.foldl frac_fold_step ((if tryD then d else FP.finite (i : ℚ)), 0) (f0 :: fs)).2 := by
  have hRl : 1 ≤ REST.length := by
    cases REST with
    | nil => exact absurd rfl hne
    | cons a t => simp
  have hg46 : input.getD p 0 = 46 := by
    rw [getD_drop, hdrop]
    simp
  have hdrop1 : input.drop (p + 1) = digit_bytes (f0 :: fs) ++ REST := by
    have h2 : input.drop (p + 1) = (input.drop p).drop 1 := by rw [List.drop_drop]
    rw [h2, hdrop]
    simp
  have hdrop2 : input.drop (p + 1 + 1) = digit_bytes fs ++ REST := by
    have h2 : input.drop (p + 1 + 1) = (input.drop (p + 1)).drop 1 := by rw [List.drop_drop]
    rw [h2, hdrop1]
    simp [digit_bytes]
  have hgc : input.getD (p + 1) 0 = 48 + f0 := by
    rw [getD_drop, hdrop1]
    simp [digit_bytes]
  rw [parse_number_frac]
  rw [if_pos hg46]
  have hnn : ¬ (p + 1 = input.length) := by omega
  rw [if_neg hnn, hgc]
  have hnd1 : decide (48 + f0 < 48) = false := decide_eq_false (by omega)
  have hnd2 : decide (57 < 48 + f0) = false := decide_eq_false (by omega)
  simp only [hnd1, hnd2, Bool.false_or, Bool.or_false, Bool.false_eq_true, if_false]
  have hfuel : input.length + 1 = (input.length - fs.length) + fs.length + 1 := by
    omega
  have hrun : frac_digit_loop input ((input.length - fs.length) + fs.length + 1) (p + 1)
        (48 + f0) (if tryD then d else FP.finite (i : ℚ)) 0
      = .ok (p + 1 + 1 + fs.length) (REST.headD 0)
          (List.foldl frac_fold_step ((if tryD then d else FP.finite (i : ℚ)), (0 : Int)) (f0 :: fs)).1
          (List.foldl frac_fold_step ((if tryD then d else FP.finite (i : ℚ)), (0 : Int)) (f0 :: fs)).2 :=
    frac_digit_loop_run input fs (input.length - fs.length) (p + 1) f0
      ((if tryD then d else FP.finite (i : ℚ)), (0 : Int)) REST hf0 hfs hdrop2 hne hterm
  rw [hfuel, hrun]

theorem ite_true_true {α : Type} (a b : α) : (if true = true then a else b) = a := rfl

theorem ite_nat_self {α : Type} (n : Nat) (a b : α) : (if n = n then a else b) = a :=
  if_pos rfl

theorem C4_exp_stage (input : List Nat) (p : Nat) (neg : Bool) (i : Int) (d : FP)
    (tryD : Bool) (exponent : Int) (eb : Nat) (sg : List Nat) (e0 : Nat) (es REST : List Nat)
    (heb : eb = 101 ∨ eb = 69)
    (hsg : sg = [] ∨ sg = [43] ∨ sg = [45])
    (he0 : e0 ≤ 9) (hes : ∀ x ∈ es, x ≤ 9)
    (hdrop : input.drop p = eb :: (sg ++ (digit_bytes (e0 :: es) ++ REST)))
    (hne : REST ≠ [])
    (hterm : REST.headD 0 < 48 ∨ 57 < REST.headD 0)
    (hlen : input.length = p + 1 + sg.length + (es.length + 1) + REST.length) :
    parse_number_exp input p neg i d tryD exponent
      = parse_number_finish (p + 1 + sg.length + 1 + es.length) neg i
          (if tryD then d else FP.finite (i : ℚ)) true
          (exponent + (if sg = [45]
                       then -(List.foldl exp_fold_step 0 (e0 :: es))
                       else List.foldl exp_fold_step 0 (e0 :: es))) := by
  have hRl : 1 ≤ REST.length := by
    cases REST with
    | nil => exact absurd rfl hne
    | cons a t => simp
  have hge : input.getD p 0 = eb := by
    rw [getD_drop, hdrop]
    simp
  have hdrop1 : input.drop (p + 1) = sg ++ (digit_bytes (e0 :: es) ++ REST) := by
    have h2 : input.drop (p + 1) = (input.drop p).drop 1 := by rw [List.drop_drop]
    rw [h2, hdrop]
    simp
  rw [parse_number_exp, hge]
  have hcond : (decide (eb = 101) || decide (eb = 69)) = true := by
    rcases heb with h | h <;> simp [h]
  rw [hcond, if_pos (rfl : true = true)]
  have hnn : ¬ (p + 1 = input.length) := by omega
  rw [if_neg hnn]
  rcases hsg with hsge | hsge | hsge <;> subst hsge
  · -- no sign byte
    have hgc : input.getD (p + 1) 0 = 48 + e0 := by
      rw [getD_drop, hdrop1]
      simp [digit_bytes]
    rw [hgc]
    have h45 : ¬ ((48 + e0 : Nat) = 45) := by omega
    have h43 : ¬ ((48 + e0 : Nat) = 43) := by omega
    simp only [decide_eq_false h45, decide_eq_false h43, Bool.false_or,
      Bool.false_eq_true, if_false, if_neg h45]
    rw [if_neg hnn, hgc]
    have hnd1 : decide (48 + e0 < 48) = false := decide_eq_false (by omega)
    have hnd2 : decide (57 < 48 + e0) = false := decide_eq_false (by omega)
    simp only [hnd1, hnd2, Bool.false_or, Bool.or_false, Bool.false_eq_true, if_false]
    have hdrop2 : input.drop (p + 1 + 1) = digit_bytes es ++ REST := by
      have h2 : input.drop (p + 1 + 1) = (input.drop (p + 1)).drop 1 := by rw [List.drop_drop]
      rw [h2, hdrop1]
      simp [digit_bytes]
    have hfuel : input.length + 1 = (input.length - es.length) + es.length + 1 := by
      omega
    have hrun : exp_digit_loop input ((input.length - es.length) + es.length + 1) (p + 1)
          (48 + e0) 0
        = .ok (p + 1 + 1 + es.length) (List.foldl exp_fold_step 0 (e0 :: es)) :=
      exp_digit_loop_run input es (input.length - es.length) (p + 1) e0 0 REST he0 hes
        hdrop2 hne hterm
    rw [hfuel, hrun]
    have hsf : ¬ (([] : List Nat) = [45]) := by simp
    simp only [if_neg hsf, List.length_nil, Nat.add_zero]
  · -- plus sign
    have hg43 : input.getD (p + 1) 0 = 43 := by
      rw [getD_drop, hdrop1]
      simp
    rw [hg43]
    have h45 : ¬ ((43 : Nat) = 45) := by omega
    have h43t : decide ((43 : Nat) = 43) = true := by decide
    simp only [decide_eq_false h45, h43t, decide_True, Bool.false_or, ite_true_true, if_true, if_neg h45]
    have hnn2 : ¬ (p + 1 + 1 = input.length) := by
      simp only [List.length_cons, List.length_nil] at hlen
      omega
    rw [if_neg hnn2]
    have hdrop2 : input.drop (p + 1 + 1) = digit_bytes (e0 :: es) ++ REST := by
      have h2 : input.drop (p + 1 + 1) = (input.drop (p + 1)).drop 1 := by rw [List.drop_drop]
      rw [h2, hdrop1]
      simp
    have hgc : input.getD (p + 1 + 1) 0 = 48 + e0 := by
      rw [getD_drop, hdrop2]
      simp [digit_bytes]
    rw [hgc]
    have hnd1 : decide (48 + e0 < 48) = false := decide_eq_false (by omega)
    have hnd2 : decide (57 < 48 + e0) = false := decide_eq_false (by omega)
    simp only [hnd1, hnd2, Bool.false_or, Bool.or_false, Bool.false_eq_true, if_false]
    have hdrop3 : input.drop (p + 1 + 1 + 1) = digit_bytes es ++ REST := by
      have h2 : input.drop (p + 1 + 1 + 1) = (input.drop (p + 1 + 1)).drop 1 := by
        rw [List.drop_drop]
      rw [h2, hdrop2]
      simp [digit_bytes]
    have hfuel : input.length + 1 = (input.length - es.length) + es.length + 1 := by
      simp only [List.length_cons, List.length_nil] at hlen
      omega
    have hrun : exp_digit_loop input ((input.length - es.length) + es.length + 1) (p + 1 + 1)
          (48 + e0) 0
        = .ok (p + 1 + 1 + 1 + es.length) (List.foldl exp_fold_step 0 (e0 :: es)) :=
      exp_digit_loop_run input es (input.length - es.length) (p + 1 + 1) e0 0 REST he0 hes
        hdrop3 hne hterm
    rw [hfuel, hrun]
    have hsf : ¬ (([43] : List Nat) = [45]) := by simp
    simp only [if_neg hsf, List.length_cons, List.length_nil]
  · -- minus sign
    have hg45 : input.getD (p + 1) 0 = 45 := by
      rw [getD_drop, hdrop1]
      simp
    rw [hg45]
    have h45t : decide ((45 : Nat) = 45) = true := by decide
    simp only [h45t, decide_True, Bool.true_or, ite_true_true, if_true, ite_nat_self]
    have hnn2 : ¬ (p + 1 + 1 = input.length) := by
      simp only [List.length_cons, List.length_nil] at hlen
      omega
    rw [if_neg hnn2]
    have hdrop2 : input.drop (p + 1 + 1) = digit_bytes (e0 :: es) ++ REST := by
      have h2 : input.drop (p + 1 + 1) = (input.drop (p + 1)).drop 1 := by rw [List.drop_drop]
      rw [h2, hdrop1]
      simp
    have hgc : input.getD (p + 1 + 1) 0 = 48 + e0 := by
      rw [getD_drop, hdrop2]
      simp [digit_bytes]
    rw [hgc]
    have hnd1 : decide (48 + e0 < 48) = false := decide_eq_false (by omega)
    have hnd2 : decide (57 < 48 + e0) = false := decide_eq_false (by omega)
    simp only [hnd1, hnd2, Bool.false_or, Bool.or_false, Bool.false_eq_true, if_false]
    have hdrop3 : input.drop (p + 1 + 1 + 1) = digit_bytes es ++ REST := by
      have h2 : input.drop (p + 1 + 1 + 1) = (input.drop (p + 1 + 1)).drop 1 := by
        rw [List.drop_drop]
      rw [h2, hdrop2]
      simp [digit_bytes]
    have hfuel : input.length + 1 = (input.length - es.length) + es.length + 1 := by
      simp only [List.length_cons, List.length_nil] at hlen
      omega
    have hrun : exp_digit_loop input ((input.length - es.length) + es.length + 1) (p + 1 + 1)
          (48 + e0) 0
        = .ok (p + 1 + 1 + 1 + es.length) (List.foldl exp_fold_step 0 (e0 :: es)) :=
      exp_digit_loop_run input es (input.length - es.length) (p + 1 + 1) e0 0 REST he0 hes
        hdrop3 hne hterm
    rw [hfuel, hrun]
    have hst : (([45] : List Nat) = [45]) := rfl
    simp only [if_pos hst, List.length_cons, List.length_nil]

theorem number_token_length (neg : Bool) (ids : List Nat) (frac : Option (List Nat))
    (ex : Option (Nat × List Nat × List Nat)) :
    (number_token neg ids frac ex).length
      = (if neg then 1 else 0) + ids.length
        + (match frac with | none => 0 | some fs => 1 + fs.length)
        + (match ex with | none => 0 | some (_, sg, es) => 1 + sg.length + es.length) := by
  cases neg <;> cases frac <;> rcases ex with _ | ⟨eb, sg, es⟩ <;>
    simp [number_token, digit_bytes] <;> omega

theorem drop_add_of_drop (input : List Nat) (p : Nat) (pre post : List Nat)
    (hdrop : input.drop p = pre ++ post) :
    input.drop (p + pre.length) = post := by
  have h1 : input.drop (p + pre.length) = (input.drop p).drop pre.length := by
    rw [List.drop_drop]
  rw [h1, hdrop, List.drop_left]

theorem fpIsZero_natCast (m : Nat) :
    fpIsZero (FP.finite ((m : Nat) : ℚ)) = decide (m = 0) := by
  simp [fpIsZero, Rat.num_natCast]

theorem digits_val_append (xs ys : List Nat) :
    digits_val (xs ++ ys) = ys.foldl (fun a d => 10 * a + d) (digits_val xs) := by
  simp [digits_val, List.foldl_append]

theorem exp_foldl_clamped (es : List Nat) (hes : ∀ x ∈ es, x ≤ 9) :
    List.foldl exp_fold_step 0 es = min ((digits_val es : Nat) : Int) INT_MAX := by
  have h0 : (0 : Int) = min (((0 : Nat) : Nat) : Int) INT_MAX := by
    simp [INT_MAX]
  rw [h0, foldl_exp_clamp es 0 hes]
  rfl

theorem C4_finish_plain (p : Nat) (neg : Bool) (i : Int) (d : FP) (tryD : Bool) :
    parse_number_finish p neg i d tryD 0
      = if tryD then NumRes.ok p (.asDbl (if neg then fpNeg d else d))
        else NumRes.ok p (.asInt (if neg then -i else i)) := by
  rw [parse_number_finish]
  cases tryD <;> cases neg <;> simp

theorem C4_finish_double (p : Nat) (neg : Bool) (i : Int) (m : Nat) (e : Int) :
    parse_number_finish p neg i (FP.finite ((m : Nat) : ℚ)) true e
      = NumRes.ok p (.asDbl (scaled_signed neg m e)) := by
  simp only [parse_number_finish, scaled_signed, fpIsZero_natCast, decide_eq_true_eq,
    Bool.and_true, Bool.not_true, Bool.and_false, Bool.false_eq_true, if_false,
    ite_true_true, if_true]

/-- Claim C4: for every number token (optional minus, integer digits,
optional fractional part, optional exponent part, followed by a byte
that cannot extend the token), the parser stores a host int exactly
when no promotion to double occurred and the token had neither a
fractional part nor an exponent (promotion happens when the
accumulated int i satisfies i > INT_MAX/10 - 9 before a digit is
added); in every other case it stores a double equal to the mantissa
digits times pow10 of the (INT_MAX-clamped) written exponent minus
the number of fractional digits, except that the multiplication is
skipped when the mantissa is zero, and with the leading minus sign
applied last. -/
theorem C4_parse_number_cases (input : List Nat) (p0 : Nat) (neg : Bool)
    (ids : List Nat) (frac : Option (List Nat)) (ex : Option (Nat × List Nat × List Nat))
    (REST : List Nat)
    (hids9 : ∀ x ∈ ids, x ≤ 9)
    (hids : ids = [0] ∨ (ids ≠ [] ∧ ids.headD 0 ≠ 0))
    (hfr : ∀ fs, frac = some fs → fs ≠ [] ∧ ∀ x ∈ fs, x ≤ 9)
    (hex : ∀ eb sg es, ex = some (eb, sg, es) →
        (eb = 101 ∨ eb = 69) ∧ (sg = [] ∨ sg = [43] ∨ sg = [45]) ∧ es ≠ [] ∧ ∀ x ∈ es, x ≤ 9)
    (hdropn : input.drop p0 = number_token neg ids frac ex ++ REST)
    (hne : REST ≠ [])
    (hterm1 : REST.headD 0 < 48 ∨ 57 < REST.headD 0)
    (hterm2 : frac = none → REST.headD 0 ≠ 46)
    (hterm3 : ex = none → REST.headD 0 ≠ 101 ∧ REST.headD 0 ≠ 69)
    (hlen : input.length = p0 + (number_token neg ids frac ex).length + REST.length) :
    parse_number input p0
      = NumRes.ok (p0 + (number_token neg ids frac ex).length)
          (if promotes ids = false ∧ frac = none ∧ ex = none
           then .asInt (if neg then -((digits_val ids : Nat) : Int)
                        else ((digits_val ids : Nat) : Int))
           else .asDbl (number_double neg ids frac ex)) := by
  have hnegLenL : ((if neg then [45] else [] : List Nat)).length = (if neg then 1 else 0) := by
    cases neg <;> rfl
  have hacc : ((List.foldl int_fold_step (0, FP.finite 0, false) ids).1,
      (List.foldl int_fold_step (0, FP.finite 0, false) ids).2.2) = int_accum ids := by
    rw [foldl_int_fold_accum ids (0, FP.finite 0, false)]
    simp [int_accum]
  have hP : (List.foldl int_fold_step (0, FP.finite 0, false) ids).2.2 = promotes ids := by
    have h := congrArg Prod.snd hacc
    simpa [promotes, int_accum] using h
  have hval := foldl_int_fold_val ids (0, FP.finite 0, false) 0
    (fun _ => ⟨rfl, rfl⟩) (fun h => absurd h (by simp))
  have hd' : (if (List.foldl int_fold_step (0, FP.finite 0, false) ids).2.2
        then (List.foldl int_fold_step (0, FP.finite 0, false) ids).2.1
        else FP.finite (((List.foldl int_fold_step (0, FP.finite 0, false) ids).1 : Int) : ℚ))
      = FP.finite ((digits_val ids : Nat) : ℚ) := by
    cases hb : (List.foldl int_fold_step (0, FP.finite 0, false) ids).2.2 with
    | false =>
      obtain ⟨h1, _⟩ := hval.1 hb
      simp only [hb, Bool.false_eq_true, if_false, h1]
      norm_cast
    | true =>
      simp only [hb, ite_true_true, if_true]
      exact hval.2 hb
  rcases frac with _ | fs
  · rcases ex with _ | ⟨eb, sg, es⟩
    · -- no fractional part, no exponent part
      simp only [number_token_length] at hlen
      simp only [eq_self_iff_true, and_true]
      have hdropA : input.drop p0 = (if neg then [45] else []) ++ digit_bytes ids ++ REST := by
        have h := hdropn
        simp only [number_token, List.append_nil] at h
        exact h
      rw [C4_int_stage input p0 neg ids REST hids9 hids hdropA hne (fun _ => hterm1)
        (by omega)]
      have hdropMid : input.drop (p0 + (if neg then 1 else 0) + ids.length) = REST := by
        have hx := drop_add_of_drop input p0 _ REST hdropA
        rw [show p0 + (if neg then 1 else 0) + ids.length
            = p0 + ((if neg then [45] else []) ++ digit_bytes ids).length from by
          simp [hnegLenL, digit_bytes]
          omega]
        exact hx
      have hgMid : input.getD (p0 + (if neg then 1 else 0) + ids.length) 0 = REST.headD 0 := by
        rw [getD_drop, hdropMid]
      rw [parse_number_frac, hgMid, if_neg (hterm2 rfl)]
      rw [parse_number_exp, hgMid]
      obtain ⟨hne101, hne69⟩ := hterm3 rfl
      simp only [decide_eq_false hne101, decide_eq_false hne69, Bool.false_or,
        Bool.false_eq_true, if_false]
      rw [C4_finish_plain]
      cases hb : (List.foldl int_fold_step (0, FP.finite 0, false) ids).2.2 with
      | false =>
        simp only [hb, Bool.false_eq_true, if_false]
        rw [if_pos (show promotes ids = false from by rw [← hP, hb])]
        obtain ⟨h1, _⟩ := hval.1 hb
        rw [h1]
        have hpos : p0 + (if neg then 1 else 0) + ids.length
            = p0 + (number_token neg ids none none).length := by
          simp only [number_token_length]
          omega
        rw [hpos]
        rfl
      | true =>
        simp only [hb, ite_true_true, if_true]
        rw [if_neg (show ¬ (promotes ids = false) from by rw [← hP, hb]; simp)]
        rw [hval.2 hb]
        have hnd : number_double neg ids none none
            = (if neg then fpNeg (FP.finite ((digits_val ids : Nat) : ℚ))
               else FP.finite ((digits_val ids : Nat) : ℚ)) := by
          simp [number_double, scaled_signed]
        rw [hnd]
        have hpos : p0 + (if neg then 1 else 0) + ids.length
            = p0 + (number_token neg ids none none).length := by
          simp only [number_token_length]
          omega
        rw [hpos]
        rfl
    · -- no fractional part, exponent part present
      obtain ⟨heb, hsg, hesne, hes9⟩ := hex eb sg es rfl
      obtain ⟨e1, es', heseq⟩ : ∃ e1 es', es = e1 :: es' := by
        cases es with
        | nil => exact absurd rfl hesne
        | cons a t => exact ⟨a, t, rfl⟩
      subst heseq
      simp only [number_token_length] at hlen
      rw [if_neg (show ¬ (promotes ids = false ∧ (none : Option (List Nat)) = none
          ∧ (some (eb, sg, e1 :: es') : Option (Nat × List Nat × List Nat)) = none) from by
        simp)]
      have hdropA : input.drop p0
          = (if neg then [45] else []) ++ digit_bytes ids
            ++ (eb :: (sg ++ (digit_bytes (e1 :: es') ++ REST))) := by
        have h := hdropn
        simp only [number_token, List.append_nil, List.append_assoc, List.cons_append] at h
        simpa [List.append_assoc, List.cons_append] using h
      rw [C4_int_stage input p0 neg ids (eb :: (sg ++ (digit_bytes (e1 :: es') ++ REST)))
        hids9 hids hdropA (by simp) (fun _ => by rcases heb with h | h <;> simp [h])
        (by simp only [List.length_cons, List.length_append, digit_bytes, List.length_map]
              at hlen ⊢
            omega)]
      have hdropMid : input.drop (p0 + (if neg then 1 else 0) + ids.length)
          = eb :: (sg ++ (digit_bytes (e1 :: es') ++ REST)) := by
        have hx := drop_add_of_drop input p0 ((if neg then [45] else []) ++ digit_bytes ids)
          (eb :: (sg ++ (digit_bytes (e1 :: es') ++ REST))) hdropA
        rw [show p0 + (if neg then 1 else 0) + ids.length
            = p0 + ((if neg then [45] else []) ++ digit_bytes ids).length from by
          simp [hnegLenL, digit_bytes]
          omega]
        exact hx
      have hgMid : input.getD (p0 + (if neg then 1 else 0) + ids.length) 0 = eb := by
        rw [getD_drop, hdropMid]
        simp
      rw [parse_number_frac, hgMid,
        if_neg (show ¬ (eb = 46) from by rcases heb with h | h <;> simp [h])]
      rw [C4_exp_stage input (p0 + (if neg then 1 else 0) + ids.length) neg
        (List.foldl int_fold_step (0, FP.finite 0, false) ids).1
        (List.foldl int_fold_step (0, FP.finite 0, false) ids).2.1
        (List.foldl int_fold_step (0, FP.finite 0, false) ids).2.2
        0 eb sg e1 es' REST heb hsg (hes9 e1 (by simp)) (fun x hx => hes9 x (by simp [hx]))
        hdropMid hne hterm1
        (by simp only [List.length_cons, List.length_append, digit_bytes, List.length_map]
              at hlen ⊢
            omega)]
      rw [hd']
      rw [exp_foldl_clamped (e1 :: es') hes9]
      rw [C4_finish_double]
      have hnd : number_double neg ids none (some (eb, sg, e1 :: es'))
          = scaled_signed neg (digits_val (ids ++ []))
              ((if sg = [45] then -(min ((digits_val (e1 :: es') : Nat) : Int) INT_MAX)
                else min ((digits_val (e1 :: es') : Nat) : Int) INT_MAX)
               - (([] : List Nat).length : Int)) := rfl
      rw [hnd]
      simp only [List.append_nil, List.length_nil, Nat.cast_zero, sub_zero, zero_add]
      rw [show p0 + (if neg then 1 else 0) + ids.length + 1 + sg.length + 1 + es'.length
          = p0 + (number_token neg ids none (some (eb, sg, e1 :: es'))).length from by
        simp only [number_token_length, List.length_cons]
        omega]
  · rcases ex with _ | ⟨eb, sg, es⟩
    · -- fractional part, no exponent part
      obtain ⟨hfsne, hfs9⟩ := hfr fs rfl
      obtain ⟨f0, fs', hfseq⟩ : ∃ f0 fs', fs = f0 :: fs' := by
        cases fs with
        | nil => exact absurd rfl hfsne
        | cons a t => exact ⟨a, t, rfl⟩
      subst hfseq
      simp only [number_token_length] at hlen
      rw [if_neg (show ¬ (promotes ids = false ∧ (some (f0 :: fs') : Option (List Nat)) = none
          ∧ (none : Option (Nat × List Nat × List Nat)) = none) from by simp)]
      have hdropA : input.drop p0
          = (if neg then [45] else []) ++ digit_bytes ids
            ++ (46 :: (digit_bytes (f0 :: fs') ++ REST)) := by
        have h := hdropn
        simp only [number_token, List.append_nil, List.append_assoc, List.cons_append] at h
        simpa [List.append_assoc, List.cons_append] using h
      rw [C4_int_stage input p0 neg ids (46 :: (digit_bytes (f0 :: fs') ++ REST)) hids9 hids
        hdropA (by simp) (fun _ => Or.inl (by simp))
        (by simp only [List.length_cons, List.length_append, digit_bytes, List.length_map]
              at hlen ⊢
            omega)]
      have hdropMid : input.drop (p0 + (if neg then 1 else 0) + ids.length)
          = 46 :: (digit_bytes (f0 :: fs') ++ REST) := by
        have hx := drop_add_of_drop input p0 ((if neg then [45] else []) ++ digit_bytes ids)
          (46 :: (digit_bytes (f0 :: fs') ++ REST)) hdropA
        rw [show p0 + (if neg then 1 else 0) + ids.length
            = p0 + ((if neg then [45] else []) ++ digit_bytes ids).length from by
          simp [hnegLenL, digit_bytes]
          omega]
        exact hx
      rw [C4_frac_stage input (p0 + (if neg then 1 else 0) + ids.length) neg
        (List.foldl int_fold_step (0, FP.finite 0, false) ids).1
        (List.foldl int_fold_step (0, FP.finite 0, false) ids).2.1
        (List.foldl int_fold_step (0, FP.finite 0, false) ids).2.2
        f0 fs' REST (hfs9 f0 (by simp)) (fun x hx => hfs9 x (by simp [hx]))
        hdropMid hne hterm1
        (by simp only [List.length_cons] at hlen ⊢
            omega)]
      rw [hd']
      have hfv := foldl_frac_fold_val (f0 :: fs') (digits_val ids) 0
      rw [hfv.1, hfv.2, ← digits_val_append ids (f0 :: fs')]
      have hdropF : input.drop (p0 + (if neg then 1 else 0) + ids.length + 1 + 1 + fs'.length)
          = REST := by
        have hx := drop_add_of_drop input (p0 + (if neg then 1 else 0) + ids.length)
          (46 :: digit_bytes (f0 :: fs')) REST
          (by rw [List.cons_append]; exact hdropMid)
        rw [show p0 + (if neg then 1 else 0) + ids.length + 1 + 1 + fs'.length
            = p0 + (if neg then 1 else 0) + ids.length
              + (46 :: digit_bytes (f0 :: fs')).length from by
          simp [digit_bytes]
          omega]
        exact hx
      have hgF : input.getD (p0 + (if neg then 1 else 0) + ids.length + 1 + 1 + fs'.length) 0
          = REST.headD 0 := by
        rw [getD_drop, hdropF]
      rw [parse_number_exp, hgF]
      obtain ⟨hne101, hne69⟩ := hterm3 rfl
      simp only [decide_eq_false hne101, decide_eq_false hne69, Bool.false_or,
        Bool.false_eq_true, if_false]
      rw [C4_finish_double]
      have hnd : number_double neg ids (some (f0 :: fs')) none
          = scaled_signed neg (digits_val (ids ++ (f0 :: fs')))
              (0 - (((f0 :: fs') : List Nat).length : Int)) := rfl
      rw [hnd]
      rw [show p0 + (if neg then 1 else 0) + ids.length + 1 + 1 + fs'.length
          = p0 + (number_token neg ids (some (f0 :: fs')) none).length from by
        simp only [number_token_length, List.length_cons]
        omega]
    · -- fractional part and exponent part
      obtain ⟨hfsne, hfs9⟩ := hfr fs rfl
      obtain ⟨f0, fs', hfseq⟩ : ∃ f0 fs', fs = f0 :: fs' := by
        cases fs with
        | nil => exact absurd rfl hfsne
        | cons a t => exact ⟨a, t, rfl⟩
      subst hfseq
      obtain ⟨heb, hsg, hesne, hes9⟩ := hex eb sg es rfl
      obtain ⟨e1, es', heseq⟩ : ∃ e1 es', es = e1 :: es' := by
        cases es with
        | nil => exact absurd rfl hesne
        | cons a t => exact ⟨a, t, rfl⟩
      subst heseq
      simp only [number_token_length] at hlen
      rw [if_neg (show ¬ (promotes ids = false ∧ (some (f0 :: fs') : Option (List Nat)) = none
          ∧ (some (eb, sg, e1 :: es') : Option (Nat × List Nat × List Nat)) = none) from by
        simp)]
      have hdropA : input.drop p0
          = (if neg then [45] else []) ++ digit_bytes ids
            ++ (46 :: (digit_bytes (f0 :: fs')
                ++ (eb :: (sg ++ (digit_bytes (e1 :: es') ++ REST))))) := by
        have h := hdropn
        simp only [number_token, List.append_nil, List.append_assoc, List.cons_append] at h
        simpa [List.append_assoc, List.cons_append] using h
      rw [C4_int_stage input p0 neg ids
        (46 :: (digit_bytes (f0 :: fs') ++ (eb :: (sg ++ (digit_bytes (e1 :: es') ++ REST)))))
        hids9 hids hdropA (by simp) (fun _ => Or.inl (by simp))
        (by simp only [List.length_cons, List.length_append, digit_bytes, List.length_map]
              at hlen ⊢
            omega)]
      have hdropMid : input.drop (p0 + (if neg then 1 else 0) + ids.length)
          = 46 :: (digit_bytes (f0 :: fs')
              ++ (eb :: (sg ++ (digit_bytes (e1 :: es') ++ REST)))) := by
        have hx := drop_add_of_drop input p0 ((if neg then [45] else []) ++ digit_bytes ids)
          (46 :: (digit_bytes (f0 :: fs') ++ (eb :: (sg ++ (digit_bytes (e1 :: es') ++ REST)))))
          hdropA
        rw [show p0 + (if neg then 1 else 0) + ids.length
            = p0 + ((if neg then [45] else []) ++ digit_bytes ids).length from by
          simp [hnegLenL, digit_bytes]
          omega]
        exact hx
      rw [C4_frac_stage input (p0 + (if neg then 1 else 0) + ids.length) neg
        (List.foldl int_fold_step (0, FP.finite 0, false) ids).1
        (List.foldl int_fold_step (0, FP.finite 0, false) ids).2.1
        (List.foldl int_fold_step (0, FP.finite 0, false) ids).2.2
        f0 fs' (eb :: (sg ++ (digit_bytes (e1 :: es') ++ REST)))
        (hfs9 f0 (by simp)) (fun x hx => hfs9 x (by simp [hx]))
        hdropMid (by simp) (by rcases heb with h | h <;> simp [h])
        (by simp only [List.length_cons, List.length_append, digit_bytes, List.length_map]
              at hlen ⊢
            omega)]
      rw [hd']
      have hfv := foldl_frac_fold_val (f0 :: fs') (digits_val ids) 0
      rw [hfv.1, hfv.2, ← digits_val_append ids (f0 :: fs')]
      have hdropF : input.drop (p0 + (if neg then 1 else 0) + ids.length + 1 + 1 + fs'.length)
          = eb :: (sg ++ (digit_bytes (e1 :: es') ++ REST)) := by
        have hx := drop_add_of_drop input (p0 + (if neg then 1 else 0) + ids.length)
          (46 :: digit_bytes (f0 :: fs')) (eb :: (sg ++ (digit_bytes (e1 :: es') ++ REST)))
          (by rw [List.cons_append]; exact hdropMid)
        rw [show p0 + (if neg then 1 else 0) + ids.length + 1 + 1 + fs'.length
            = p0 + (if neg then 1 else 0) + ids.length
              + (46 :: digit_bytes (f0 :: fs')).length from by
          simp [digit_bytes]
          omega]
        exact hx
      rw [C4_exp_stage input (p0 + (if neg then 1 else 0) + ids.length + 1 + 1 + fs'.length)
        neg (List.foldl int_fold_step (0, FP.finite 0, false) ids).1
        (FP.finite ((digits_val (ids ++ (f0 :: fs')) : Nat) : ℚ)) true
        (0 - (((f0 :: fs') : List Nat).length : Int)) eb sg e1 es' REST heb hsg
        (hes9 e1 (by simp)) (fun x hx => hes9 x (by simp [hx])) hdropF hne hterm1
        (by simp only [List.length_cons, List.length_append, digit_bytes, List.length_map]
              at hlen ⊢
            omega)]
      simp only [ite_true_true, if_true]
      rw [exp_foldl_clamped (e1 :: es') hes9]
      rw [C4_finish_double]
      have hnd : number_double neg ids (some (f0 :: fs')) (some (eb, sg, e1 :: es'))
          = scaled_signed neg (digits_val (ids ++ (f0 :: fs')))
              ((if sg = [45] then -(min ((digits_val (e1 :: es') : Nat) : Int) INT_MAX)
                else min ((digits_val (e1 :: es') : Nat) : Int) INT_MAX)
               - (((f0 :: fs') : List Nat).length : Int)) := rfl
      rw [hnd]
      rw [show (0 - (((f0 :: fs') : List Nat).length : Int))
            + (if sg = [45] then -(min ((digits_val (e1 :: es') : Nat) : Int) INT_MAX)
               else min ((digits_val (e1 :: es') : Nat) : Int) INT_MAX)
          = (if sg = [45] then -(min ((digits_val (e1 :: es') : Nat) : Int) INT_MAX)
             else min ((digits_val (e1 :: es') : Nat) : Int) INT_MAX)
            - (((f0 :: fs') : List Nat).length : Int) from by ring]
      rw [show p0 + (if neg then 1 else 0) + ids.length + 1 + 1 + fs'.length + 1 + sg.length
            + 1 + es'.length
          = p0 + (number_token neg ids (some (f0 :: fs')) (some (eb, sg, e1 :: es'))).length
          from by
        simp only [number_token_length, List.length_cons]
        omega]

/-- Witness for C4_parse_number_cases on the token -12.5e-3 followed
by a closing bracket. -/
theorem C4_witness :
    parse_number [45, 49, 50, 46, 53, 101, 45, 51, 93] 0
      = NumRes.ok 8
          (NumVal.asDbl (number_double true [1, 2] (some [5]) (some (101, [45], [3])))) := by
  have h := C4_parse_number_cases [45, 49, 50, 46, 53, 101, 45, 51, 93] 0 true [1, 2]
    (some [5]) (some (101, [45], [3])) [93]
    (by decide)
    (by decide)
    (fun fs hfs => by
      injection hfs with hfs
      subst hfs
      exact ⟨by decide, by decide⟩)
    (fun eb sg es hx => by
      injection hx with hx
      injection hx with h1 hx
      injection hx with h2 h3
      subst h1
      subst h2
      subst h3
      exact ⟨by decide, by decide, by decide, by decide⟩)
    (by decide)
    (by decide)
    (by decide)
    (fun hx => nomatch hx)
    (fun hx => nomatch hx)
    (by decide)
  simpa [number_token, digit_bytes] using h

theorem object_key_record_lt_eq (data : List Nat) (a b : object_key_record) :
    object_key_record_lt data a b
      = lex_lt (a.key_end - a.key_start) (key_bytes data a)
          (b.key_end - b.key_start) (key_bytes data b) := rfl

theorem record_lt_key_eq (data : List Nat) (r : object_key_record) (key : List Nat) :
    record_lt_key data r key
      = lex_lt (r.key_end - r.key_start) (key_bytes data r) key.length key := rfl

theorem bytes_lt_irrefl (x : List Nat) : bytes_lt x x = false := by
  induction x with
  | nil => rfl
  | cons a as ih => simp [bytes_lt, ih]

theorem bytes_lt_trans (x : List Nat) :
    ∀ y z, bytes_lt x y = true → bytes_lt y z = true → bytes_lt x z = true := by
  induction x with
  | nil =>
    intro y z hxy hyz
    cases z with
    | nil =>
      cases y with
      | nil => exact hxy
      | cons b bs => simp [bytes_lt] at hyz
    | cons c cs => simp [bytes_lt]
  | cons a as ih =>
    intro y z hxy hyz
    cases y with
    | nil => simp [bytes_lt] at hxy
    | cons b bs =>
      cases z with
      | nil => simp [bytes_lt] at hyz
      | cons c cs =>
        simp only [bytes_lt] at hxy hyz ⊢
        by_cases hab : a < b
        · by_cases hbc : b < c
          · simp [show a < c from by omega]
          · simp only [if_pos hab, if_neg hbc] at hxy hyz ⊢
            by_cases hcb : c < b
            · simp [if_pos hcb] at hyz
            · have hbc2 : b = c := by omega
              subst hbc2
              simp [if_pos hab]
        · simp only [if_neg hab] at hxy
          by_cases hba : b < a
          · simp [if_pos hba] at hxy
          · have hab2 : a = b := by omega
            subst hab2
            rw [if_neg (show ¬ a < a from by omega)] at hxy
            by_cases hac : a < c
            · simp [hac]
            · by_cases hca : c < a
              · rw [if_neg hac, if_pos hca] at hyz
                simp at hyz
              · have : a = c := by omega
                subst this
                simp only [if_neg hac] at hyz ⊢
                exact ih bs cs hxy hyz

theorem bytes_lt_eq_of_nlt (x : List Nat) :
    ∀ y, bytes_lt x y = false → bytes_lt y x = false → x = y := by
  induction x with
  | nil =>
    intro y hxy _
    cases y with
    | nil => rfl
    | cons b bs => simp [bytes_lt] at hxy
  | cons a as ih =>
    intro y hxy hyx
    cases y with
    | nil => simp [bytes_lt] at hyx
    | cons b bs =>
      simp only [bytes_lt] at hxy hyx
      by_cases hab : a < b
      · simp [hab] at hxy
      · by_cases hba : b < a
        · simp [hba, if_neg hab] at hyx
        · have : a = b := by omega
          subst this
          simp only [if_neg hab] at hxy hyx
          rw [ih bs hxy hyx]

theorem lex_lt_asymm (la : Nat) (xa : List Nat) (lb : Nat) (xb : List Nat)
    (h : lex_lt la xa lb xb = true) : lex_lt lb xb la xa = false := by
  simp only [lex_lt] at h ⊢
  by_cases h1 : la < lb
  · simp [show ¬ lb < la from by omega, h1]
  · simp only [if_neg h1] at h
    by_cases h2 : lb < la
    · simp [h2] at h
    · have : la = lb := by omega
      subst this
      simp only [if_neg h1] at h ⊢
      cases hx : bytes_lt xb xa with
      | false => rfl
      | true =>
        have := bytes_lt_trans xa xb xa h hx
        rw [bytes_lt_irrefl] at this
        exact this.symm

theorem lex_lt_trans (la : Nat) (xa : List Nat) (lb : Nat) (xb : List Nat)
    (lc : Nat) (xc : List Nat)
    (h1 : lex_lt la xa lb xb = true) (h2 : lex_lt lb xb lc xc = true) :
    lex_lt la xa lc xc = true := by
  simp only [lex_lt] at h1 h2 ⊢
  by_cases hab : la < lb
  · by_cases hbc : lb < lc
    · simp [show la < lc from by omega]
    · simp only [if_neg hbc] at h2
      by_cases hcb : lc < lb
      · simp [hcb] at h2
      · have : lb = lc := by omega
        subst this
        simp [hab]
  · simp only [if_neg hab] at h1
    by_cases hba : lb < la
    · simp [hba] at h1
    · have : la = lb := by omega
      subst this
      simp only [if_neg hab] at h1
      by_cases hbc : la < lc
      · simp [hbc]
      · simp only [if_neg hbc] at h2 ⊢
        by_cases hcb : lc < la
        · simp [hcb] at h2
        · simp only [if_neg hcb] at h2 ⊢
          exact bytes_lt_trans xa xb xc h1 h2

theorem lex_lt_conn (la : Nat) (xa : List Nat) (lb : Nat) (xb : List Nat)
    (h1 : lex_lt la xa lb xb = false) (h2 : lex_lt lb xb la xa = false) :
    la = lb ∧ xa = xb := by
  simp only [lex_lt] at h1 h2
  by_cases hab : la < lb
  · simp [hab] at h1
  · by_cases hba : lb < la
    · simp [hba, if_neg hab] at h2
    · have hl : la = lb := by omega
      subst hl
      simp only [if_neg hab] at h1 h2
      exact ⟨rfl, bytes_lt_eq_of_nlt xa xb h1 h2⟩

theorem lex_lt_of_lt_of_nlt (la : Nat) (xa : List Nat) (lb : Nat) (xb : List Nat)
    (lc : Nat) (xc : List Nat)
    (h1 : lex_lt la xa lc xc = true) (h2 : lex_lt lb xb lc xc = false) :
    lex_lt la xa lb xb = true := by
  cases hx : lex_lt la xa lb xb with
  | true => rfl
  | false =>
    cases hy : lex_lt lb xb la xa with
    | true =>
      have := lex_lt_trans lb xb la xa lc xc hy h1
      rw [h2] at this
      exact this
    | false =>
      obtain ⟨hl, hxs⟩ := lex_lt_conn la xa lb xb hx hy
      subst hl
      subst hxs
      rw [h2] at h1
      exact h1

theorem bnot_true_iff (b : Bool) : ((!b) = true) = (b = false) := by
  cases b <;> simp

theorem record_match_iff (data : List Nat) (r : object_key_record) (key : List Nat) :
    record_match data r key = true
      ↔ r.key_end - r.key_start = key.length ∧ key_bytes data r = key := by
  simp [record_match]

theorem match_not_lt_key (data : List Nat) (r : object_key_record) (key : List Nat)
    (h : record_match data r key = true) : record_lt_key data r key = false := by
  rw [record_match_iff] at h
  obtain ⟨hl, hb⟩ := h
  rw [record_lt_key_eq, hl, hb]
  simp [lex_lt, bytes_lt_irrefl]

theorem lex_lt_of_nlt_of_lt (la : Nat) (xa : List Nat) (lb : Nat) (xb : List Nat)
    (lk : Nat) (xk : List Nat)
    (h1 : lex_lt lb xb la xa = false) (h2 : lex_lt lb xb lk xk = true) :
    lex_lt la xa lk xk = true := by
  cases hx : lex_lt la xa lk xk with
  | true => rfl
  | false =>
    have h3 := lex_lt_of_lt_of_nlt lb xb la xa lk xk h2 hx
    rw [h1] at h3
    exact h3

theorem lt_key_mono (data key : List Nat) (a b : object_key_record)
    (hle : object_key_record_lt data b a = false)
    (hlt : record_lt_key data b key = true) :
    record_lt_key data a key = true := by
  rw [object_key_record_lt_eq] at hle
  rw [record_lt_key_eq] at hlt ⊢
  exact lex_lt_of_nlt_of_lt _ _ _ _ _ _ hle hlt

theorem match_of_squeeze (data key : List Nat) (a b : object_key_record)
    (hm : record_match data b key = true)
    (hle : object_key_record_lt data b a = false)
    (hnlt : record_lt_key data a key = false) :
    record_match data a key = true := by
  rw [record_match_iff] at hm ⊢
  obtain ⟨hl, hb⟩ := hm
  rw [object_key_record_lt_eq, hl, hb] at hle
  rw [record_lt_key_eq] at hnlt
  exact lex_lt_conn _ _ _ _ hnlt hle

theorem sort_records_sorted (data : List Nat) (rs : List object_key_record) :
    (sort_records data rs).Sorted
      (fun a b => (!object_key_record_lt data b a) = true) := by
  apply List.sorted_mergeSort
  · intro a b c hab hbc
    rw [bnot_true_iff] at hab hbc ⊢
    cases hx : object_key_record_lt data c a with
    | false => rfl
    | true =>
      exfalso
      rw [object_key_record_lt_eq] at hx hab hbc
      have h3 := lex_lt_of_lt_of_nlt _ _ _ _ _ _ hx hab
      rw [hbc] at h3
      exact Bool.false_ne_true h3
  · intro a b
    cases hx : object_key_record_lt data b a with
    | false => simp [hx]
    | true =>
      have h2 : object_key_record_lt data a b = false := by
        rw [object_key_record_lt_eq] at hx ⊢
        exact lex_lt_asymm _ _ _ _ hx
      simp [h2]

theorem install_object_records_length (data : List Nat) (rs : List object_key_record) :
    (install_object_records data rs).length = rs.length := by
  rw [install_object_records]
  split
  · rw [sort_records]
    exact List.Perm.length_eq (List.mergeSort_perm rs _)
  · rfl

theorem install_object_records_perm (data : List Nat) (rs : List object_key_record) :
    List.Perm (install_object_records data rs) rs := by
  rw [install_object_records]
  split
  · rw [sort_records]
    exact List.mergeSort_perm rs _
  · exact List.Perm.refl rs

theorem lower_bound_spec (data key : List Nat) (rs : List object_key_record)
    (hmono : ∀ i j : Nat, i ≤ j → j < rs.length →
      record_lt_key data (rs.getD j ⟨0, 0, 0⟩) key = true →
      record_lt_key data (rs.getD i ⟨0, 0, 0⟩) key = true) :
    ∀ (fuel first count : Nat), first + count ≤ rs.length → count < fuel →
      first ≤ lower_bound_aux data key rs fuel first count ∧
      lower_bound_aux data key rs fuel first count ≤ first + count ∧
      (∀ j, first ≤ j → j < lower_bound_aux data key rs fuel first count →
        record_lt_key data (rs.getD j ⟨0, 0, 0⟩) key = true) ∧
      (lower_bound_aux data key rs fuel first count < first + count →
        record_lt_key data
          (rs.getD (lower_bound_aux data key rs fuel first count) ⟨0, 0, 0⟩) key = false) := by
  intro fuel
  induction fuel with
  | zero =>
    intro first count h1 h2
    exact absurd h2 (by omega)
  | succ fuel ih =>
    intro first count hbound hfuel
    by_cases hc : count = 0
    · subst hc
      simp only [lower_bound_aux, eq_self_iff_true, if_true]
      refine ⟨Nat.le_refl _, by omega, ?_, by omega⟩
      intro j hj1 hj2
      omega
    · simp only [lower_bound_aux, if_neg hc]
      cases hmid : record_lt_key data (rs.getD (first + count / 2) ⟨0, 0, 0⟩) key with
      | true =>
        simp only [hmid, if_true]
        obtain ⟨ha, hb2, hc2, hd2⟩ := ih (first + count / 2 + 1) (count - count / 2 - 1)
          (by omega) (by omega)
        refine ⟨by omega, by omega, ?_, ?_⟩
        · intro j hj1 hj2
          by_cases hj3 : j ≤ first + count / 2
          · exact hmono j (first + count / 2) hj3 (by omega) hmid
          · exact hc2 j (by omega) hj2
        · intro h
          exact hd2 (by omega)
      | false =>
        simp only [hmid, Bool.false_eq_true, if_false]
        obtain ⟨ha, hb2, hc2, hd2⟩ := ih first (count / 2) (by omega) (by omega)
        refine ⟨ha, by omega, hc2, ?_⟩
        intro h
        by_cases hr : lower_bound_aux data key rs fuel first (count / 2) < first + count / 2
        · exact hd2 hr
        · have hreq : lower_bound_aux data key rs fuel first (count / 2) = first + count / 2 := by
            omega
          rw [hreq]
          exact hmid

theorem find_linear_spec (data key : List Nat) :
    ∀ (l : List object_key_record) (acc : Nat),
      (find_linear_aux data key l acc = acc + l.length
        ↔ ∀ r ∈ l, record_match data r key = false) ∧
      (find_linear_aux data key l acc ≠ acc + l.length →
        ∃ k, find_linear_aux data key l acc = acc + k ∧ k < l.length ∧
          record_match data (l.getD k ⟨0, 0, 0⟩) key = true) := by
  intro l
  induction l with
  | nil =>
    intro acc
    constructor
    · simp [find_linear_aux]
    · simp [find_linear_aux]
  | cons r t ih =>
    intro acc
    rw [find_linear_aux]
    cases hm : record_match data r key with
    | true =>
      simp only [hm, if_true]
      constructor
      · constructor
        · intro h
          exfalso
          simp only [List.length_cons] at h
          omega
        · intro hall
          exfalso
          have h2 := hall r (by simp)
          rw [hm] at h2
          exact Bool.noConfusion h2
      · intro h
        exact ⟨0, by omega, by simp, by simpa using hm⟩
    | false =>
      simp only [hm, Bool.false_eq_true, if_false]
      obtain ⟨ih1, ih2⟩ := ih (acc + 1)
      have harith : acc + (r :: t).length = (acc + 1) + t.length := by
        simp only [List.length_cons]
        omega
      constructor
      · rw [harith, ih1]
        constructor
        · intro hall x hx
          rcases List.mem_cons.mp hx with hx1 | hx2
          · rw [hx1]
            exact hm
          · exact hall x hx2
        · intro hall x hx
          exact hall x (List.mem_cons_of_mem r hx)
      · intro hne
        rw [harith] at hne
        obtain ⟨k, hk1, hk2, hk3⟩ := ih2 hne
        refine ⟨k + 1, by omega, by simp only [List.length_cons]; omega, ?_⟩
        simpa using hk3

/-- Claim C2: for every record array as arranged by install_object and
every key string, find_object_key returns the object length exactly
when no record key byte-equals the key, and otherwise an index below
the length whose record key byte-equals the key; this holds both for
the binary search taken when length > 100 (relying on the
length-then-memcmp sort performed at install time) and for the linear
scan taken when length <= 100. -/
theorem C2_find_object_key (data : List Nat) (rs : List object_key_record) (key : List Nat) :
    (install_object_records data rs).length = rs.length ∧
    (find_object_key data (install_object_records data rs) key = rs.length
      ↔ ∀ r ∈ rs, record_match data r key = false) ∧
    (find_object_key data (install_object_records data rs) key ≠ rs.length →
      find_object_key data (install_object_records data rs) key < rs.length ∧
      record_match data
        ((install_object_records data rs).getD
          (find_object_key data (install_object_records data rs) key) ⟨0, 0, 0⟩) key
        = true) := by
  have hlen := install_object_records_length data rs
  have hperm := install_object_records_perm data rs
  refine ⟨hlen, ?_⟩
  by_cases hbs : should_binary_search rs.length = true
  · -- binary-search branch
    have hinstall : install_object_records data rs = sort_records data rs := by
      rw [install_object_records, if_pos hbs]
    have hsorted := sort_records_sorted data rs
    rw [← hinstall] at hsorted
    have hmono : ∀ i j : Nat, i ≤ j → j < (install_object_records data rs).length →
        record_lt_key data ((install_object_records data rs).getD j ⟨0, 0, 0⟩) key = true →
        record_lt_key data ((install_object_records data rs).getD i ⟨0, 0, 0⟩) key = true := by
      intro i j hij hj hPj
      rcases Nat.eq_or_lt_of_le hij with heq | hlt
      · rw [heq]
        exact hPj
      · have hpair := (List.pairwise_iff_getElem.mp hsorted) i j (by omega) hj hlt
        rw [bnot_true_iff] at hpair
        rw [List.getD_eq_getElem _ _ hj] at hPj
        rw [List.getD_eq_getElem _ _ (show i < (install_object_records data rs).length by omega)]
        exact lt_key_mono data key _ _ hpair hPj
    obtain ⟨hlb1, hlb2, hlb3, hlb4⟩ :=
      lower_bound_spec data key (install_object_records data rs) hmono
        ((install_object_records data rs).length + 1) 0 (install_object_records data rs).length
        (by omega) (by omega)
    have hbs2 : should_binary_search (install_object_records data rs).length = true := by
      rw [hlen]
      exact hbs
    simp only [find_object_key]
    rw [hbs2, if_pos (rfl : true = true)]
    by_cases hex : ∃ j, j < (install_object_records data rs).length ∧
        record_match data ((install_object_records data rs).getD j ⟨0, 0, 0⟩) key = true
    · obtain ⟨j, hj, hmj⟩ := hex
      have hPj : record_lt_key data ((install_object_records data rs).getD j ⟨0, 0, 0⟩) key
          = false := match_not_lt_key _ _ _ hmj
      have hij : lower_bound_aux data key (install_object_records data rs)
          ((install_object_records data rs).length + 1) 0 (install_object_records data rs).length
          ≤ j := by
        by_contra h
        have h2 := hlb3 j (by omega) (by omega)
        rw [hPj] at h2
        exact Bool.noConfusion h2
      have hLBn : lower_bound_aux data key (install_object_records data rs)
          ((install_object_records data rs).length + 1) 0 (install_object_records data rs).length
          < (install_object_records data rs).length := by omega
      have hPL : record_lt_key data
          ((install_object_records data rs).getD
            (lower_bound_aux data key (install_object_records data rs)
              ((install_object_records data rs).length + 1) 0
              (install_object_records data rs).length) ⟨0, 0, 0⟩) key = false :=
        hlb4 (by omega)
      have hmatchL : record_match data
          ((install_object_records data rs).getD
            (lower_bound_aux data key (install_object_records data rs)
              ((install_object_records data rs).length + 1) 0
              (install_object_records data rs).length) ⟨0, 0, 0⟩) key = true := by
        rcases Nat.eq_or_lt_of_le hij with heq | hlt
        · rw [heq]
          exact hmj
        · have hpair := (List.pairwise_iff_getElem.mp hsorted) _ j hLBn hj hlt
          rw [bnot_true_iff] at hpair
          have hmj2 := hmj
          have hPL2 := hPL
          rw [List.getD_eq_getElem _ _ hj] at hmj2
          rw [List.getD_eq_getElem _ _ hLBn] at hPL2
          rw [List.getD_eq_getElem _ _ hLBn]
          exact match_of_squeeze data key _ _ hmj2 hpair hPL2
      have hcond : (decide ¬(lower_bound_aux data key (install_object_records data rs)
            ((install_object_records data rs).length + 1) 0
            (install_object_records data rs).length = (install_object_records data rs).length)
          && record_match data
            ((install_object_records data rs).getD
              (lower_bound_aux data key (install_object_records data rs)
                ((install_object_records data rs).length + 1) 0
                (install_object_records data rs).length) ⟨0, 0, 0⟩) key) = true := by
        rw [hmatchL, decide_eq_true (show ¬(_ = (install_object_records data rs).length) from
          by omega)]
        rfl
      rw [hcond, if_pos (rfl : true = true)]
      constructor
      · constructor
        · intro h
          exfalso
          omega
        · intro hall
          exfalso
          have hmem : (install_object_records data rs).getD j ⟨0, 0, 0⟩
              ∈ install_object_records data rs := by
            rw [List.getD_eq_getElem _ _ hj]
            exact List.getElem_mem hj
          have hmem2 := (hperm.mem_iff).mp hmem
          have h3 := hall _ hmem2
          rw [hmj] at h3
          exact Bool.noConfusion h3
      · intro h
        exact ⟨by omega, hmatchL⟩
    · have hcond : (decide ¬(lower_bound_aux data key (install_object_records data rs)
            ((install_object_records data rs).length + 1) 0
            (install_object_records data rs).length = (install_object_records data rs).length)
          && record_match data
            ((install_object_records data rs).getD
              (lower_bound_aux data key (install_object_records data rs)
                ((install_object_records data rs).length + 1) 0
                (install_object_records data rs).length) ⟨0, 0, 0⟩) key) = false := by
        by_cases hLBn : lower_bound_aux data key (install_object_records data rs)
            ((install_object_records data rs).length + 1) 0
            (install_object_records data rs).length < (install_object_records data rs).length
        · have hm : record_match data
              ((install_object_records data rs).getD
                (lower_bound_aux data key (install_object_records data rs)
                  ((install_object_records data rs).length + 1) 0
                  (install_object_records data rs).length) ⟨0, 0, 0⟩) key = false := by
            cases hmm : record_match data
                ((install_object_records data rs).getD
                  (lower_bound_aux data key (install_object_records data rs)
                    ((install_object_records data rs).length + 1) 0
                    (install_object_records data rs).length) ⟨0, 0, 0⟩) key with
            | false => rfl
            | true => exact absurd ⟨_, hLBn, hmm⟩ hex
          rw [hm, Bool.and_false]
        · rw [decide_eq_false (show ¬¬(lower_bound_aux data key (install_object_records data rs)
              ((install_object_records data rs).length + 1) 0
              (install_object_records data rs).length = (install_object_records data rs).length)
            from by omega), Bool.false_and]
      rw [hcond, if_neg (show ¬ (false = true) from by simp)]
      rw [hlen]
      constructor
      · constructor
        · intro _ r hr
          cases hmr : record_match data r key with
          | false => rfl
          | true =>
            exfalso
            have hmem : r ∈ install_object_records data rs := (hperm.mem_iff).mpr hr
            obtain ⟨k, hk, hkeq⟩ := List.mem_iff_getElem.mp hmem
            refine hex ⟨k, hk, ?_⟩
            rw [List.getD_eq_getElem _ _ hk, hkeq]
            exact hmr
        · intro _
          rfl
      · intro h
        exact absurd rfl h
  · -- linear branch
    have hinstall : install_object_records data rs = rs := by
      rw [install_object_records, if_neg hbs]
    have hbs2 : should_binary_search (install_object_records data rs).length = false := by
      rw [hlen]
      revert hbs
      cases should_binary_search rs.length <;> simp
    simp only [find_object_key]
    rw [hbs2, if_neg (show ¬ (false = true) from by simp)]
    obtain ⟨hl1, hl2⟩ := find_linear_spec data key (install_object_records data rs) 0
    rw [hinstall] at hl1 hl2 ⊢
    rw [Nat.zero_add] at hl1 hl2
    constructor
    · exact hl1
    · intro hne
      obtain ⟨k, hk1, hk2, hk3⟩ := hl2 hne
      rw [hk1]
      rw [Nat.zero_add] at hk1 ⊢
      exact ⟨by omega, hk3⟩


theorem toNat_lt8 (t : Tag) : t.toNat < 8 := by
  cases t <;> decide

theorem get_element_tag_make (t : Tag) (v : Nat) : get_element_tag (make_element t v) = t := by
  rw [get_element_tag, make_element]
  have h : (v * 8 + t.toNat) % 8 = t.toNat := by
    rw [Nat.mul_comm, Nat.mul_add_mod]
    exact Nat.mod_eq_of_lt (toNat_lt8 t)
  rw [h]
  cases t <;> rfl

theorem get_element_value_make (t : Tag) (v : Nat) :
    get_element_value (make_element t v) = v := by
  rw [get_element_value, make_element]
  have := toNat_lt8 t
  omega

theorem skip_ws_aux_spec (l : List Nat) :
    ∀ p q, skip_ws_aux l p = some q → p ≤ q ∧ q < p + l.length := by
  induction l with
  | nil =>
    intro p q h
    simp [skip_ws_aux] at h
  | cons b rest ih =>
    intro p q h
    rw [skip_ws_aux] at h
    by_cases hw : is_whitespace b = true
    · rw [if_pos hw] at h
      obtain ⟨h1, h2⟩ := ih (p + 1) q h
      simp only [List.length_cons]
      omega
    · rw [if_neg hw] at h
      injection h with h
      simp only [List.length_cons]
      omega

theorem skip_whitespace_spec (input : List Nat) (p q : Nat)
    (h : skip_whitespace input p = some q) : p ≤ q ∧ q < input.length := by
  rw [skip_whitespace] at h
  obtain ⟨h1, h2⟩ := skip_ws_aux_spec _ _ _ h
  have h3 : (input.drop p).length = input.length - p := by simp
  omega

theorem scan_plain_spec (l : List Nat) :
    ∀ p q, scan_plain l p = some q → p ≤ q ∧ q < p + l.length := by
  induction l with
  | nil =>
    intro p q h
    simp [scan_plain] at h
  | cons b rest ih =>
    intro p q h
    rw [scan_plain] at h
    by_cases hw : is_plain_string_character b = true
    · rw [if_pos hw] at h
      obtain ⟨h1, h2⟩ := ih (p + 1) q h
      simp only [List.length_cons]
      omega
    · rw [if_neg hw] at h
      injection h with h
      simp only [List.length_cons]
      omega

theorem write_bytes_length (ws : List Nat) :
    ∀ (input : List Nat) (pos : Nat), (write_bytes input pos ws).length = input.length := by
  induction ws with
  | nil => intro input pos; rfl
  | cons b rest ih =>
    intro input pos
    rw [write_bytes, ih]
    simp

theorem read_hex_aux_pos (input : List Nat) :
    ∀ k p v u q, read_hex_aux input k p v = .ok (u, q) → q = p + k := by
  intro k
  induction k with
  | zero =>
    intro p v u q h
    rw [read_hex_aux] at h
    injection h with h
    injection h with h1 h2
    omega
  | succ k ih =>
    intro p v u q h
    rw [read_hex_aux] at h
    cases hd : read_hex_digit (input.getD p 0) with
    | none =>
      rw [hd] at h
      exact absurd h (by simp)
    | some c =>
      rw [hd] at h
      have := ih (p + 1) (v * 16 + c) u q h
      omega

theorem read_hex_pos (input : List Nat) (p u q : Nat)
    (h : read_hex input p = .ok (u, q)) : q = p + 4 :=
  read_hex_aux_pos input 4 p 0 u q h

theorem getD_append_left (l1 l2 : List Nat) (i : Nat) (h : i < l1.length) :
    (l1 ++ l2).getD i 0 = l1.getD i 0 := by
  rw [List.getD, List.getD, List.get?_append h]

theorem getD_append_self (l : List Nat) (x : Nat) : (l ++ [x]).getD l.length 0 = x := by
  rw [List.getD, List.get?_append_right (Nat.le_refl _)]
  simp

theorem getD_take (s : List Nat) (b i : Nat) (h : i < b) :
    (s.take b).getD i 0 = s.getD i 0 := by
  rw [List.getD, List.getD, List.get?_take h]

theorem frame_chain_iff (scratch : List Nat) (base : Nat) :
    frame_chain scratch base = true
      ↔ base < scratch.length ∧
        (get_element_tag (scratch.getD base 0) = Tag.array ∨
         get_element_tag (scratch.getD base 0) = Tag.object) ∧
        (get_element_value (scratch.getD base 0) = ROOT_MARKER ∨
          (get_element_value (scratch.getD base 0) < base ∧
           frame_chain scratch (get_element_value (scratch.getD base 0)) = true)) := by
  rw [frame_chain]
  constructor
  · intro h
    simp only [Bool.and_eq_true, Bool.or_eq_true, decide_eq_true_eq] at h
    obtain ⟨⟨h1, h2⟩, h3⟩ := h
    refine ⟨h1, h2, ?_⟩
    rcases h3 with h3 | h3
    · exact Or.inl h3
    · split at h3
      · rename_i hv
        exact Or.inr ⟨hv, h3⟩
      · exact absurd h3 (by simp)
  · intro h
    obtain ⟨h1, h2, h3⟩ := h
    simp only [Bool.and_eq_true, Bool.or_eq_true, decide_eq_true_eq]
    refine ⟨⟨h1, h2⟩, ?_⟩
    rcases h3 with h3 | ⟨h3, h4⟩
    · exact Or.inl h3
    · right
      rw [dif_pos h3]
      exact h4

theorem frame_chain_congr (s1 s2 : List Nat) :
    ∀ base, frame_chain s1 base = true →
      (∀ i, i ≤ base → s2.getD i 0 = s1.getD i 0) →
      base < s2.length →
      frame_chain s2 base = true := by
  intro base
  induction base using Nat.strong_induction_on with
  | _ base ih =>
    intro h hag hlen
    rw [frame_chain_iff] at h ⊢
    obtain ⟨h1, h2, h3⟩ := h
    rw [hag base (Nat.le_refl _)]
    refine ⟨hlen, h2, ?_⟩
    rcases h3 with h3 | ⟨h3, h4⟩
    · exact Or.inl h3
    · exact Or.inr ⟨h3, ih _ h3 h4 (fun i hi => hag i (by omega)) (by omega)⟩

theorem parse_null_pos (input : List Nat) (p q : Nat)
    (h : parse_null input p = .ok q) : q = p + 4 ∧ q ≤ input.length := by
  rw [parse_null] at h
  split at h
  · exact absurd h (by simp)
  · split at h
    · injection h with h
      rename_i hlen _
      omega
    · exact absurd h (by simp)

theorem parse_false_pos (input : List Nat) (p q : Nat)
    (h : parse_false input p = .ok q) : q = p + 5 ∧ q ≤ input.length := by
  rw [parse_false] at h
  split at h
  · exact absurd h (by simp)
  · split at h
    · injection h with h
      rename_i hlen _
      omega
    · exact absurd h (by simp)

theorem parse_true_pos (input : List Nat) (p q : Nat)
    (h : parse_true input p = .ok q) : q = p + 4 ∧ q ≤ input.length := by
  rw [parse_true] at h
  split at h
  · exact absurd h (by simp)
  · split at h
    · injection h with h
      rename_i hlen _
      omega
    · exact absurd h (by simp)

theorem ite_tt {α : Type} (a b : α) : (if true = true then a else b) = a := rfl

set_option maxHeartbeats 2000000 in
theorem parse_string_slow_spec :
    ∀ (fuel : Nat) (input : List Nat) (p e s : Nat) (inp : List Nat) (ks ke q : Nat),
      parse_string_slow input fuel p e s = .ok inp ks ke q →
      inp.length = input.length ∧ p + 1 ≤ q ∧ q ≤ input.length := by
  intro fuel
  induction fuel with
  | zero =>
    intro input p e s inp ks ke q h
    rw [parse_string_slow] at h
    exact nomatch h
  | succ fuel ih =>
    intro input p e s inp ks ke q h
    by_cases hc1 : input.length ≤ p
    · rw [show parse_string_slow input (fuel + 1) p e s = .err input .UNEXPECTED_END p 0 from by
        rw [parse_string_slow]; simp only [if_pos hc1]] at h
      exact nomatch h
    by_cases hc2 : input.getD p 0 < 32
    · rw [show parse_string_slow input (fuel + 1) p e s
          = .err input .ILLEGAL_CODEPOINT p ((input.getD p 0 : Int)) from by
        rw [parse_string_slow]; simp only [if_neg hc1, if_pos hc2]] at h
      exact nomatch h
    by_cases hc3 : input.getD p 0 = 34
    · rw [show parse_string_slow input (fuel + 1) p e s = .ok (input.set e 0) s e (p + 1) from by
        rw [parse_string_slow]; simp only [if_neg hc1, if_neg hc2, if_pos hc3]] at h
      injection h with h1 h2 h3 h4
      subst h1
      subst h4
      exact ⟨by simp, by omega, by omega⟩
    by_cases hc4 : input.getD p 0 = 92
    · -- escape
      by_cases hc5 : input.length ≤ p + 1
      · rw [show parse_string_slow input (fuel + 1) p e s
            = .err input .UNEXPECTED_END (p + 1) 0 from by
          rw [parse_string_slow]
          simp only [if_neg hc1, if_neg hc2, if_neg hc3, if_pos hc4, if_pos hc5]] at h
        exact nomatch h
      cases hb1 : (input.getD (p + 1) 0 = 34 || input.getD (p + 1) 0 = 92
          || input.getD (p + 1) 0 = 47 : Bool) with
      | true =>
        rw [show parse_string_slow input (fuel + 1) p e s
            = parse_string_slow (input.set e (input.getD (p + 1) 0)) fuel (p + 2) (e + 1) s
            from by
          rw [parse_string_slow]
          simp only [if_neg hc1, if_neg hc2, if_neg hc3, if_pos hc4, if_neg hc5,
            if_pos hb1, ite_tt, if_true]] at h
        obtain ⟨h1, h2, h3⟩ := ih _ _ _ _ _ _ _ _ h
        exact ⟨by simpa using h1, by omega, by simpa using h3⟩
      | false =>
        by_cases hc6 : input.getD (p + 1) 0 = 98
        · rw [show parse_string_slow input (fuel + 1) p e s
              = parse_string_slow (input.set e 8) fuel (p + 2) (e + 1) s from by
            rw [parse_string_slow]
            simp only [if_neg hc1, if_neg hc2, if_neg hc3, if_pos hc4, if_neg hc5,
              hb1, Bool.false_eq_true, if_false, if_pos hc6]] at h
          obtain ⟨h1, h2, h3⟩ := ih _ _ _ _ _ _ _ _ h
          exact ⟨by simpa using h1, by omega, by simpa using h3⟩
        by_cases hc7 : input.getD (p + 1) 0 = 102
        · rw [show parse_string_slow input (fuel + 1) p e s
              = parse_string_slow (input.set e 12) fuel (p + 2) (e + 1) s from by
            rw [parse_string_slow]
            simp only [if_neg hc1, if_neg hc2, if_neg hc3, if_pos hc4, if_neg hc5,
              hb1, Bool.false_eq_true, if_false, if_neg hc6, if_pos hc7]] at h
          obtain ⟨h1, h2, h3⟩ := ih _ _ _ _ _ _ _ _ h
          exact ⟨by simpa using h1, by omega, by simpa using h3⟩
        by_cases hc8 : input.getD (p + 1) 0 = 110
        · rw [show parse_string_slow input (fuel + 1) p e s
              = parse_string_slow (input.set e 10) fuel (p + 2) (e + 1) s from by
            rw [parse_string_slow]
            simp only [if_neg hc1, if_neg hc2, if_neg hc3, if_pos hc4, if_neg hc5,
              hb1, Bool.false_eq_true, if_false, if_neg hc6, if_neg hc7, if_pos hc8]] at h
          obtain ⟨h1, h2, h3⟩ := ih _ _ _ _ _ _ _ _ h
          exact ⟨by simpa using h1, by omega, by simpa using h3⟩
        by_cases hc9 : input.getD (p + 1) 0 = 114
        · rw [show parse_string_slow input (fuel + 1) p e s
              = parse_string_slow (input.set e 13) fuel (p + 2) (e + 1) s from by
            rw [parse_string_slow]
            simp only [if_neg hc1, if_neg hc2, if_neg hc3, if_pos hc4, if_neg hc5,
              hb1, Bool.false_eq_true, if_false, if_neg hc6, if_neg hc7, if_neg hc8,
              if_pos hc9]] at h
          obtain ⟨h1, h2, h3⟩ := ih _ _ _ _ _ _ _ _ h
          exact ⟨by simpa using h1, by omega, by simpa using h3⟩
        by_cases hc10 : input.getD (p + 1) 0 = 116
        · rw [show parse_string_slow input (fuel + 1) p e s
              = parse_string_slow (input.set e 9) fuel (p + 2) (e + 1) s from by
            rw [parse_string_slow]
            simp only [if_neg hc1, if_neg hc2, if_neg hc3, if_pos hc4, if_neg hc5,
              hb1, Bool.false_eq_true, if_false, if_neg hc6, if_neg hc7, if_neg hc8,
              if_neg hc9, if_pos hc10]] at h
          obtain ⟨h1, h2, h3⟩ := ih _ _ _ _ _ _ _ _ h
          exact ⟨by simpa using h1, by omega, by simpa using h3⟩
        by_cases hc11 : input.getD (p + 1) 0 = 117
        · -- unicode escape
          by_cases hc12 : input.length - (p + 2) < 4
          · rw [show parse_string_slow input (fuel + 1) p e s
                = .err input .UNEXPECTED_END (p + 2) 0 from by
              rw [parse_string_slow]
              simp only [if_neg hc1, if_neg hc2, if_neg hc3, if_pos hc4, if_neg hc5,
                hb1, Bool.false_eq_true, if_false, if_neg hc6, if_neg hc7, if_neg hc8,
                if_neg hc9, if_neg hc10, if_pos hc11, if_pos hc12]] at h
            exact nomatch h
          cases hrh : read_hex input (p + 2) with
          | error eq2 =>
            rw [show parse_string_slow input (fuel + 1) p e s
                = .err input eq2.1 eq2.2 0 from by
              rw [parse_string_slow]
              simp only [if_neg hc1, if_neg hc2, if_neg hc3, if_pos hc4, if_neg hc5,
                hb1, Bool.false_eq_true, if_false, if_neg hc6, if_neg hc7, if_neg hc8,
                if_neg hc9, if_neg hc10, if_pos hc11, if_neg hc12, hrh]] at h
            exact nomatch h
          | ok up3 =>
            obtain ⟨u, p3⟩ := up3
            have hp3 : p3 = p + 2 + 4 := read_hex_pos _ _ _ _ hrh
            cases hb2 : (0xD800 ≤ u && u ≤ 0xDBFF : Bool) with
            | true =>
              by_cases hc13 : input.length - p3 < 6
              · rw [show parse_string_slow input (fuel + 1) p e s
                    = .err input .UNEXPECTED_END_OF_UTF16 p3 0 from by
                  rw [parse_string_slow]
                  simp only [if_neg hc1, if_neg hc2, if_neg hc3, if_pos hc4, if_neg hc5,
                    hb1, Bool.false_eq_true, if_false, if_neg hc6, if_neg hc7, if_neg hc8,
                    if_neg hc9, if_neg hc10, if_pos hc11, if_neg hc12, hrh, hb2, ite_tt, if_true,
                    if_pos hc13]] at h
                exact nomatch h
              cases hb3 : (input.getD p3 0 ≠ 92 || input.getD (p3 + 1) 0 ≠ 117 : Bool) with
              | true =>
                rw [show parse_string_slow input (fuel + 1) p e s
                    = .err input .EXPECTED_U p3 0 from by
                  rw [parse_string_slow]
                  simp only [if_neg hc1, if_neg hc2, if_neg hc3, if_pos hc4, if_neg hc5,
                    hb1, Bool.false_eq_true, if_false, if_neg hc6, if_neg hc7, if_neg hc8,
                    if_neg hc9, if_neg hc10, if_pos hc11, if_neg hc12, hrh, hb2, ite_tt, if_true,
                    if_neg hc13, hb3]] at h
                exact nomatch h
              | false =>
                cases hrh2 : read_hex input (p3 + 2) with
                | error eq2 =>
                  rw [show parse_string_slow input (fuel + 1) p e s
                      = .err input eq2.1 eq2.2 0 from by
                    rw [parse_string_slow]
                    simp only [if_neg hc1, if_neg hc2, if_neg hc3, if_pos hc4, if_neg hc5,
                      hb1, Bool.false_eq_true, if_false, if_neg hc6, if_neg hc7, if_neg hc8,
                      if_neg hc9, if_neg hc10, if_pos hc11, if_neg hc12, hrh, hb2, ite_tt, if_true,
                      if_neg hc13, hb3, Bool.false_eq_true, if_false, hrh2]] at h
                  exact nomatch h
                | ok vp4 =>
                  obtain ⟨v, p4⟩ := vp4
                  have hp4 : p4 = p3 + 2 + 4 := read_hex_pos _ _ _ _ hrh2
                  cases hb4 : (v < 0xDC00 || 0xDFFF < v : Bool) with
                  | true =>
                    rw [show parse_string_slow input (fuel + 1) p e s
                        = .err input .INVALID_UTF16_TRAIL_SURROGATE p4 0 from by
                      rw [parse_string_slow]
                      simp only [if_neg hc1, if_neg hc2, if_neg hc3, if_pos hc4, if_neg hc5,
                        hb1, Bool.false_eq_true, if_false, if_neg hc6, if_neg hc7, if_neg hc8,
                        if_neg hc9, if_neg hc10, if_pos hc11, if_neg hc12, hrh, hb2, ite_tt, if_true,
                        if_neg hc13, hb3, Bool.false_eq_true, if_false, hrh2, hb4]] at h
                    exact nomatch h
                  | false =>
                    rw [show parse_string_slow input (fuel + 1) p e s
                        = parse_string_slow
                            (write_bytes input e
                              (write_utf8 (0x10000 + (((u - 0xD800) <<< 10) ||| (v - 0xDC00)))))
                            fuel p4
                            (e + (write_utf8
                              (0x10000 + (((u - 0xD800) <<< 10) ||| (v - 0xDC00)))).length) s
                        from by
                      rw [parse_string_slow]
                      simp only [if_neg hc1, if_neg hc2, if_neg hc3, if_pos hc4, if_neg hc5,
                        hb1, Bool.false_eq_true, if_false, if_neg hc6, if_neg hc7, if_neg hc8,
                        if_neg hc9, if_neg hc10, if_pos hc11, if_neg hc12, hrh, hb2, ite_tt, if_true,
                        if_neg hc13, hb3, Bool.false_eq_true, if_false, hrh2, hb4]] at h
                    obtain ⟨h1, h2, h3⟩ := ih _ _ _ _ _ _ _ _ h
                    rw [write_bytes_length] at h1 h3
                    exact ⟨h1, by omega, h3⟩
            | false =>
              rw [show parse_string_slow input (fuel + 1) p e s
                  = parse_string_slow (write_bytes input e (write_utf8 u)) fuel p3
                      (e + (write_utf8 u).length) s from by
                rw [parse_string_slow]
                simp only [if_neg hc1, if_neg hc2, if_neg hc3, if_pos hc4, if_neg hc5,
                  hb1, Bool.false_eq_true, if_false, if_neg hc6, if_neg hc7, if_neg hc8,
                  if_neg hc9, if_neg hc10, if_pos hc11, if_neg hc12, hrh, hb2,
                  Bool.false_eq_true, if_false]] at h
              obtain ⟨h1, h2, h3⟩ := ih _ _ _ _ _ _ _ _ h
              rw [write_bytes_length] at h1 h3
              exact ⟨h1, by omega, h3⟩
        · rw [show parse_string_slow input (fuel + 1) p e s
              = .err input .UNKNOWN_ESCAPE (p + 1) 0 from by
            rw [parse_string_slow]
            simp only [if_neg hc1, if_neg hc2, if_neg hc3, if_pos hc4, if_neg hc5,
              hb1, Bool.false_eq_true, if_false, if_neg hc6, if_neg hc7, if_neg hc8,
              if_neg hc9, if_neg hc10, if_neg hc11]] at h
          exact nomatch h
    by_cases hc14 : input.getD p 0 < 128
    · rw [show parse_string_slow input (fuel + 1) p e s
          = parse_string_slow (input.set e (input.getD p 0)) fuel (p + 1) (e + 1) s from by
        rw [parse_string_slow]
        simp only [if_neg hc1, if_neg hc2, if_neg hc3, if_neg hc4, if_pos hc14]] at h
      obtain ⟨h1, h2, h3⟩ := ih _ _ _ _ _ _ _ _ h
      exact ⟨by simpa using h1, by omega, by simpa using h3⟩
    by_cases hc15 : input.getD p 0 < 224
    · by_cases hc16 : input.length - p < 2
      · rw [show parse_string_slow input (fuel + 1) p e s
            = .err input .UNEXPECTED_END p 0 from by
          rw [parse_string_slow]
          simp only [if_neg hc1, if_neg hc2, if_neg hc3, if_neg hc4, if_neg hc14,
            if_pos hc15, if_pos hc16]] at h
        exact nomatch h
      cases hb5 : (input.getD (p + 1) 0 < 128 || 192 ≤ input.getD (p + 1) 0 : Bool) with
      | true =>
        rw [show parse_string_slow input (fuel + 1) p e s
            = .err input .INVALID_UTF8 (p + 1) 0 from by
          rw [parse_string_slow]
          simp only [if_neg hc1, if_neg hc2, if_neg hc3, if_neg hc4, if_neg hc14,
            if_pos hc15, if_neg hc16, hb5, ite_tt, if_true]] at h
        exact nomatch h
      | false =>
        rw [show parse_string_slow input (fuel + 1) p e s
            = parse_string_slow ((input.set e (input.getD p 0)).set (e + 1)
                (input.getD (p + 1) 0)) fuel (p + 2) (e + 2) s from by
          rw [parse_string_slow]
          simp only [if_neg hc1, if_neg hc2, if_neg hc3, if_neg hc4, if_neg hc14,
            if_pos hc15, if_neg hc16, hb5, Bool.false_eq_true, if_false]] at h
        obtain ⟨h1, h2, h3⟩ := ih _ _ _ _ _ _ _ _ h
        exact ⟨by simpa using h1, by omega, by simpa using h3⟩
    by_cases hc17 : input.getD p 0 < 240
    · by_cases hc18 : input.length - p < 3
      · rw [show parse_string_slow input (fuel + 1) p e s
            = .err input .UNEXPECTED_END p 0 from by
          rw [parse_string_slow]
          simp only [if_neg hc1, if_neg hc2, if_neg hc3, if_neg hc4, if_neg hc14,
            if_neg hc15, if_pos hc17, if_pos hc18]] at h
        exact nomatch h
      cases hb6 : (input.getD (p + 1) 0 < 128 || 192 ≤ input.getD (p + 1) 0 : Bool) with
      | true =>
        rw [show parse_string_slow input (fuel + 1) p e s
            = .err input .INVALID_UTF8 (p + 1) 0 from by
          rw [parse_string_slow]
          simp only [if_neg hc1, if_neg hc2, if_neg hc3, if_neg hc4, if_neg hc14,
            if_neg hc15, if_pos hc17, if_neg hc18, hb6, ite_tt, if_true]] at h
        exact nomatch h
      | false =>
        cases hb7 : (input.getD (p + 2) 0 < 128 || 192 ≤ input.getD (p + 2) 0 : Bool) with
        | true =>
          rw [show parse_string_slow input (fuel + 1) p e s
              = .err input .INVALID_UTF8 (p + 2) 0 from by
            rw [parse_string_slow]
            simp only [if_neg hc1, if_neg hc2, if_neg hc3, if_neg hc4, if_neg hc14,
              if_neg hc15, if_pos hc17, if_neg hc18, hb6, Bool.false_eq_true, if_false,
              hb7, ite_tt, if_true]] at h
          exact nomatch h
        | false =>
          rw [show parse_string_slow input (fuel + 1) p e s
              = parse_string_slow (((input.set e (input.getD p 0)).set (e + 1)
                  (input.getD (p + 1) 0)).set (e + 2) (input.getD (p + 2) 0)) fuel
                  (p + 3) (e + 3) s from by
            rw [parse_string_slow]
            simp only [if_neg hc1, if_neg hc2, if_neg hc3, if_neg hc4, if_neg hc14,
              if_neg hc15, if_pos hc17, if_neg hc18, hb6, Bool.false_eq_true, if_false,
              hb7]] at h
          obtain ⟨h1, h2, h3⟩ := ih _ _ _ _ _ _ _ _ h
          exact ⟨by simpa using h1, by omega, by simpa using h3⟩
    by_cases hc19 : input.getD p 0 < 248
    · by_cases hc20 : input.length - p < 4
      · rw [show parse_string_slow input (fuel + 1) p e s
            = .err input .UNEXPECTED_END p 0 from by
          rw [parse_string_slow]
          simp only [if_neg hc1, if_neg hc2, if_neg hc3, if_neg hc4, if_neg hc14,
            if_neg hc15, if_neg hc17, if_pos hc19, if_pos hc20]] at h
        exact nomatch h
      cases hb8 : (input.getD (p + 1) 0 < 128 || 192 ≤ input.getD (p + 1) 0 : Bool) with
      | true =>
        rw [show parse_string_slow input (fuel + 1) p e s
            = .err input .INVALID_UTF8 (p + 1) 0 from by
          rw [parse_string_slow]
          simp only [if_neg hc1, if_neg hc2, if_neg hc3, if_neg hc4, if_neg hc14,
            if_neg hc15, if_neg hc17, if_pos hc19, if_neg hc20, hb8, ite_tt, if_true]] at h
        exact nomatch h
      | false =>
        cases hb9 : (input.getD (p + 2) 0 < 128 || 192 ≤ input.getD (p + 2) 0 : Bool) with
        | true =>
          rw [show parse_string_slow input (fuel + 1) p e s
              = .err input .INVALID_UTF8 (p + 2) 0 from by
            rw [parse_string_slow]
            simp only [if_neg hc1, if_neg hc2, if_neg hc3, if_neg hc4, if_neg hc14,
              if_neg hc15, if_neg hc17, if_pos hc19, if_neg hc20, hb8, Bool.false_eq_true,
              if_false, hb9, ite_tt, if_true]] at h
          exact nomatch h
        | false =>
          cases hb10 : (input.getD (p + 3) 0 < 128 || 192 ≤ input.getD (p + 3) 0 : Bool) with
          | true =>
            rw [show parse_string_slow input (fuel + 1) p e s
                = .err input .INVALID_UTF8 (p + 3) 0 from by
              rw [parse_string_slow]
              simp only [if_neg hc1, if_neg hc2, if_neg hc3, if_neg hc4, if_neg hc14,
                if_neg hc15, if_neg hc17, if_pos hc19, if_neg hc20, hb8, Bool.false_eq_true,
                if_false, hb9, hb10, ite_tt, if_true]] at h
            exact nomatch h
          | false =>
            rw [show parse_string_slow input (fuel + 1) p e s
                = parse_string_slow ((((input.set e (input.getD p 0)).set (e + 1)
                    (input.getD (p + 1) 0)).set (e + 2) (input.getD (p + 2) 0)).set (e + 3)
                    (input.getD (p + 3) 0)) fuel (p + 4) (e + 4) s from by
              rw [parse_string_slow]
              simp only [if_neg hc1, if_neg hc2, if_neg hc3, if_neg hc4, if_neg hc14,
                if_neg hc15, if_neg hc17, if_pos hc19, if_neg hc20, hb8, Bool.false_eq_true,
                if_false, hb9, hb10]] at h
            obtain ⟨h1, h2, h3⟩ := ih _ _ _ _ _ _ _ _ h
            exact ⟨by simpa using h1, by omega, by simpa using h3⟩
    · rw [show parse_string_slow input (fuel + 1) p e s
          = .err input .INVALID_UTF8 p 0 from by
        rw [parse_string_slow]
        simp only [if_neg hc1, if_neg hc2, if_neg hc3, if_neg hc4, if_neg hc14,
          if_neg hc15, if_neg hc17, if_neg hc19]] at h
      exact nomatch h

theorem parse_string_spec (input : List Nat) (p : Nat) (inp : List Nat) (ks ke q : Nat)
    (h : parse_string input p = .ok inp ks ke q) :
    inp.length = input.length ∧ p + 2 ≤ q ∧ q ≤ input.length := by
  rw [parse_string] at h
  cases hsp : scan_plain (input.drop (p + 1)) (p + 1) with
  | none =>
    simp only [hsp] at h
    exact nomatch h
  | some r =>
    simp only [hsp] at h
    obtain ⟨hr1, hr2⟩ := scan_plain_spec _ _ _ hsp
    have hdl : (input.drop (p + 1)).length = input.length - (p + 1) := by simp
    by_cases hq : input.getD r 0 = 34
    · rw [if_pos hq] at h
      injection h with h1 h2 h3 h4
      subst h1
      subst h4
      refine ⟨by simp, by omega, by omega⟩
    · rw [if_neg hq] at h
      by_cases hctl : input.getD r 0 < 32
      · rw [if_pos hctl] at h
        exact nomatch h
      · rw [if_neg hctl] at h
        obtain ⟨h1, h2, h3⟩ := parse_string_slow_spec _ _ _ _ _ _ _ _ _ h
        exact ⟨h1, by omega, h3⟩

theorem int_digit_loop_bound (input : List Nat) :
    ∀ (fuel p c : Nat) (i : Int) (d : FP) (t : Bool) (p2 c2 : Nat) (i2 : Int) (d2 : FP)
      (t2 : Bool), p < input.length →
      int_digit_loop input fuel p c i d t = .ok p2 c2 i2 d2 t2 →
      p + 1 ≤ p2 ∧ p2 < input.length := by
  intro fuel
  induction fuel with
  | zero =>
    intro p c i d t p2 c2 i2 d2 t2 hp h
    rw [int_digit_loop] at h
    exact nomatch h
  | succ fuel ih =>
    intro p c i d t p2 c2 i2 d2 t2 hp h
    rw [int_digit_loop] at h
    simp only [] at h
    by_cases h1 : p + 1 = input.length
    · rw [if_pos h1] at h
      exact nomatch h
    · rw [if_neg h1] at h
      cases hb : (48 ≤ input.getD (p + 1) 0 && input.getD (p + 1) 0 ≤ 57 : Bool) with
      | true =>
        rw [hb, if_pos (rfl : true = true)] at h
        obtain ⟨ha, hb2⟩ := ih (p + 1) _ _ _ _ _ _ _ _ _ (by omega) h
        exact ⟨by omega, hb2⟩
      | false =>
        rw [hb] at h
        rw [if_neg (show ¬ (false = true) from by simp)] at h
        injection h with ha hb2 hc2 hd2 he2
        omega

theorem frac_digit_loop_bound (input : List Nat) :
    ∀ (fuel p c : Nat) (d : FP) (ex : Int) (p2 c2 : Nat) (d2 : FP) (ex2 : Int),
      p < input.length →
      frac_digit_loop input fuel p c d ex = .ok p2 c2 d2 ex2 →
      p + 1 ≤ p2 ∧ p2 < input.length := by
  intro fuel
  induction fuel with
  | zero =>
    intro p c d ex p2 c2 d2 ex2 hp h
    rw [frac_digit_loop] at h
    exact nomatch h
  | succ fuel ih =>
    intro p c d ex p2 c2 d2 ex2 hp h
    rw [frac_digit_loop] at h
    simp only [] at h
    by_cases h1 : p + 1 = input.length
    · rw [if_pos h1] at h
      exact nomatch h
    · rw [if_neg h1] at h
      cases hb : (48 ≤ input.getD (p + 1) 0 && input.getD (p + 1) 0 ≤ 57 : Bool) with
      | true =>
        rw [hb, if_pos (rfl : true = true)] at h
        obtain ⟨ha, hb2⟩ := ih (p + 1) _ _ _ _ _ _ _ (by omega) h
        exact ⟨by omega, hb2⟩
      | false =>
        rw [hb] at h
        rw [if_neg (show ¬ (false = true) from by simp)] at h
        injection h with ha hb2 hc2 hd2
        omega

theorem exp_digit_loop_bound (input : List Nat) :
    ∀ (fuel p c : Nat) (ex : Int) (p2 : Nat) (ex2 : Int),
      p < input.length →
      exp_digit_loop input fuel p c ex = .ok p2 ex2 →
      p + 1 ≤ p2 ∧ p2 < input.length := by
  intro fuel
  induction fuel with
  | zero =>
    intro p c ex p2 ex2 hp h
    rw [exp_digit_loop] at h
    exact nomatch h
  | succ fuel ih =>
    intro p c ex p2 ex2 hp h
    rw [exp_digit_loop] at h
    simp only [] at h
    by_cases h1 : p + 1 = input.length
    · rw [if_pos h1] at h
      exact nomatch h
    · rw [if_neg h1] at h
      cases hb : (48 ≤ input.getD (p + 1) 0 && input.getD (p + 1) 0 ≤ 57 : Bool) with
      | true =>
        rw [hb, if_pos (rfl : true = true)] at h
        obtain ⟨ha, hb2⟩ := ih (p + 1) _ _ _ _ (by omega) h
        exact ⟨by omega, hb2⟩
      | false =>
        rw [hb] at h
        rw [if_neg (show ¬ (false = true) from by simp)] at h
        injection h with ha hb2
        omega

theorem parse_number_finish_pos (p : Nat) (neg : Bool) (i : Int) (d : FP) (t : Bool)
    (e : Int) (q : Nat) (v : NumVal) (h : parse_number_finish p neg i d t e = .ok q v) :
    q = p := by
  rw [parse_number_finish] at h
  split at h
  · injection h with h1 h2
    omega
  · injection h with h1 h2
    omega

theorem parse_number_exp_pos (input : List Nat) (p : Nat) (neg : Bool) (i : Int) (d : FP)
    (t : Bool) (ex : Int) (q : Nat) (v : NumVal) (hp : p < input.length)
    (h : parse_number_exp input p neg i d t ex = .ok q v) :
    p ≤ q ∧ q < input.length := by
  rw [parse_number_exp] at h
  simp only [] at h
  cases he : (input.getD p 0 = 101 || input.getD p 0 = 69 : Bool) with
  | false =>
    rw [he] at h
    rw [if_neg (show ¬ (false = true) from by simp)] at h
    have := parse_number_finish_pos _ _ _ _ _ _ _ _ h
    omega
  | true =>
    rw [he, if_pos (rfl : true = true)] at h
    by_cases h1 : p + 1 = input.length
    · rw [if_pos h1] at h
      exact nomatch h
    · rw [if_neg h1] at h
      cases hsg : (decide (input.getD (p + 1) 0 = 45) || decide (input.getD (p + 1) 0 = 43)) with
      | true =>
        rw [hsg, if_pos (rfl : true = true)] at h
        by_cases h2 : p + 1 + 1 = input.length
        · rw [if_pos h2] at h
          exact nomatch h
        · rw [if_neg h2] at h
          cases hdig : (decide (input.getD (p + 1 + 1) 0 < 48)
              || decide (57 < input.getD (p + 1 + 1) 0)) with
          | true =>
            rw [hdig, if_pos (rfl : true = true)] at h
            exact nomatch h
          | false =>
            rw [hdig] at h
            rw [if_neg (show ¬ (false = true) from by simp)] at h
            cases hl : exp_digit_loop input (input.length + 1) (p + 1 + 1)
                (input.getD (p + 1 + 1) 0) 0 with
            | stuck =>
              rw [hl] at h
              exact nomatch h
            | err c2 q2 =>
              rw [hl] at h
              exact nomatch h
            | ok p3 e3 =>
              rw [hl] at h
              obtain ⟨ha, hb⟩ := exp_digit_loop_bound input _ _ _ _ _ _ (by omega) hl
              have := parse_number_finish_pos _ _ _ _ _ _ _ _ h
              omega
      | false =>
        rw [hsg] at h
        rw [if_neg (show ¬ (false = true) from by simp)] at h
        by_cases h2 : p + 1 = input.length
        · rw [if_pos h2] at h
          exact nomatch h
        · rw [if_neg h2] at h
          cases hdig : (decide (input.getD (p + 1) 0 < 48)
              || decide (57 < input.getD (p + 1) 0)) with
          | true =>
            rw [hdig, if_pos (rfl : true = true)] at h
            exact nomatch h
          | false =>
            rw [hdig] at h
            rw [if_neg (show ¬ (false = true) from by simp)] at h
            cases hl : exp_digit_loop input (input.length + 1) (p + 1)
                (input.getD (p + 1) 0) 0 with
            | stuck =>
              rw [hl] at h
              exact nomatch h
            | err c2 q2 =>
              rw [hl] at h
              exact nomatch h
            | ok p3 e3 =>
              rw [hl] at h
              obtain ⟨ha, hb⟩ := exp_digit_loop_bound input _ _ _ _ _ _ (by omega) hl
              have := parse_number_finish_pos _ _ _ _ _ _ _ _ h
              omega

theorem parse_number_frac_pos (input : List Nat) (p : Nat) (neg : Bool) (i : Int) (d : FP)
    (t : Bool) (q : Nat) (v : NumVal) (hp : p < input.length)
    (h : parse_number_frac input p neg i d t = .ok q v) :
    p ≤ q ∧ q < input.length := by
  rw [parse_number_frac] at h
  simp only [] at h
  by_cases hdot : input.getD p 0 = 46
  · rw [if_pos hdot] at h
    by_cases h1 : p + 1 = input.length
    · rw [if_pos h1] at h
      exact nomatch h
    · rw [if_neg h1] at h
      cases hdig : (decide (input.getD (p + 1) 0 < 48)
          || decide (57 < input.getD (p + 1) 0)) with
      | true =>
        rw [hdig, if_pos (rfl : true = true)] at h
        exact nomatch h
      | false =>
        rw [hdig] at h
        rw [if_neg (show ¬ (false = true) from by simp)] at h
        cases hl : frac_digit_loop input (input.length + 1) (p + 1)
            (input.getD (p + 1) 0) (if t = true then d else FP.finite (i : ℚ)) 0 with
        | stuck =>
          rw [hl] at h
          exact nomatch h
        | err c2 q2 =>
          rw [hl] at h
          exact nomatch h
        | ok p3 c3 d3 e3 =>
          rw [hl] at h
          obtain ⟨ha, hb⟩ := frac_digit_loop_bound input _ _ _ _ _ _ _ _ _ (by omega) hl
          obtain ⟨hc, hd⟩ := parse_number_exp_pos input _ _ _ _ _ _ _ _ hb h
          omega
  · rw [if_neg hdot] at h
    exact parse_number_exp_pos input _ _ _ _ _ _ _ _ hp h

theorem parse_number_pos (input : List Nat) (p q : Nat) (v : NumVal) (hp : p < input.length)
    (h : parse_number input p = .ok q v) :
    p + 1 ≤ q ∧ q < input.length := by
  rw [parse_number] at h
  simp only [] at h
  by_cases hneg : input.getD p 0 = 45
  · simp only [decide_eq_true hneg, if_pos hneg, Bool.true_and] at h
    cases hn : (decide (p + 1 = input.length)) with
    | true =>
      rw [hn, if_pos (rfl : true = true)] at h
      exact nomatch h
    | false =>
      rw [hn] at h
      rw [if_neg (show ¬ (false = true) from by simp)] at h
      have hn2 : p + 1 < input.length := by
        have := of_decide_eq_false hn
        omega
      by_cases h48 : input.getD (p + 1) 0 = 48
      · rw [if_pos h48] at h
        by_cases h1 : p + 1 + 1 = input.length
        · rw [if_pos h1] at h
          exact nomatch h
        · rw [if_neg h1] at h
          obtain ⟨ha, hb⟩ := parse_number_frac_pos input _ _ _ _ _ _ _ (by omega) h
          exact ⟨by omega, hb⟩
      · rw [if_neg h48] at h
        cases hdig : (decide (input.getD (p + 1) 0 < 48)
            || decide (57 < input.getD (p + 1) 0)) with
        | true =>
          rw [hdig, if_pos (rfl : true = true)] at h
          exact nomatch h
        | false =>
          rw [hdig] at h
          rw [if_neg (show ¬ (false = true) from by simp)] at h
          cases hl : int_digit_loop input (input.length + 1) (p + 1)
              (input.getD (p + 1) 0) 0 (FP.finite 0) false with
          | stuck =>
            rw [hl] at h
            exact nomatch h
          | err c2 q2 =>
            rw [hl] at h
            exact nomatch h
          | ok p3 c3 i3 d3 t3 =>
            rw [hl] at h
            obtain ⟨ha, hb⟩ := int_digit_loop_bound input _ _ _ _ _ _ _ _ _ _ _ hn2 hl
            obtain ⟨hc, hd⟩ := parse_number_frac_pos input _ _ _ _ _ _ _ hb h
            omega
  · simp only [decide_eq_false hneg, if_neg hneg, Bool.false_and, Bool.false_eq_true,
      if_false] at h
    by_cases h48 : input.getD p 0 = 48
    · rw [if_pos h48] at h
      by_cases h1 : p + 1 = input.length
      · rw [if_pos h1] at h
        exact nomatch h
      · rw [if_neg h1] at h
        obtain ⟨ha, hb⟩ := parse_number_frac_pos input _ _ _ _ _ _ _ (by omega) h
        exact ⟨by omega, hb⟩
    · rw [if_neg h48] at h
      cases hdig : (decide (input.getD p 0 < 48) || decide (57 < input.getD p 0)) with
      | true =>
        rw [hdig, if_pos (rfl : true = true)] at h
        exact nomatch h
      | false =>
        rw [hdig] at h
        rw [if_neg (show ¬ (false = true) from by simp)] at h
        cases hl : int_digit_loop input (input.length + 1) p
            (input.getD p 0) 0 (FP.finite 0) false with
        | stuck =>
          rw [hl] at h
          exact nomatch h
        | err c2 q2 =>
          rw [hl] at h
          exact nomatch h
        | ok p3 c3 i3 d3 t3 =>
          rw [hl] at h
          obtain ⟨ha, hb⟩ := int_digit_loop_bound input _ _ _ _ _ _ _ _ _ _ _ hp hl
          obtain ⟨hc, hd⟩ := parse_number_frac_pos input _ _ _ _ _ _ _ hb h
          omega

theorem install_array_cells_length (frame : List Nat) (alen : Nat) :
    (install_array_cells frame alen).length = frame.length + 1 := by
  simp [install_array_cells]

theorem to_object_records_length_le (l : List Nat) :
    3 * (to_object_records l).length ≤ l.length := by
  match l with
  | [] => simp [show to_object_records [] = ([] : List object_key_record) from rfl]
  | [a] => simp [show to_object_records [a] = ([] : List object_key_record) from rfl]
  | [a, b] => simp [show to_object_records [a, b] = ([] : List object_key_record) from rfl]
  | ks :: ke :: v :: rest =>
    rw [show to_object_records (ks :: ke :: v :: rest)
        = ⟨ks, ke, v⟩ :: to_object_records rest from rfl]
    simp only [List.length_cons]
    have := to_object_records_length_le rest
    omega
termination_by l.length

theorem flatMap_record_length (rs : List object_key_record) (A : Nat) :
    (rs.flatMap (fun r =>
      [Cell.word r.key_start, Cell.word r.key_end,
       Cell.word (make_element (get_element_tag r.value) (A - get_element_value r.value))])).length
      = 3 * rs.length := by
  induction rs with
  | nil => simp
  | cons r t ih =>
    simp only [List.flatMap_cons, List.length_append, ih, List.length_cons, List.length_nil]
    omega

theorem install_object_records_length0 (data : List Nat) (rs : List object_key_record) :
    (install_object_records data rs).length = rs.length := by
  rw [install_object_records]
  split
  · rw [sort_records]
    exact List.Perm.length_eq (List.mergeSort_perm rs _)
  · rfl

theorem install_object_cells_length (data frame : List Nat) (alen : Nat) :
    (install_object_cells data frame alen).length
      = 3 * (to_object_records frame).length + 1 := by
  rw [install_object_cells]
  simp only [List.length_cons]
  rw [flatMap_record_length]
  rw [install_object_records_length0]

theorem initial_Inv (input : List Nat) (st : PState)
    (h : initial_state input = .next st) :
    Inv st ∧ st.input = input := by
  rw [initial_state] at h
  cases hsw : skip_whitespace input 0 with
  | none =>
    simp only [hsw] at h
    exact nomatch h
  | some p =>
    simp only [hsw] at h
    obtain ⟨hp1, hp2⟩ := skip_whitespace_spec input 0 p hsw
    by_cases h91 : input.getD p 0 = 91
    · rw [if_pos h91] at h
      injection h with h
      subst h
      refine ⟨⟨by simpa using hp2, by simp, by simp, Or.inl rfl, ?_, ?_⟩, rfl⟩
      · rw [frame_chain_iff]
        refine ⟨by simp, ?_, Or.inl ?_⟩
        · simp only [List.getD_singleton_default_eq]
          rw [show ([make_element Tag.array ROOT_MARKER] : List Nat).getD 0 0
              = make_element Tag.array ROOT_MARKER from rfl]
          rw [get_element_tag_make]
          exact Or.inl rfl
        · rw [show ([make_element Tag.array ROOT_MARKER] : List Nat).getD 0 0
              = make_element Tag.array ROOT_MARKER from rfl]
          rw [get_element_value_make]
      · simp
    · rw [if_neg h91] at h
      by_cases h123 : input.getD p 0 = 123
      · rw [if_pos h123] at h
        injection h with h
        subst h
        refine ⟨⟨by simpa using hp2, by simp, by simp, Or.inr rfl, ?_, ?_⟩, rfl⟩
        · rw [frame_chain_iff]
          refine ⟨by simp, ?_, Or.inl ?_⟩
          · rw [show ([make_element Tag.object ROOT_MARKER] : List Nat).getD 0 0
                = make_element Tag.object ROOT_MARKER from rfl]
            rw [get_element_tag_make]
            exact Or.inr rfl
          · rw [show ([make_element Tag.object ROOT_MARKER] : List Nat).getD 0 0
                = make_element Tag.object ROOT_MARKER from rfl]
            rw [get_element_value_make]
        · simp
      · rw [if_neg h123] at h
        exact nomatch h

theorem frame_chain_append (s1 l : List Nat) (base : Nat)
    (h : frame_chain s1 base = true) : frame_chain (s1 ++ l) base = true := by
  have hb : base < s1.length := ((frame_chain_iff _ _).mp h).1
  exact frame_chain_congr s1 (s1 ++ l) base h
    (fun i hi => getD_append_left _ _ _ (by omega)) (by simp; omega)

theorem frame_chain_pop (s1 : List Nat) (b x parent : Nat)
    (hchain : frame_chain s1 parent = true) (hpb : parent < b) (hbs : b ≤ s1.length) :
    frame_chain (s1.take b ++ [x]) parent = true := by
  apply frame_chain_congr s1 _ parent hchain
  · intro i hi
    rw [getD_append_left _ _ _ (by simp only [List.length_take]; omega)]
    exact getD_take _ _ _ (by omega)
  · simp only [List.length_append, List.length_take, List.length_cons, List.length_nil]
    omega

theorem step_preserves (st st2 : PState) (hInv : Inv st) (h : step st = .next st2) :
    Inv st2 ∧ st2.input.length = st.input.length := by
  obtain ⟨hI1, hI2, hI3, hI4, hI5, hI6⟩ := hInv
  rw [step] at h
  cases hph : st.phase with
  | array_close_or_element =>
    rw [hph] at h hI6
    simp only [] at h hI6
    cases hsw : skip_whitespace st.input st.pos with
    | none =>
      simp only [hsw] at h
      exact nomatch h
    | some p =>
      simp only [hsw] at h
      obtain ⟨hp1, hp2⟩ := skip_whitespace_spec _ _ _ hsw
      by_cases h93 : st.input.getD p 0 = 93
      · rw [if_pos h93, pop_array] at h
        injection h with h
        subst h
        obtain ⟨hfc1, hfc2, hfc3⟩ := (frame_chain_iff _ _).mp hI5
        refine ⟨?_, rfl⟩
        rw [Inv]
        dsimp only
        refine ⟨by omega, hI2, by omega, hI4, hI5, hfc2, hfc3, ?_⟩
        rw [List.length_append, install_array_cells_length]
        simp only [List.length_drop]
        omega
      · rw [if_neg h93] at h
        injection h with h
        subst h
        refine ⟨?_, rfl⟩
        rw [Inv]
        dsimp only
        exact ⟨by omega, hI2, by omega, hI4, hI5, by omega⟩
  | object_close_or_element =>
    rw [hph] at h hI6
    simp only [] at h hI6
    cases hsw : skip_whitespace st.input st.pos with
    | none =>
      simp only [hsw] at h
      exact nomatch h
    | some p =>
      simp only [hsw] at h
      obtain ⟨hp1, hp2⟩ := skip_whitespace_spec _ _ _ hsw
      by_cases h125 : st.input.getD p 0 = 125
      · rw [if_pos h125, pop_object] at h
        injection h with h
        subst h
        obtain ⟨hfc1, hfc2, hfc3⟩ := (frame_chain_iff _ _).mp hI5
        refine ⟨?_, rfl⟩
        rw [Inv]
        dsimp only
        refine ⟨by omega, hI2, by omega, hI4, hI5, hfc2, hfc3, ?_⟩
        rw [List.length_append, install_object_cells_length]
        have h3L := to_object_records_length_le (st.scratch.drop (st.current_base + 1))
        simp only [List.length_drop] at h3L ⊢
        omega
      · rw [if_neg h125] at h
        injection h with h
        subst h
        refine ⟨?_, rfl⟩
        rw [Inv]
        dsimp only
        exact ⟨by omega, hI2, by omega, hI4, hI5, by omega⟩
  | structure_close_or_comma =>
    rw [hph] at h hI6
    simp only [] at h hI6
    cases hsw : skip_whitespace st.input st.pos with
    | none =>
      simp only [hsw] at h
      exact nomatch h
    | some p =>
      simp only [hsw] at h
      obtain ⟨hp1, hp2⟩ := skip_whitespace_spec _ _ _ hsw
      by_cases htag : st.current_tag = Tag.array
      · rw [if_pos htag] at h
        by_cases h93 : st.input.getD p 0 = 93
        · rw [if_pos h93, pop_array] at h
          injection h with h
          subst h
          obtain ⟨hfc1, hfc2, hfc3⟩ := (frame_chain_iff _ _).mp hI5
          refine ⟨?_, rfl⟩
          rw [Inv]
          dsimp only
          refine ⟨by omega, hI2, by omega, hI4, hI5, hfc2, hfc3, ?_⟩
          rw [List.length_append, install_array_cells_length]
          simp only [List.length_drop]
          omega
        · rw [if_neg h93] at h
          by_cases h44 : st.input.getD p 0 = 44
          · rw [if_pos h44] at h
            injection h with h
            subst h
            refine ⟨?_, rfl⟩
            rw [Inv]
            dsimp only
            exact ⟨by omega, hI2, by omega, hI4, hI5, by omega⟩
          · rw [if_neg h44] at h
            exact nomatch h
      · rw [if_neg htag] at h
        by_cases h125 : st.input.getD p 0 = 125
        · rw [if_pos h125, pop_object] at h
          injection h with h
          subst h
          obtain ⟨hfc1, hfc2, hfc3⟩ := (frame_chain_iff _ _).mp hI5
          refine ⟨?_, rfl⟩
          rw [Inv]
          dsimp only
          refine ⟨by omega, hI2, by omega, hI4, hI5, hfc2, hfc3, ?_⟩
          rw [List.length_append, install_object_cells_length]
          have h3L := to_object_records_length_le (st.scratch.drop (st.current_base + 1))
          simp only [List.length_drop] at h3L ⊢
          omega
        · rw [if_neg h125] at h
          by_cases h44 : st.input.getD p 0 = 44
          · rw [if_pos h44] at h
            injection h with h
            subst h
            refine ⟨?_, rfl⟩
            rw [Inv]
            dsimp only
            exact ⟨by omega, hI2, by omega, hI4, hI5, by omega⟩
          · rw [if_neg h44] at h
            exact nomatch h
  | object_key =>
    rw [hph] at h hI6
    simp only [] at h hI6
    cases hsw : skip_whitespace st.input st.pos with
    | none =>
      simp only [hsw] at h
      exact nomatch h
    | some p =>
      simp only [hsw] at h
      obtain ⟨hp1, hp2⟩ := skip_whitespace_spec _ _ _ hsw
      by_cases h34 : st.input.getD p 0 ≠ 34
      · rw [if_pos h34] at h
        exact nomatch h
      · rw [if_neg h34] at h
        cases hps : parse_string st.input p with
        | stuck =>
          simp only [hps] at h
          exact nomatch h
        | err a b c d =>
          simp only [hps] at h
          exact nomatch h
        | ok inp ks ke p2 =>
          simp only [hps] at h
          obtain ⟨hl1, hl2, hl3⟩ := parse_string_spec _ _ _ _ _ _ hps
          cases hsw2 : skip_whitespace inp p2 with
          | none =>
            simp only [hsw2] at h
            exact nomatch h
          | some r =>
            simp only [hsw2] at h
            obtain ⟨hr1, hr2⟩ := skip_whitespace_spec _ _ _ hsw2
            by_cases h58 : inp.getD r 0 ≠ 58
            · rw [if_pos h58] at h
              exact nomatch h
            · rw [if_neg h58] at h
              injection h with h
              subst h
              refine ⟨?_, by dsimp only; omega⟩
              rw [Inv]
              dsimp only
              refine ⟨by omega, ?_, ?_, hI4, frame_chain_append _ _ _ hI5, ?_⟩
              · simp only [List.length_append, List.length_cons, List.length_nil]
                omega
              · simp only [List.length_append, List.length_cons, List.length_nil]
                omega
              · simp only [List.length_append, List.length_cons, List.length_nil]
                omega
  | next_element =>
    rw [hph] at h hI6
    simp only [] at h hI6
    cases hsw : skip_whitespace st.input st.pos with
    | none =>
      simp only [hsw] at h
      exact nomatch h
    | some p =>
      simp only [hsw] at h
      obtain ⟨hp1, hp2⟩ := skip_whitespace_spec _ _ _ hsw
      by_cases hb0 : st.input.getD p 0 = 0
      · rw [if_pos hb0] at h
        exact nomatch h
      rw [if_neg hb0] at h
      by_cases hb110 : st.input.getD p 0 = 110
      · rw [if_pos hb110] at h
        cases hpn : parse_null st.input p with
        | error e2 =>
          simp only [hpn] at h
          exact nomatch h
        | ok p2 =>
          simp only [hpn, push_value] at h
          injection h with h
          subst h
          obtain ⟨hq1, hq2⟩ := parse_null_pos _ _ _ hpn
          refine ⟨?_, rfl⟩
          rw [Inv]
          dsimp only
          refine ⟨by omega, ?_, ?_, hI4, frame_chain_append _ _ _ hI5, ?_⟩ <;>
            simp only [List.length_append, List.length_cons, List.length_nil] <;> omega
      rw [if_neg hb110] at h
      by_cases hb102 : st.input.getD p 0 = 102
      · rw [if_pos hb102] at h
        cases hpn : parse_false st.input p with
        | error e2 =>
          simp only [hpn] at h
          exact nomatch h
        | ok p2 =>
          simp only [hpn, push_value] at h
          injection h with h
          subst h
          obtain ⟨hq1, hq2⟩ := parse_false_pos _ _ _ hpn
          refine ⟨?_, rfl⟩
          rw [Inv]
          dsimp only
          refine ⟨by omega, ?_, ?_, hI4, frame_chain_append _ _ _ hI5, ?_⟩ <;>
            simp only [List.length_append, List.length_cons, List.length_nil] <;> omega
      rw [if_neg hb102] at h
      by_cases hb116 : st.input.getD p 0 = 116
      · rw [if_pos hb116] at h
        cases hpn : parse_true st.input p with
        | error e2 =>
          simp only [hpn] at h
          exact nomatch h
        | ok p2 =>
          simp only [hpn, push_value] at h
          injection h with h
          subst h
          obtain ⟨hq1, hq2⟩ := parse_true_pos _ _ _ hpn
          refine ⟨?_, rfl⟩
          rw [Inv]
          dsimp only
          refine ⟨by omega, ?_, ?_, hI4, frame_chain_append _ _ _ hI5, ?_⟩ <;>
            simp only [List.length_append, List.length_cons, List.length_nil] <;> omega
      rw [if_neg hb116] at h
      cases hnum : (48 ≤ st.input.getD p 0 && st.input.getD p 0 ≤ 57
          || st.input.getD p 0 = 45 : Bool) with
      | true =>
        rw [hnum, if_pos (rfl : true = true)] at h
        cases hpm : parse_number st.input p with
        | stuck =>
          simp only [hpm] at h
          exact nomatch h
        | err e2 q2 =>
          simp only [hpm] at h
          exact nomatch h
        | ok p2 v =>
          obtain ⟨hq1, hq2⟩ := parse_number_pos _ _ _ _ hp2 hpm
          cases v with
          | asInt i =>
            simp only [hpm, push_value] at h
            injection h with h
            subst h
            refine ⟨?_, rfl⟩
            rw [Inv]
            dsimp only
            refine ⟨by omega, ?_, ?_, hI4, frame_chain_append _ _ _ hI5, ?_⟩ <;>
              simp only [List.length_append, List.length_cons, List.length_nil] <;> omega
          | asDbl d =>
            simp only [hpm, push_value] at h
            injection h with h
            subst h
            refine ⟨?_, rfl⟩
            rw [Inv]
            dsimp only
            refine ⟨by omega, ?_, ?_, hI4, frame_chain_append _ _ _ hI5, ?_⟩ <;>
              simp only [List.length_append, List.length_cons, List.length_nil] <;> omega
      | false =>
        rw [hnum] at h
        rw [if_neg (show ¬ (false = true) from by simp)] at h
        by_cases hb34 : st.input.getD p 0 = 34
        · rw [if_pos hb34] at h
          cases hps : parse_string st.input p with
          | stuck =>
            simp only [hps] at h
            exact nomatch h
          | err a b c d =>
            simp only [hps] at h
            exact nomatch h
          | ok inp ks ke p2 =>
            simp only [hps, push_value] at h
            injection h with h
            subst h
            obtain ⟨hl1, hl2, hl3⟩ := parse_string_spec _ _ _ _ _ _ hps
            refine ⟨?_, by dsimp only; omega⟩
            rw [Inv]
            dsimp only
            refine ⟨by omega, ?_, ?_, hI4, frame_chain_append _ _ _ hI5, ?_⟩ <;>
              simp only [List.length_append, List.length_cons, List.length_nil] <;> omega
        · rw [if_neg hb34] at h
          by_cases hb91 : st.input.getD p 0 = 91
          · rw [if_pos hb91] at h
            injection h with h
            subst h
            refine ⟨?_, rfl⟩
            rw [Inv]
            dsimp only
            refine ⟨by omega, ?_, ?_, Or.inl rfl, ?_, ?_⟩
            · simp only [List.length_append, List.length_cons, List.length_nil]
              omega
            · simp only [List.length_append, List.length_cons, List.length_nil]
              omega
            · rw [frame_chain_iff]
              refine ⟨by simp, ?_, ?_⟩
              · rw [getD_append_self, get_element_tag_make]
                exact hI4
              · rw [getD_append_self, get_element_value_make]
                by_cases hrm : st.current_base = ROOT_MARKER
                · exact Or.inl hrm
                · exact Or.inr ⟨by omega, frame_chain_append _ _ _ hI5⟩
            · simp only [List.length_append, List.length_cons, List.length_nil]
              omega
          · rw [if_neg hb91] at h
            by_cases hb123 : st.input.getD p 0 = 123
            · rw [if_pos hb123] at h
              injection h with h
              subst h
              refine ⟨?_, rfl⟩
              rw [Inv]
              dsimp only
              refine ⟨by omega, ?_, ?_, Or.inr rfl, ?_, ?_⟩
              · simp only [List.length_append, List.length_cons, List.length_nil]
                omega
              · simp only [List.length_append, List.length_cons, List.length_nil]
                omega
              · rw [frame_chain_iff]
                refine ⟨by simp, ?_, ?_⟩
                · rw [getD_append_self, get_element_tag_make]
                  exact hI4
                · rw [getD_append_self, get_element_value_make]
                  by_cases hrm : st.current_base = ROOT_MARKER
                  · exact Or.inl hrm
                  · exact Or.inr ⟨by omega, frame_chain_append _ _ _ hI5⟩
              · simp only [List.length_append, List.length_cons, List.length_nil]
                omega
            · rw [if_neg hb123] at h
              by_cases hb44 : st.input.getD p 0 = 44
              · rw [if_pos hb44] at h
                exact nomatch h
              · rw [if_neg hb44] at h
                exact nomatch h
  | pop_frame pe =>
    rw [hph] at h hI6
    simp only [] at h hI6
    obtain ⟨hpe1, hpe2, hpe3⟩ := hI6
    by_cases hroot : get_element_value pe = ROOT_MARKER
    · rw [if_pos hroot] at h
      cases hsw : skip_whitespace st.input st.pos with
      | some p =>
        simp only [hsw] at h
        exact nomatch h
      | none =>
        simp only [hsw] at h
        exact nomatch h
    · rw [if_neg hroot] at h
      injection h with h
      subst h
      have hpar : get_element_value pe < st.current_base ∧
          frame_chain st.scratch (get_element_value pe) = true := by
        rcases hpe2 with h2 | h2
        · exact absurd h2 hroot
        · exact h2
      refine ⟨?_, rfl⟩
      rw [Inv]
      dsimp only
      refine ⟨hI1, ?_, ?_, hpe1, ?_, ?_⟩
      · simp only [List.length_append, List.length_take, List.length_cons, List.length_nil]
        omega
      · simp only [List.length_append, List.length_take, List.length_cons, List.length_nil]
        omega
      · exact frame_chain_pop _ _ _ _ hpar.2 hpar.1 (by omega)
      · simp only [List.length_append, List.length_take, List.length_cons, List.length_nil]
        omega


theorem trace_Inv_aux (k : Nat) (st0 st : PState) (hInv : Inv st0)
    (h : trace k (.next st0) = some st) :
    Inv st ∧ st.input.length = st0.input.length := by
  induction k generalizing st0 with
  | zero =>
    simp only [trace] at h
    injection h with h
    subst h
    exact ⟨hInv, rfl⟩
  | succ k ih =>
    simp only [trace] at h
    cases hs : step st0 with
    | next st1 =>
      rw [hs] at h
      obtain ⟨hI, hlen⟩ := step_preserves st0 st1 hInv hs
      obtain ⟨hI2, hlen2⟩ := ih st1 hI h
      exact ⟨hI2, by omega⟩
    | done t a i =>
      rw [hs] at h
      cases k <;> simp [trace] at h
    | fail a b c d =>
      rw [hs] at h
      cases k <;> simp [trace] at h
    | stuck =>
      rw [hs] at h
      cases k <;> simp [trace] at h

theorem trace_parse_Inv (k : Nat) (input : List Nat) (st : PState)
    (h : trace_parse k input = some st) :
    Inv st ∧ st.input.length = input.length := by
  rw [trace_parse] at h
  cases hi : initial_state input with
  | next st0 =>
    rw [hi] at h
    obtain ⟨hI, heq⟩ := initial_Inv input st0 hi
    obtain ⟨hI2, hlen2⟩ := trace_Inv_aux k st0 st hI h
    rw [heq] at hlen2
    exact ⟨hI2, hlen2⟩
  | done t a i =>
    rw [hi] at h
    cases k <;> simp [trace] at h
  | fail a b c d =>
    rw [hi] at h
    cases k <;> simp [trace] at h
  | stuck =>
    rw [hi] at h
    cases k <;> simp [trace] at h

/-- Claim C1 (corrected): at every intermediate step of the parse the
cursor stays within the input, the scratch stack holds at most `pos`
words, the permanent AST words together with the open frame base fit in
`pos + 1` words, and outside the one-step pop transient the scratch and
AST words together are bounded by `pos + 1` (hence by `n + 1`).  The
claimed bound `scratch + ast ≤ n` at every step is false: during the pop
transient the just-reserved structure words and the not-yet-reset
scratch frame coexist and can exceed `n` (see the counterexample). -/
theorem C1_stack_bounds (k : Nat) (input : List Nat) (st : PState)
    (h : trace_parse k input = some st) :
    st.pos ≤ input.length ∧
    st.scratch.length ≤ st.pos ∧
    st.ast.length + st.current_base + 1 ≤ st.pos + 1 ∧
    (st.phase.isPop = false →
      st.scratch.length + st.ast.length ≤ st.pos + 1) := by
  obtain ⟨hInv, hlen⟩ := trace_parse_Inv k input st h
  obtain ⟨hI1, hI2, hI3, hI4, hI5, hI6⟩ := hInv
  refine ⟨by omega, hI3, ?_, ?_⟩
  · cases hph : st.phase <;> rw [hph] at hI6 <;> simp only [] at hI6 <;> omega
  · intro hnp
    cases hph : st.phase <;> rw [hph] at hI6 hnp <;> simp only [] at hI6 <;>
      first
      | omega
      | exact absurd hnp (by simp [Phase.isPop])

theorem C1_stack_bounds_witness :
    c1State.pos ≤ ([91, 93] : List Nat).length ∧
    c1State.scratch.length ≤ c1State.pos ∧
    c1State.ast.length + c1State.current_base + 1 ≤ c1State.pos + 1 ∧
    (c1State.phase.isPop = false →
      c1State.scratch.length + c1State.ast.length ≤ c1State.pos + 1) :=
  C1_stack_bounds 0 [91, 93] c1State rfl

/-- Claim C1 counterexample: parsing the four-byte input `[""]`, the
state right after the closing bracket installs the array holds 2 scratch
words plus 4 AST words, 6 > 4 = n: install_array reserves the structure
words before the scratch frame is reset, so total usage transiently
exceeds the input byte length. -/
theorem C1_transient_overlap :
    (trace_parse 3 [91, 34, 34, 93]).map
      (fun st => decide (st.scratch.length + st.ast.length ≤ st.input.length))
      = some false := by decide

/-- Claim C5: document::is_valid holds iff the root tag is array or
object; the default-constructed document and every error document have
root tag null, hence are invalid; and a document obtained from
get_document that is valid can only come from a fully successful parse,
whose root tag it carries. -/
theorem C5_is_valid (fuel : Nat) (input : List Nat) (d : document)
    (h : get_document fuel input = some d) :
    (d.is_valid = true ↔ (d.root_tag = Tag.array ∨ d.root_tag = Tag.object)) ∧
    default_document.is_valid = false ∧
    (∀ inp code pos arg, (error_document inp code pos arg).is_valid = false) ∧
    (d.is_valid = true → ∃ t a i, run_parse fuel input = .done t a i ∧
      d.root_tag = t ∧ (t = Tag.array ∨ t = Tag.object)) := by
  refine ⟨?_, by decide, fun inp code pos arg => rfl, ?_⟩
  · simp [document.is_valid]
  · intro hv
    rw [get_document] at h
    cases hr : run_parse fuel input with
    | next st =>
      simp only [hr] at h
      exact nomatch h
    | stuck =>
      simp only [hr] at h
      exact nomatch h
    | done t a i =>
      simp only [hr] at h
      injection h with h
      subst h
      refine ⟨t, a, i, rfl, rfl, ?_⟩
      simpa [document.is_valid] using hv
    | fail inp code pos arg =>
      simp only [hr] at h
      injection h with h
      subst h
      exact absurd hv (by simp [error_document, document.is_valid])

theorem C5_is_valid_witness :
    (c5Doc.is_valid = true ↔ (c5Doc.root_tag = Tag.array ∨ c5Doc.root_tag = Tag.object)) ∧
    default_document.is_valid = false ∧
    (∀ inp code pos arg, (error_document inp code pos arg).is_valid = false) ∧
    (c5Doc.is_valid = true → ∃ t a i, run_parse 8 [91, 93] = .done t a i ∧
      c5Doc.root_tag = t ∧ (t = Tag.array ∨ t = Tag.object)) :=
  C5_is_valid 8 [91, 93] c5Doc (by decide)

end Sajson
